import Mathlib

/-!
# Verification of the `blocker` cube-packing solver

A shallow embedding, in Lean 4, of the core of the `blocker` Rust crate:
`geometry.rs` (the 24 cube rotations and orientation generation),
`grid.rs` (cell indexing, the rotation permutation table and canonical keys),
`solver.rs` (placement precomputation and the iterative backtracking search)
and `persistence.rs` (the binary solution-file parser).

Modelling conventions:
* `i32` coordinates become `Int`; `usize` values become `Nat`.
* A byte array `[u8; GRID_SIZE]` (a grid key) is embedded as a single `Nat`
  holding `GRID_SIZE` base-256 digits, big-endian: the byte at cell `i` has
  weight `256 ^ (GRID_SIZE - 1 - i)`.  Two such arrays are byte-equal iff the
  encodings are equal, and the lexicographic array order used by
  `find_smallest_rotation` is exactly numeric order on the encodings.
* `u32`/`u64` bitmasks become `Nat`; the source never shifts by the full
  width (it special-cases `grid_size == 32`, `num_pieces == 32` and
  `grid_size == 64`), and on those paths the produced values coincide with
  the plain `Nat` formulas used here.
* Rust fixed-capacity arrays paired with a length (`positions`/`cube_count`,
  `placed_pieces`/`placed_count`) are embedded as the live prefix, a `List`.
* The iterative search loop (`while let Some(..) = stack.pop()`) is embedded
  as a fuel-indexed recursion returning `Option`; `none` means the fuel ran
  out, and the termination theorem shows the chosen fuel is never exhausted.
-/

namespace Blocker

/-- pieces.rs: `pub type Coord = (i32, i32, i32)`. -/
abbrev Coord := Int × Int × Int

/-- pieces.rs: `MAX_CUBES`. -/
def MAX_CUBES : Nat := 5

/-- geometry.rs: `ROTATIONS`, the 24 rotation functions, in source order
(6 face-up choices x 4 rotations about the vertical axis). -/
def ROTATIONS : List (Coord → Coord) :=
  [ fun c => (c.1, c.2.1, c.2.2)
  , fun c => (-c.2.1, c.1, c.2.2)
  , fun c => (-c.1, -c.2.1, c.2.2)
  , fun c => (c.2.1, -c.1, c.2.2)
  , fun c => (c.1, -c.2.2, c.2.1)
  , fun c => (c.2.2, c.1, c.2.1)
  , fun c => (-c.1, c.2.2, c.2.1)
  , fun c => (-c.2.2, -c.1, c.2.1)
  , fun c => (c.1, -c.2.1, -c.2.2)
  , fun c => (c.2.1, c.1, -c.2.2)
  , fun c => (-c.1, c.2.1, -c.2.2)
  , fun c => (-c.2.1, -c.1, -c.2.2)
  , fun c => (c.1, c.2.2, -c.2.1)
  , fun c => (-c.2.2, c.1, -c.2.1)
  , fun c => (-c.1, -c.2.2, -c.2.1)
  , fun c => (c.2.2, -c.1, -c.2.1)
  , fun c => (c.2.2, c.2.1, -c.1)
  , fun c => (-c.2.1, c.2.2, -c.1)
  , fun c => (-c.2.2, -c.2.1, -c.1)
  , fun c => (c.2.1, -c.2.2, -c.1)
  , fun c => (-c.2.2, c.2.1, c.1)
  , fun c => (-c.2.1, -c.2.2, c.1)
  , fun c => (c.2.2, -c.2.1, c.1)
  , fun c => (c.2.1, c.2.2, c.1) ]

/-- geometry.rs: `normalize_to_origin`.  The source computes the per-axis
minima with `.min().unwrap()`, which panics on an empty piece; the empty case
below is unreachable for the non-empty pieces the program uses. -/
def normalize_to_origin (coords : List Coord) : List Coord :=
  match (coords.map (·.1)).min?, (coords.map (·.2.1)).min?, (coords.map (·.2.2)).min? with
  | some min_x, some min_y, some min_z =>
      coords.map (fun c => (c.1 - min_x, c.2.1 - min_y, c.2.2 - min_z))
  | _, _, _ => []

/-- Rust's derived `Ord` on `(i32, i32, i32)` as a boolean `≤`. -/
def coordLe (a b : Coord) : Bool :=
  if a.1 < b.1 then true
  else if b.1 < a.1 then false
  else if a.2.1 < b.2.1 then true
  else if b.2.1 < a.2.1 then false
  else a.2.2 ≤ b.2.2

/-- Rust's derived `Ord` on `Vec<(i32, i32, i32)>` (lexicographic) as a
boolean `≤`. -/
def pieceLe : List Coord → List Coord → Bool
  | [], _ => true
  | _ :: _, [] => false
  | a :: as_, b :: bs => if a = b then pieceLe as_ bs else coordLe a b

/-- The sort order used by `all_orientations`, as a decidable relation. -/
def pieceLeR (a b : List Coord) : Prop := pieceLe a b = true

instance : DecidableRel pieceLeR := fun a b => by unfold pieceLeR; infer_instance

/-- geometry.rs: `all_orientations`.  `Vec::sort` (a stable sort by the
derived lexicographic `Ord`) becomes `insertionSort` by the same order:
the order is total and antisymmetric, so the sorted result is the same
list for any sorting algorithm (ties are equal elements).  `Vec::dedup`
(drop *adjacent* equal entries) becomes `destutter (· ≠ ·)`. -/
def all_orientations (piece : List Coord) : List (List Coord) :=
  let orientations :=
    ROTATIONS.map (fun rotate => normalize_to_origin (piece.map rotate))
  List.destutter (· ≠ ·) (orientations.insertionSort pieceLeR)

/-! ## grid.rs: cell indexing and the rotation permutation table -/

/-- Number of distinct cube orientations (grid.rs: `NUM_ROTATIONS`). -/
def NUM_ROTATIONS : Nat := 24

/-- grid.rs: the `match rot` formulas inside `build_rotation_table`, applied
to doubled centered coordinates.  These are the same formulas as
`geometry::ROTATIONS`. -/
def rotate_doubled (rot : Nat) (c : Int × Int × Int) : Int × Int × Int :=
  match rot with
  | 0 => (c.1, c.2.1, c.2.2)
  | 1 => (-c.2.1, c.1, c.2.2)
  | 2 => (-c.1, -c.2.1, c.2.2)
  | 3 => (c.2.1, -c.1, c.2.2)
  | 4 => (c.1, -c.2.2, c.2.1)
  | 5 => (c.2.2, c.1, c.2.1)
  | 6 => (-c.1, c.2.2, c.2.1)
  | 7 => (-c.2.2, -c.1, c.2.1)
  | 8 => (c.1, -c.2.1, -c.2.2)
  | 9 => (c.2.1, c.1, -c.2.2)
  | 10 => (-c.1, c.2.1, -c.2.2)
  | 11 => (-c.2.1, -c.1, -c.2.2)
  | 12 => (c.1, c.2.2, -c.2.1)
  | 13 => (-c.2.2, c.1, -c.2.1)
  | 14 => (-c.1, -c.2.2, -c.2.1)
  | 15 => (c.2.2, -c.1, -c.2.1)
  | 16 => (c.2.2, c.2.1, -c.1)
  | 17 => (-c.2.1, c.2.2, -c.1)
  | 18 => (-c.2.2, -c.2.1, -c.1)
  | 19 => (c.2.1, -c.2.2, -c.1)
  | 20 => (-c.2.2, c.2.1, c.1)
  | 21 => (-c.2.1, -c.2.2, c.1)
  | 22 => (c.2.2, -c.2.1, c.1)
  | _ => (c.2.1, c.2.2, c.1)

/-- grid.rs: the body of the inner `while src < GRID_SIZE` loop of
`build_rotation_table`: where cell `src` ends up under rotation `rot`.
The final `% 256` is the `dest as u8` store into the `u8` table. -/
def rot_table_entry (DIM : Nat) (rot src : Nat) : Nat :=
  let dim_m1 : Int := (DIM : Int) - 1
  let x : Int := (src / (DIM * DIM) : Nat)
  let y : Int := ((src / DIM) % DIM : Nat)
  let z : Int := (src % DIM : Nat)
  let cx := 2 * x - dim_m1
  let cy := 2 * y - dim_m1
  let cz := 2 * z - dim_m1
  let r := rotate_doubled rot (cx, cy, cz)
  let dx := (r.1 + dim_m1).toNat / 2
  let dy := (r.2.1 + dim_m1).toNat / 2
  let dz := (r.2.2 + dim_m1).toNat / 2
  (dx * DIM * DIM + dy * DIM + dz) % 256

/-- grid.rs: `build_rotation_table`, as a 24-row list of `GRID_SIZE`-entry
rows. -/
def build_rotation_table (DIM GRID_SIZE : Nat) : List (List Nat) :=
  (List.range NUM_ROTATIONS).map (fun rot =>
    (List.range GRID_SIZE).map (rot_table_entry DIM rot))

/-- grid.rs: `coord_to_idx`.  The `as usize` casts are faithful for the
in-range coordinates the program feeds it (theorems supply `0 ≤ _ < DIM`
hypotheses); Rust would wrap negative values. -/
def coord_to_idx (DIM : Nat) (x y z : Int) : Nat :=
  x.toNat * DIM * DIM + y.toNat * DIM + z.toNat

/-- grid.rs: `idx_to_coord`. -/
def idx_to_coord (DIM : Nat) (cell_index : Nat) : Coord :=
  ((cell_index / (DIM * DIM) : Nat), ((cell_index / DIM) % DIM : Nat),
    (cell_index % DIM : Nat))

/-- A cube coordinate lying inside the `dim`-sized grid. -/
def cubeInRange (dim : Nat) (c : Coord) : Prop :=
  0 ≤ c.1 ∧ c.1 < (dim : Int) ∧ 0 ≤ c.2.1 ∧ c.2.1 < (dim : Int) ∧
    0 ≤ c.2.2 ∧ c.2.2 < (dim : Int)

/-! ## Grid keys as base-256 encoded `Nat`s -/

/-- Weight of cell `i` in the big-endian base-256 encoding of a
`GRID_SIZE`-byte grid key. -/
def keyW (grid_size i : Nat) : Nat := 256 ^ (grid_size - 1 - i)

/-- Read the byte of cell `i` from an encoded grid key. -/
def keyGet (grid_size key i : Nat) : Nat :=
  (key >>> (8 * (grid_size - 1 - i))) &&& 255

/-- Store byte `v` at cell `i` of an encoded grid key (array assignment
`key[i] = v`; the `% 256` is the `u8` store). -/
def keySet (grid_size key i v : Nat) : Nat :=
  key - keyGet grid_size key i * keyW grid_size i + v % 256 * keyW grid_size i

/-- pieces.rs: `PlacedPiece`.  `positions`/`cube_count` are embedded as the
live prefix `cubes` (the source's `cubes()` accessor). -/
structure PlacedPiece where
  piece_index : Nat
  cubes : List Coord
deriving DecidableEq

/-- grid.rs: `solution_to_grid` (each cell gets 1-based piece number, 0 when
empty), on encoded grid keys. -/
def solution_to_grid (DIM GRID_SIZE : Nat) (solution : List PlacedPiece) : Nat :=
  solution.foldl (fun grid placed =>
    placed.cubes.foldl (fun grid c =>
      keySet GRID_SIZE grid (coord_to_idx DIM c.1 c.2.1 c.2.2)
        ((placed.piece_index + 1) % 256)) grid) 0

/-- grid.rs: `reflect_key_x` (mirror through the yz center plane). -/
def reflect_key_x (DIM GRID_SIZE : Nat) (original : Nat) : Nat :=
  (List.range DIM).foldl (fun acc x =>
    (List.range DIM).foldl (fun acc y =>
      (List.range DIM).foldl (fun acc z =>
        let source := x * DIM * DIM + y * DIM + z
        let dest := (DIM - 1 - x) * DIM * DIM + y * DIM + z
        keySet GRID_SIZE acc dest (keyGet GRID_SIZE original source)) acc) acc) 0

/-- grid.rs: `swap_chiral_in_key`: exchange the two 1-based chiral piece ids
wherever they occur.  Each cell is written at most once, so reading the
source byte from `original` matches the source's in-place update. -/
def swap_chiral_in_key (GRID_SIZE : Nat) (original : Nat) (chiral_pair : Nat × Nat) : Nat :=
  let first := (chiral_pair.1 + 1) % 256
  let second := (chiral_pair.2 + 1) % 256
  (List.range GRID_SIZE).foldl (fun swapped i =>
    let cell := keyGet GRID_SIZE original i
    if cell = first then keySet GRID_SIZE swapped i second
    else if cell = second then keySet GRID_SIZE swapped i first
    else swapped) original

/-- grid.rs: the inner loop of `find_smallest_rotation`: move each source
cell's byte to its rotated destination. -/
def apply_rotation (GRID_SIZE : Nat) (rotation_mapping : List Nat) (original : Nat) : Nat :=
  rotation_mapping.enum.foldl (fun rotated sd =>
    keySet GRID_SIZE rotated sd.2 (keyGet GRID_SIZE original sd.1)) 0

/-- grid.rs: `find_smallest_rotation`.  The source's `const` table is passed
in as `table` (it is compile-time data there).  Lexicographic `[u8; _]`
comparison is numeric comparison of the encodings. -/
def find_smallest_rotation (GRID_SIZE : Nat) (table : List (List Nat)) (original : Nat) : Nat :=
  (table.drop 1).foldl (fun smallest rotation_mapping =>
    let rotated := apply_rotation GRID_SIZE rotation_mapping original
    if rotated < smallest then rotated else smallest) original

/-- grid.rs: `find_smallest_rotation_with_reflection`. -/
def find_smallest_rotation_with_reflection (DIM GRID_SIZE : Nat)
    (table : List (List Nat)) (original : Nat) (chiral_pair : Option (Nat × Nat)) : Nat :=
  let smallest := find_smallest_rotation GRID_SIZE table original
  let reflected0 := reflect_key_x DIM GRID_SIZE original
  let reflected :=
    match chiral_pair with
    | some pair => swap_chiral_in_key GRID_SIZE reflected0 pair
    | none => reflected0
  let reflected_smallest := find_smallest_rotation GRID_SIZE table reflected
  if reflected_smallest < smallest then reflected_smallest else smallest

/-- grid.rs: `canonical_key`. -/
def canonical_key (DIM GRID_SIZE : Nat) (table : List (List Nat))
    (solution : List PlacedPiece) (chiral_pair : Option (Nat × Nat)) : Nat :=
  find_smallest_rotation_with_reflection DIM GRID_SIZE table
    (solution_to_grid DIM GRID_SIZE solution) chiral_pair

/-- The grid-cell index map of `reflect_key_x` (mirror the x coordinate),
used to state the reflection facts at the index level. -/
def mirror_idx (D j : Nat) : Nat :=
  (D - 1 - j / (D * D)) * D * D + j / D % D * D + j % D

/-- A rotation-table row is a permutation of the grid cells. -/
def RowOK (gs : Nat) (row : List Nat) : Prop :=
  row.length = gs ∧ row.Nodup ∧ (∀ d ∈ row, d < gs) ∧
    ∀ j, j < gs → ∃ s, s < gs ∧ row.getD s 0 = j

/-- The transformation named by the rotation-invariance claim: move every
cube of every placed piece to its destination cell under rotation `r` of the
grid rotation table, keeping each cube's piece index. -/
def rotate_solution (DIM : Nat) (table : List (List Nat)) (r : Nat)
    (sol : List PlacedPiece) : List PlacedPiece :=
  sol.map (fun p =>
    { p with cubes := p.cubes.map (fun c =>
        idx_to_coord DIM
          ((table.getD r []).getD (coord_to_idx DIM c.1 c.2.1 c.2.2) 0)) })

/-- The transformation named by the chiral-invariance claim: reflect every
cube across the x center plane and exchange the two chiral piece indices. -/
def reflect_swap_solution (DIM : Nat) (pair : Nat × Nat)
    (sol : List PlacedPiece) : List PlacedPiece :=
  sol.map (fun p =>
    { piece_index :=
        if p.piece_index = pair.1 then pair.2
        else if p.piece_index = pair.2 then pair.1 else p.piece_index
    , cubes := p.cubes.map (fun c => (((DIM : Int) - 1 - c.1, c.2.1, c.2.2) : Coord)) })

/-- The computed value of `build_rotation_table 3 27` (checked equal to the
builder below), so the group facts evaluate without rebuilding the table. -/
def ROT_TABLE_3 : List (List Nat) :=
  [ [0, 1, 2, 3, 4, 5, 6, 7, 8, 9, 10, 11, 12, 13, 14, 15, 16, 17, 18, 19, 20, 21, 22, 23, 24, 25, 26]
  , [18, 19, 20, 9, 10, 11, 0, 1, 2, 21, 22, 23, 12, 13, 14, 3, 4, 5, 24, 25, 26, 15, 16, 17, 6, 7, 8]
  , [24, 25, 26, 21, 22, 23, 18, 19, 20, 15, 16, 17, 12, 13, 14, 9, 10, 11, 6, 7, 8, 3, 4, 5, 0, 1, 2]
  , [6, 7, 8, 15, 16, 17, 24, 25, 26, 3, 4, 5, 12, 13, 14, 21, 22, 23, 0, 1, 2, 9, 10, 11, 18, 19, 20]
  , [6, 3, 0, 7, 4, 1, 8, 5, 2, 15, 12, 9, 16, 13, 10, 17, 14, 11, 24, 21, 18, 25, 22, 19, 26, 23, 20]
  , [0, 9, 18, 1, 10, 19, 2, 11, 20, 3, 12, 21, 4, 13, 22, 5, 14, 23, 6, 15, 24, 7, 16, 25, 8, 17, 26]
  , [18, 21, 24, 19, 22, 25, 20, 23, 26, 9, 12, 15, 10, 13, 16, 11, 14, 17, 0, 3, 6, 1, 4, 7, 2, 5, 8]
  , [24, 15, 6, 25, 16, 7, 26, 17, 8, 21, 12, 3, 22, 13, 4, 23, 14, 5, 18, 9, 0, 19, 10, 1, 20, 11, 2]
  , [8, 7, 6, 5, 4, 3, 2, 1, 0, 17, 16, 15, 14, 13, 12, 11, 10, 9, 26, 25, 24, 23, 22, 21, 20, 19, 18]
  , [2, 1, 0, 11, 10, 9, 20, 19, 18, 5, 4, 3, 14, 13, 12, 23, 22, 21, 8, 7, 6, 17, 16, 15, 26, 25, 24]
  , [20, 19, 18, 23, 22, 21, 26, 25, 24, 11, 10, 9, 14, 13, 12, 17, 16, 15, 2, 1, 0, 5, 4, 3, 8, 7, 6]
  , [26, 25, 24, 17, 16, 15, 8, 7, 6, 23, 22, 21, 14, 13, 12, 5, 4, 3, 20, 19, 18, 11, 10, 9, 2, 1, 0]
  , [2, 5, 8, 1, 4, 7, 0, 3, 6, 11, 14, 17, 10, 13, 16, 9, 12, 15, 20, 23, 26, 19, 22, 25, 18, 21, 24]
  , [20, 11, 2, 19, 10, 1, 18, 9, 0, 23, 14, 5, 22, 13, 4, 21, 12, 3, 26, 17, 8, 25, 16, 7, 24, 15, 6]
  , [26, 23, 20, 25, 22, 19, 24, 21, 18, 17, 14, 11, 16, 13, 10, 15, 12, 9, 8, 5, 2, 7, 4, 1, 6, 3, 0]
  , [8, 17, 26, 7, 16, 25, 6, 15, 24, 5, 14, 23, 4, 13, 22, 3, 12, 21, 2, 11, 20, 1, 10, 19, 0, 9, 18]
  , [2, 11, 20, 5, 14, 23, 8, 17, 26, 1, 10, 19, 4, 13, 22, 7, 16, 25, 0, 9, 18, 3, 12, 21, 6, 15, 24]
  , [20, 23, 26, 11, 14, 17, 2, 5, 8, 19, 22, 25, 10, 13, 16, 1, 4, 7, 18, 21, 24, 9, 12, 15, 0, 3, 6]
  , [26, 17, 8, 23, 14, 5, 20, 11, 2, 25, 16, 7, 22, 13, 4, 19, 10, 1, 24, 15, 6, 21, 12, 3, 18, 9, 0]
  , [8, 5, 2, 17, 14, 11, 26, 23, 20, 7, 4, 1, 16, 13, 10, 25, 22, 19, 6, 3, 0, 15, 12, 9, 24, 21, 18]
  , [18, 9, 0, 21, 12, 3, 24, 15, 6, 19, 10, 1, 22, 13, 4, 25, 16, 7, 20, 11, 2, 23, 14, 5, 26, 17, 8]
  , [24, 21, 18, 15, 12, 9, 6, 3, 0, 25, 22, 19, 16, 13, 10, 7, 4, 1, 26, 23, 20, 17, 14, 11, 8, 5, 2]
  , [6, 15, 24, 3, 12, 21, 0, 9, 18, 7, 16, 25, 4, 13, 22, 1, 10, 19, 8, 17, 26, 5, 14, 23, 2, 11, 20]
  , [0, 3, 6, 9, 12, 15, 18, 21, 24, 1, 4, 7, 10, 13, 16, 19, 22, 25, 2, 5, 8, 11, 14, 17, 20, 23, 26]
  ]

/-- The computed value of `build_rotation_table 4 64` (checked equal to the
builder below). -/
def ROT_TABLE_4 : List (List Nat) :=
  [ [0, 1, 2, 3, 4, 5, 6, 7, 8, 9, 10, 11, 12, 13, 14, 15, 16, 17, 18, 19, 20, 21, 22, 23, 24, 25, 26, 27, 28, 29, 30, 31, 32, 33, 34, 35, 36, 37, 38, 39, 40, 41, 42, 43, 44, 45, 46, 47, 48, 49, 50, 51, 52, 53, 54, 55, 56, 57, 58, 59, 60, 61, 62, 63]
  , [48, 49, 50, 51, 32, 33, 34, 35, 16, 17, 18, 19, 0, 1, 2, 3, 52, 53, 54, 55, 36, 37, 38, 39, 20, 21, 22, 23, 4, 5, 6, 7, 56, 57, 58, 59, 40, 41, 42, 43, 24, 25, 26, 27, 8, 9, 10, 11, 60, 61, 62, 63, 44, 45, 46, 47, 28, 29, 30, 31, 12, 13, 14, 15]
  , [60, 61, 62, 63, 56, 57, 58, 59, 52, 53, 54, 55, 48, 49, 50, 51, 44, 45, 46, 47, 40, 41, 42, 43, 36, 37, 38, 39, 32, 33, 34, 35, 28, 29, 30, 31, 24, 25, 26, 27, 20, 21, 22, 23, 16, 17, 18, 19, 12, 13, 14, 15, 8, 9, 10, 11, 4, 5, 6, 7, 0, 1, 2, 3]
  , [12, 13, 14, 15, 28, 29, 30, 31, 44, 45, 46, 47, 60, 61, 62, 63, 8, 9, 10, 11, 24, 25, 26, 27, 40, 41, 42, 43, 56, 57, 58, 59, 4, 5, 6, 7, 20, 21, 22, 23, 36, 37, 38, 39, 52, 53, 54, 55, 0, 1, 2, 3, 16, 17, 18, 19, 32, 33, 34, 35, 48, 49, 50, 51]
  , [12, 8, 4, 0, 13, 9, 5, 1, 14, 10, 6, 2, 15, 11, 7, 3, 28, 24, 20, 16, 29, 25, 21, 17, 30, 26, 22, 18, 31, 27, 23, 19, 44, 40, 36, 32, 45, 41, 37, 33, 46, 42, 38, 34, 47, 43, 39, 35, 60, 56, 52, 48, 61, 57, 53, 49, 62, 58, 54, 50, 63, 59, 55, 51]
  , [0, 16, 32, 48, 1, 17, 33, 49, 2, 18, 34, 50, 3, 19, 35, 51, 4, 20, 36, 52, 5, 21, 37, 53, 6, 22, 38, 54, 7, 23, 39, 55, 8, 24, 40, 56, 9, 25, 41, 57, 10, 26, 42, 58, 11, 27, 43, 59, 12, 28, 44, 60, 13, 29, 45, 61, 14, 30, 46, 62, 15, 31, 47, 63]
  , [48, 52, 56, 60, 49, 53, 57, 61, 50, 54, 58, 62, 51, 55, 59, 63, 32, 36, 40, 44, 33, 37, 41, 45, 34, 38, 42, 46, 35, 39, 43, 47, 16, 20, 24, 28, 17, 21, 25, 29, 18, 22, 26, 30, 19, 23, 27, 31, 0, 4, 8, 12, 1, 5, 9, 13, 2, 6, 10, 14, 3, 7, 11, 15]
  , [60, 44, 28, 12, 61, 45, 29, 13, 62, 46, 30, 14, 63, 47, 31, 15, 56, 40, 24, 8, 57, 41, 25, 9, 58, 42, 26, 10, 59, 43, 27, 11, 52, 36, 20, 4, 53, 37, 21, 5, 54, 38, 22, 6, 55, 39, 23, 7, 48, 32, 16, 0, 49, 33, 17, 1, 50, 34, 18, 2, 51, 35, 19, 3]
  , [15, 14, 13, 12, 11, 10, 9, 8, 7, 6, 5, 4, 3, 2, 1, 0, 31, 30, 29, 28, 27, 26, 25, 24, 23, 22, 21, 20, 19, 18, 17, 16, 47, 46, 45, 44, 43, 42, 41, 40, 39, 38, 37, 36, 35, 34, 33, 32, 63, 62, 61, 60, 59, 58, 57, 56, 55, 54, 53, 52, 51, 50, 49, 48]
  , [3, 2, 1, 0, 19, 18, 17, 16, 35, 34, 33, 32, 51, 50, 49, 48, 7, 6, 5, 4, 23, 22, 21, 20, 39, 38, 37, 36, 55, 54, 53, 52, 11, 10, 9, 8, 27, 26, 25, 24, 43, 42, 41, 40, 59, 58, 57, 56, 15, 14, 13, 12, 31, 30, 29, 28, 47, 46, 45, 44, 63, 62, 61, 60]
  , [51, 50, 49, 48, 55, 54, 53, 52, 59, 58, 57, 56, 63, 62, 61, 60, 35, 34, 33, 32, 39, 38, 37, 36, 43, 42, 41, 40, 47, 46, 45, 44, 19, 18, 17, 16, 23, 22, 21, 20, 27, 26, 25, 24, 31, 30, 29, 28, 3, 2, 1, 0, 7, 6, 5, 4, 11, 10, 9, 8, 15, 14, 13, 12]
  , [63, 62, 61, 60, 47, 46, 45, 44, 31, 30, 29, 28, 15, 14, 13, 12, 59, 58, 57, 56, 43, 42, 41, 40, 27, 26, 25, 24, 11, 10, 9, 8, 55, 54, 53, 52, 39, 38, 37, 36, 23, 22, 21, 20, 7, 6, 5, 4, 51, 50, 49, 48, 35, 34, 33, 32, 19, 18, 17, 16, 3, 2, 1, 0]
  , [3, 7, 11, 15, 2, 6, 10, 14, 1, 5, 9, 13, 0, 4, 8, 12, 19, 23, 27, 31, 18, 22, 26, 30, 17, 21, 25, 29, 16, 20, 24, 28, 35, 39, 43, 47, 34, 38, 42, 46, 33, 37, 41, 45, 32, 36, 40, 44, 51, 55, 59, 63, 50, 54, 58, 62, 49, 53, 57, 61, 48, 52, 56, 60]
  , [51, 35, 19, 3, 50, 34, 18, 2, 49, 33, 17, 1, 48, 32, 16, 0, 55, 39, 23, 7, 54, 38, 22, 6, 53, 37, 21, 5, 52, 36, 20, 4, 59, 43, 27, 11, 58, 42, 26, 10, 57, 41, 25, 9, 56, 40, 24, 8, 63, 47, 31, 15, 62, 46, 30, 14, 61, 45, 29, 13, 60, 44, 28, 12]
  , [63, 59, 55, 51, 62, 58, 54, 50, 61, 57, 53, 49, 60, 56, 52, 48, 47, 43, 39, 35, 46, 42, 38, 34, 45, 41, 37, 33, 44, 40, 36, 32, 31, 27, 23, 19, 30, 26, 22, 18, 29, 25, 21, 17, 28, 24, 20, 16, 15, 11, 7, 3, 14, 10, 6, 2, 13, 9, 5, 1, 12, 8, 4, 0]
  , [15, 31, 47, 63, 14, 30, 46, 62, 13, 29, 45, 61, 12, 28, 44, 60, 11, 27, 43, 59, 10, 26, 42, 58, 9, 25, 41, 57, 8, 24, 40, 56, 7, 23, 39, 55, 6, 22, 38, 54, 5, 21, 37, 53, 4, 20, 36, 52, 3, 19, 35, 51, 2, 18, 34, 50, 1, 17, 33, 49, 0, 16, 32, 48]
  , [3, 19, 35, 51, 7, 23, 39, 55, 11, 27, 43, 59, 15, 31, 47, 63, 2, 18, 34, 50, 6, 22, 38, 54, 10, 26, 42, 58, 14, 30, 46, 62, 1, 17, 33, 49, 5, 21, 37, 53, 9, 25, 41, 57, 13, 29, 45, 61, 0, 16, 32, 48, 4, 20, 36, 52, 8, 24, 40, 56, 12, 28, 44, 60]
  , [51, 55, 59, 63, 35, 39, 43, 47, 19, 23, 27, 31, 3, 7, 11, 15, 50, 54, 58, 62, 34, 38, 42, 46, 18, 22, 26, 30, 2, 6, 10, 14, 49, 53, 57, 61, 33, 37, 41, 45, 17, 21, 25, 29, 1, 5, 9, 13, 48, 52, 56, 60, 32, 36, 40, 44, 16, 20, 24, 28, 0, 4, 8, 12]
  , [63, 47, 31, 15, 59, 43, 27, 11, 55, 39, 23, 7, 51, 35, 19, 3, 62, 46, 30, 14, 58, 42, 26, 10, 54, 38, 22, 6, 50, 34, 18, 2, 61, 45, 29, 13, 57, 41, 25, 9, 53, 37, 21, 5, 49, 33, 17, 1, 60, 44, 28, 12, 56, 40, 24, 8, 52, 36, 20, 4, 48, 32, 16, 0]
  , [15, 11, 7, 3, 31, 27, 23, 19, 47, 43, 39, 35, 63, 59, 55, 51, 14, 10, 6, 2, 30, 26, 22, 18, 46, 42, 38, 34, 62, 58, 54, 50, 13, 9, 5, 1, 29, 25, 21, 17, 45, 41, 37, 33, 61, 57, 53, 49, 12, 8, 4, 0, 28, 24, 20, 16, 44, 40, 36, 32, 60, 56, 52, 48]
  , [48, 32, 16, 0, 52, 36, 20, 4, 56, 40, 24, 8, 60, 44, 28, 12, 49, 33, 17, 1, 53, 37, 21, 5, 57, 41, 25, 9, 61, 45, 29, 13, 50, 34, 18, 2, 54, 38, 22, 6, 58, 42, 26, 10, 62, 46, 30, 14, 51, 35, 19, 3, 55, 39, 23, 7, 59, 43, 27, 11, 63, 47, 31, 15]
  , [60, 56, 52, 48, 44, 40, 36, 32, 28, 24, 20, 16, 12, 8, 4, 0, 61, 57, 53, 49, 45, 41, 37, 33, 29, 25, 21, 17, 13, 9, 5, 1, 62, 58, 54, 50, 46, 42, 38, 34, 30, 26, 22, 18, 14, 10, 6, 2, 63, 59, 55, 51, 47, 43, 39, 35, 31, 27, 23, 19, 15, 11, 7, 3]
  , [12, 28, 44, 60, 8, 24, 40, 56, 4, 20, 36, 52, 0, 16, 32, 48, 13, 29, 45, 61, 9, 25, 41, 57, 5, 21, 37, 53, 1, 17, 33, 49, 14, 30, 46, 62, 10, 26, 42, 58, 6, 22, 38, 54, 2, 18, 34, 50, 15, 31, 47, 63, 11, 27, 43, 59, 7, 23, 39, 55, 3, 19, 35, 51]
  , [0, 4, 8, 12, 16, 20, 24, 28, 32, 36, 40, 44, 48, 52, 56, 60, 1, 5, 9, 13, 17, 21, 25, 29, 33, 37, 41, 45, 49, 53, 57, 61, 2, 6, 10, 14, 18, 22, 26, 30, 34, 38, 42, 46, 50, 54, 58, 62, 3, 7, 11, 15, 19, 23, 27, 31, 35, 39, 43, 47, 51, 55, 59, 63]
  ]

instance (gs : Nat) (row : List Nat) : Decidable (RowOK gs row) := by
  unfold RowOK
  infer_instance

instance (dim : Nat) (c : Coord) : Decidable (cubeInRange dim c) := by
  unfold cubeInRange
  infer_instance


/-! ## pieces.rs: the built-in puzzles -/

/-- pieces.rs: `CHIRAL_PAIR`. -/
def CHIRAL_PAIR : Nat × Nat := (4, 6)

/-- pieces.rs: `PIECES`, the seven Soma cube pieces. -/
def PIECES : List (List Coord) :=
  [ [(0, 0, 0), (1, 0, 0), (2, 0, 0), (0, 1, 0)]
  , [(0, 0, 0), (1, 0, 0), (2, 0, 0), (1, 1, 0)]
  , [(0, 0, 0), (1, 0, 0), (1, 1, 0), (2, 1, 0)]
  , [(0, 0, 0), (1, 0, 0), (0, 1, 0)]
  , [(0, 0, 0), (1, 0, 0), (0, 1, 0), (1, 0, 1)]
  , [(0, 0, 0), (1, 0, 0), (0, 1, 0), (0, 0, 1)]
  , [(0, 0, 0), (1, 0, 0), (0, 1, 0), (0, 1, 1)] ]

/-- pieces.rs: `SOMA_DIM`, `SOMA_GRID_SIZE`, `SOMA_NUM_PIECES`. -/
def SOMA_DIM : Nat := 3
def SOMA_GRID_SIZE : Nat := 27
def SOMA_NUM_PIECES : Nat := 7

/-- pieces.rs: `Puzzle` minus its const-generic parameters (those are passed
to the operations explicitly). -/
structure Puzzle where
  pieces : List (List Coord)
  chiral_pair : Option (Nat × Nat)

/-- pieces.rs: `SOMA_PUZZLE`. -/
def SOMA_PUZZLE : Puzzle := { pieces := PIECES, chiral_pair := some CHIRAL_PAIR }

/-- pieces.rs: `BEDLAM_PIECES`, the thirteen Bedlam cube pieces. -/
def BEDLAM_PIECES : List (List Coord) :=
  [ [(0, 0, 0), (0, 1, 0), (1, 0, 0), (0, 0, 1)]
  , [(0, 0, 0), (1, 0, 0), (2, 0, 0), (3, 0, 0), (3, 1, 0)]
  , [(0, 0, 0), (0, 1, 0), (1, 1, 0), (1, 2, 0), (2, 2, 0)]
  , [(0, 0, 0), (0, 1, 0), (1, 1, 0), (1, 2, 0), (1, 1, 1)]
  , [(0, 0, 0), (1, 0, 0), (1, 0, 1), (1, 1, 1), (2, 1, 1)]
  , [(0, 0, 0), (1, 0, 0), (1, 1, 0), (1, 1, 1), (2, 1, 1)]
  , [(0, 0, 0), (1, 0, 0), (2, 0, 0), (1, 1, 0), (1, 0, 1)]
  , [(0, 0, 0), (1, 0, 0), (1, 1, 0), (2, 1, 0), (1, 0, 1)]
  , [(0, 0, 0), (0, 1, 0), (1, 1, 0), (2, 1, 0), (1, 2, 0)]
  , [(0, 0, 0), (1, 0, 0), (2, 0, 0), (0, 1, 0), (2, 1, 0)]
  , [(0, 0, 0), (1, 0, 0), (1, 1, 0), (2, 1, 0), (2, 2, 0)]
  , [(0, 0, 1), (0, 1, 0), (0, 1, 1), (1, 1, 0), (1, 2, 0)]
  , [(0, 0, 0), (0, 1, 0), (0, 1, 1), (1, 1, 0), (1, 2, 0)] ]

/-- pieces.rs: `BEDLAM_DIM`, `BEDLAM_GRID_SIZE`, `BEDLAM_NUM_PIECES`. -/
def BEDLAM_DIM : Nat := 4
def BEDLAM_GRID_SIZE : Nat := 64
def BEDLAM_NUM_PIECES : Nat := 13

/-- pieces.rs: `BEDLAM_PUZZLE`. -/
def BEDLAM_PUZZLE : Puzzle := { pieces := BEDLAM_PIECES, chiral_pair := none }

/-! ## solver.rs -/

/-- solver.rs: `Placement`.  `cube_positions`/`cube_count` are embedded as
the live prefix list. -/
structure Placement where
  occupied_mask : Nat
  cube_positions : List Coord
deriving DecidableEq

/-- solver.rs: `PartialSolution`.  `placed_pieces`/`placed_count` are
embedded as the live prefix list. -/
structure PartialSolution where
  placed_pieces : List PlacedPiece
  remaining_pieces : Nat
  occupied_cells : Nat
  current_piece_index : Nat
  current_orientation_index : Nat
deriving DecidableEq

/-- solver.rs: `CellMask::all_filled`.  Both the `u32` path (with its
`grid_size == 32` special case) and the `u64` path (with `grid_size == 64`)
compute this value. -/
def all_filled (grid_size : Nat) : Nat := (1 <<< grid_size) - 1

/-- `u32::trailing_ones` / `u64::trailing_ones` for values below `2 ^ 64`,
via 64 structural steps (so that the kernel can evaluate it). -/
def trailingOnesAux : Nat → Nat → Nat
  | 0, _ => 0
  | fuel + 1, m => if m &&& 1 = 1 then trailingOnesAux fuel (m >>> 1) + 1 else 0

/-- solver.rs: `CellMask::trailing_ones`. -/
def trailing_ones (m : Nat) : Nat := trailingOnesAux 64 m

/-- solver.rs: `find_first_empty_cell`. -/
def find_first_empty_cell (grid_size : Nat) (occupied : Nat) : Option Nat :=
  if occupied = all_filled grid_size then none else some (trailing_ones occupied)

/-- solver.rs: `try_create_placement`: shift `orientation` so `anchor` lands
on `target`, reject out-of-bounds results, and accumulate the occupancy
bitmask and absolute positions. -/
def try_create_placement (DIM : Nat) (orientation : List Coord)
    (target anchor : Coord) : Option Placement :=
  let offset : Coord :=
    (target.1 - anchor.1, target.2.1 - anchor.2.1, target.2.2 - anchor.2.2)
  let dim : Int := (DIM : Int)
  let folded := orientation.foldl (fun acc c =>
    acc.bind fun ms =>
      let ax := c.1 + offset.1
      let ay := c.2.1 + offset.2.1
      let az := c.2.2 + offset.2.2
      if 0 ≤ ax ∧ ax < dim ∧ 0 ≤ ay ∧ ay < dim ∧ 0 ≤ az ∧ az < dim then
        some (ms.1 ||| (1 <<< coord_to_idx DIM ax ay az), ms.2 ++ [(ax, ay, az)])
      else none) (some (0, []))
  folded.map fun ms => { occupied_mask := ms.1, cube_positions := ms.2 }

/-- solver.rs: `build_placement_table`: piece index, then target cell, then
the legal placements covering that cell (each orientation, each cube of it
as anchor, in source order). -/
def build_placement_table (DIM GRID_SIZE : Nat) (pieces : List (List Coord)) :
    List (List (List Placement)) :=
  pieces.map (fun piece =>
    let orientations := all_orientations piece
    (List.range GRID_SIZE).map (fun target_cell =>
      let target_position := idx_to_coord DIM target_cell
      orientations.foldl (fun placements orientation =>
        placements ++ orientation.filterMap (fun anchor =>
          try_create_placement DIM orientation target_position anchor)) []))

/-- The occupancy bitmask of a placed piece, rebuilt from its absolute cube
positions exactly the way `try_create_placement` accumulates it. -/
def pieceMask (dim : Nat) (p : PlacedPiece) : Nat :=
  p.cubes.foldl (fun m c => m ||| (1 <<< coord_to_idx dim c.1 c.2.1 c.2.2)) 0

/-- Bitwise OR of the occupancy masks of a solution's placed pieces. -/
def masks_or (dim : Nat) (sol : List PlacedPiece) : Nat :=
  (sol.map (pieceMask dim)).foldl (· ||| ·) 0

/-- The data `solve_with_mask` computes up front and shares with every
iteration of its search loop: the puzzle constants, the precomputed rotation
table (compile-time data in the source) and the placement table. -/
structure SolveCtx where
  dim : Nat
  grid_size : Nat
  num_pieces : Nat
  rot_table : List (List Nat)
  chiral_pair : Option (Nat × Nat)
  placement_table : List (List (List Placement))

/-- solver.rs: the inner `while part.current_orientation_index <
valid_placements.len()` loop of `solve_with_mask`, scanning `placements`
(the suffix of the placement list from cursor `oi`).  Returns the advanced
cursor, the accepted placement and its canonical key, or `none` when the
list is exhausted. -/
def scan_placements (ctx : SolveCtx) (occupied : Nat) (placed : List PlacedPiece)
    (seen : Batteries.RBSet Nat compare) (piece_index : Nat) :
    List Placement → Nat → Option (Nat × Placement × Nat)
  | [], _ => none
  | placement :: rest, oi =>
    if (occupied &&& placement.occupied_mask) ≠ 0 then
      scan_placements ctx occupied placed seen piece_index rest (oi + 1)
    else
      let new_piece : PlacedPiece :=
        { piece_index := piece_index, cubes := placement.cube_positions }
      let new_placed := placed ++ [new_piece]
      let canonical :=
        canonical_key ctx.dim ctx.grid_size ctx.rot_table new_placed ctx.chiral_pair
      if seen.contains canonical then
        scan_placements ctx occupied placed seen piece_index rest (oi + 1)
      else
        some (oi + 1, placement, canonical)

/-- solver.rs: the `'pieces: loop` of `solve_with_mask`: find the next
remaining piece at or after the piece cursor (skipping cleared bits keeps
the stored orientation cursor, per the source's `find`), scan its placements
at the target cell, and on failure move to the next piece with the
orientation cursor reset to zero. -/
def scan_pieces (ctx : SolveCtx) (remaining occupied : Nat)
    (placed : List PlacedPiece) (seen : Batteries.RBSet Nat compare)
    (target_cell : Nat) :
    List Nat → Nat → Option (Nat × Nat × Placement × Nat)
  | [], _ => none
  | pi :: rest, oi =>
    if remaining &&& (1 <<< pi) = 0 then
      scan_pieces ctx remaining occupied placed seen target_cell rest oi
    else
      let valid_placements := ((ctx.placement_table.getD pi []).getD target_cell [])
      match scan_placements ctx occupied placed seen pi
          (valid_placements.drop oi) oi with
      | some (oi', placement, canonical) => some (pi, oi', placement, canonical)
      | none => scan_pieces ctx remaining occupied placed seen target_cell rest 0

/-- solver.rs: the `while let Some(mut partial) = search_stack.pop()` loop of
`solve_with_mask`, with explicit fuel (`none` = fuel exhausted; the
termination theorem shows the fuel provided by `solve` is never exhausted).
The head of `stack` is the top. -/
def solve_loop (ctx : SolveCtx) (max_solutions : Option Nat) :
    Nat → List PartialSolution → List (List PlacedPiece) →
    Batteries.RBSet Nat compare → Option (List (List PlacedPiece))
  | 0, _, _, _ => none
  | _ + 1, [], solutions, _ => some solutions
  | fuel + 1, part :: rest, solutions, seen =>
    match find_first_empty_cell ctx.grid_size part.occupied_cells with
    | none =>
      let solutions' := solutions ++ [part.placed_pieces]
      if (match max_solutions with
          | some mx => decide (solutions'.length ≥ mx)
          | none => false) then
        some solutions'
      else
        solve_loop ctx max_solutions fuel rest solutions' seen
    | some target_cell =>
      match scan_pieces ctx part.remaining_pieces part.occupied_cells
          part.placed_pieces seen target_cell
          (List.range' part.current_piece_index
            (ctx.num_pieces - part.current_piece_index))
          part.current_orientation_index with
      | none => solve_loop ctx max_solutions fuel rest solutions seen
      | some (pi, oi', placement, canonical) =>
        let new_piece : PlacedPiece :=
          { piece_index := pi, cubes := placement.cube_positions }
        let parent :=
          { part with current_piece_index := pi, current_orientation_index := oi' }
        let child : PartialSolution :=
          { placed_pieces := part.placed_pieces ++ [new_piece]
          , remaining_pieces :=
              part.remaining_pieces &&& (4294967295 ^^^ (1 <<< pi))
          , occupied_cells := part.occupied_cells ||| placement.occupied_mask
          , current_piece_index := 0
          , current_orientation_index := 0 }
        solve_loop ctx max_solutions fuel (child :: parent :: rest) solutions
          (seen.insert canonical)

/-- solver.rs: `initial_remaining` (the `num_pieces == 32` special case of
the source computes the same value). -/
def initial_remaining (num_pieces : Nat) : Nat := (1 <<< num_pieces) - 1

/-- Largest placement-list length in the table (bounds a frame's orientation
cursor). -/
def max_placements (ctx : SolveCtx) : Nat :=
  ctx.placement_table.foldl (fun m per_piece =>
    per_piece.foldl (fun m pl => max m pl.length) m) 0

/-- Upper bound for a frame's cursor measure. -/
def cursor_bound (ctx : SolveCtx) : Nat :=
  ctx.num_pieces * (max_placements ctx + 1) + max_placements ctx

/-- Remaining cursor positions of a frame (strictly decreases when the frame
is re-pushed with an advanced cursor). -/
def cursor_measure (ctx : SolveCtx) (f : PartialSolution) : Nat :=
  (ctx.num_pieces - f.current_piece_index) * (max_placements ctx + 1) +
    (max_placements ctx - f.current_orientation_index)

/-- Potential of one search frame: dominates the total potential of the
whole subtree it can still generate.  The exponent shrinks with every
placed piece (each child frame places one more piece). -/
def frame_potential (ctx : SolveCtx) (f : PartialSolution) : Nat :=
  (cursor_bound ctx + 2) ^ (ctx.num_pieces - f.placed_pieces.length) *
    (cursor_measure ctx f + 1)

/-- Potential of the whole stack: strictly decreases at every iteration of
`solve_loop`. -/
def stack_potential (ctx : SolveCtx) (stack : List PartialSolution) : Nat :=
  (stack.map (frame_potential ctx)).sum

/-- solver.rs: `Puzzle::solve` / `solve_with_mask` (the `u32` and `u64` mask
paths coincide in the `Nat` embedding).  The fuel is one more than the
initial stack potential; the termination theorem shows this is enough, so a
`none` result never occurs. -/
def solve (DIM GRID_SIZE : Nat) (puzzle : Puzzle) (max_solutions : Option Nat) :
    Option (List (List PlacedPiece)) :=
  let ctx : SolveCtx :=
    { dim := DIM
    , grid_size := GRID_SIZE
    , num_pieces := puzzle.pieces.length
    , rot_table := build_rotation_table DIM GRID_SIZE
    , chiral_pair := puzzle.chiral_pair
    , placement_table := build_placement_table DIM GRID_SIZE puzzle.pieces }
  let init : PartialSolution :=
    { placed_pieces := []
    , remaining_pieces := initial_remaining ctx.num_pieces
    , occupied_cells := 0
    , current_piece_index := 0
    , current_orientation_index := 0 }
  solve_loop ctx max_solutions (stack_potential ctx [init] + 1) [init] [] ∅

/-- The context `solve` sets up before entering its search loop (named here
so that theorems about the loop's individual steps can mention it). -/
def solve_ctx (DIM GRID_SIZE : Nat) (puzzle : Puzzle) : SolveCtx :=
  { dim := DIM
  , grid_size := GRID_SIZE
  , num_pieces := puzzle.pieces.length
  , rot_table := build_rotation_table DIM GRID_SIZE
  , chiral_pair := puzzle.chiral_pair
  , placement_table := build_placement_table DIM GRID_SIZE puzzle.pieces }

/-- Every placement stored in a context's placement table has its occupancy
mask built from its absolute positions, all of them inside the grid. -/
def TableOK (ctx : SolveCtx) : Prop :=
  ∀ pi t pl, pl ∈ ((ctx.placement_table.getD pi []).getD t []) →
    pl.occupied_mask = pl.cube_positions.foldl
      (fun m c => m ||| (1 <<< coord_to_idx ctx.dim c.1 c.2.1 c.2.2)) 0 ∧
    ∀ c ∈ pl.cube_positions, cubeInRange ctx.dim c

/-- Every placement stored in a context's placement table covers at least
one cube (holds when every puzzle piece is non-empty). -/
def TableNE (ctx : SolveCtx) : Prop :=
  ∀ pi t pl, pl ∈ ((ctx.placement_table.getD pi []).getD t []) →
    pl.cube_positions ≠ []

/-- The per-frame solver invariant: the occupied-cell mask is exactly the OR
of the placed pieces' masks, those masks are pairwise disjoint, piece
indices are pairwise distinct, in range, and cleared from the
remaining-pieces bitmask. -/
def FrameInv (ctx : SolveCtx) (f : PartialSolution) : Prop :=
  f.occupied_cells = masks_or ctx.dim f.placed_pieces ∧
  f.placed_pieces.Pairwise
    (fun p q => pieceMask ctx.dim p &&& pieceMask ctx.dim q = 0) ∧
  (f.placed_pieces.map (·.piece_index)).Nodup ∧
  ∀ p ∈ f.placed_pieces, p.piece_index < ctx.num_pieces ∧
    f.remaining_pieces.testBit p.piece_index = false

/-- The part of the frame invariant that bounds the search depth: the placed
pieces' indices are pairwise distinct, in range, and cleared from the
remaining-pieces bitmask (so a piece index yet to be scanned, whose bit is
still set, is new). -/
def DepthInv (ctx : SolveCtx) (f : PartialSolution) : Prop :=
  (f.placed_pieces.map (·.piece_index)).Nodup ∧
  ∀ p ∈ f.placed_pieces, p.piece_index < ctx.num_pieces ∧
    f.remaining_pieces.testBit p.piece_index = false

/-- What the solver guarantees of every recorded solution: its pieces'
masks OR to the full-grid mask and are pairwise disjoint, and its piece
indices are pairwise distinct and in range. -/
def SolOK (ctx : SolveCtx) (sol : List PlacedPiece) : Prop :=
  masks_or ctx.dim sol = all_filled ctx.grid_size ∧
  sol.Pairwise (fun p q => pieceMask ctx.dim p &&& pieceMask ctx.dim q = 0) ∧
  (sol.map (·.piece_index)).Nodup ∧
  ∀ p ∈ sol, p.piece_index < ctx.num_pieces

/-! ## persistence.rs -/

/-- persistence.rs: `read_u32` (little-endian) on a byte stream. -/
def read_u32 : List Nat → Option (Nat × List Nat)
  | b0 :: b1 :: b2 :: b3 :: rest =>
      some (b0 % 256 + 256 * (b1 % 256) + 65536 * (b2 % 256) +
        16777216 * (b3 % 256), rest)
  | _ => none

/-- persistence.rs: `expected_piece_mask` (the `num_pieces == 32` special
case of the source computes the same value). -/
def expected_piece_mask (num_pieces : Nat) : Nat := (1 <<< num_pieces) - 1

/-- persistence.rs: the `for i in 0..cube_count` loop of `parse_solutions`:
read `n` cubes of 3 raw bytes each, rejecting any coordinate `≥ dim`. -/
def parse_cubes (dim : Nat) : Nat → List Nat → Option (List Coord × List Nat)
  | 0, bytes => some ([], bytes)
  | n + 1, bytes =>
    match bytes with
    | x :: y :: z :: rest =>
      if x ≥ dim ∨ y ≥ dim ∨ z ≥ dim then none
      else (parse_cubes dim n rest).map fun cr =>
        (((x : Int), (y : Int), (z : Int)) :: cr.1, cr.2)
    | _ => none

/-- persistence.rs: the `for _ in 0..piece_count` loop of `parse_solutions`:
read `n` placed pieces, rejecting out-of-range or duplicated piece indices
and invalid cube counts, threading the `seen_pieces` bitmask. -/
def parse_pieces (dim num_pieces : Nat) :
    Nat → Nat → List Nat → Option (Nat × List PlacedPiece × List Nat)
  | 0, seen_pieces, bytes => some (seen_pieces, [], bytes)
  | n + 1, seen_pieces, bytes =>
    match read_u32 bytes with
    | none => none
    | some (piece_index, bytes) =>
      if piece_index ≥ num_pieces then none
      else
        let piece_bit := 1 <<< piece_index
        if seen_pieces &&& piece_bit ≠ 0 then none
        else
          match read_u32 bytes with
          | none => none
          | some (cube_count, bytes) =>
            if cube_count = 0 ∨ cube_count > MAX_CUBES then none
            else
              match parse_cubes dim cube_count bytes with
              | none => none
              | some (cubes, bytes) =>
                match parse_pieces dim num_pieces n (seen_pieces ||| piece_bit) bytes with
                | none => none
                | some (seen', pieces, rest) =>
                  some (seen',
                    { piece_index := piece_index, cubes := cubes } :: pieces, rest)

/-- persistence.rs: `parse_solutions`: read `n` solution records, rejecting a
record whose declared piece count differs from `num_pieces` or whose piece
set is incomplete. -/
def parse_solutions (dim num_pieces : Nat) :
    Nat → List Nat → Option (List (List PlacedPiece) × List Nat)
  | 0, bytes => some ([], bytes)
  | n + 1, bytes =>
    match read_u32 bytes with
    | none => none
    | some (piece_count, bytes) =>
      if piece_count ≠ num_pieces then none
      else
        match parse_pieces dim num_pieces piece_count 0 bytes with
        | none => none
        | some (seen_pieces, solution, bytes) =>
          if seen_pieces ≠ expected_piece_mask num_pieces then none
          else
            match parse_solutions dim num_pieces n bytes with
            | none => none
            | some (solutions, rest) => some (solution :: solutions, rest)

/-- persistence.rs: `FILE_MAGIC` (`b"BLKR"`). -/
def FILE_MAGIC : List Nat := [66, 76, 75, 82]

/-- persistence.rs: `FILE_VERSION`. -/
def FILE_VERSION : Nat := 1

/-- persistence.rs: `load_all` on a byte stream (the `File::open` failure,
also mapped to `None` by the source, is outside the stream model). -/
def load_all (DIM GRID_SIZE NUM_PIECES : Nat) (bytes : List Nat) :
    Option (List (List PlacedPiece)) :=
  match bytes with
  | b0 :: b1 :: b2 :: b3 :: rest =>
    if [b0, b1, b2, b3] = FILE_MAGIC then
      match rest with
      | version :: dim :: grid_size :: piece_count :: rest2 =>
        if version ≠ FILE_VERSION ∨ dim ≠ DIM ∨ grid_size ≠ GRID_SIZE ∨
            piece_count ≠ NUM_PIECES then none
        else
          match read_u32 rest2 with
          | none => none
          | some (solution_count, bytes') =>
            match parse_solutions DIM NUM_PIECES solution_count bytes' with
            | none => none
            | some (solutions, _) => some solutions
      | _ => none
    else
      let solution_count :=
        b0 % 256 + 256 * (b1 % 256) + 65536 * (b2 % 256) + 16777216 * (b3 % 256)
      match parse_solutions DIM NUM_PIECES solution_count rest with
      | none => none
      | some (solutions, _) => some solutions
  | _ => none

/-- The per-piece record conditions `parse_solutions` checks: a valid cube
count and all cube coordinates inside `[0, dim)`. -/
def pieceRecordWF (dim : Nat) (p : PlacedPiece) : Prop :=
  (1 ≤ p.cubes.length ∧ p.cubes.length ≤ MAX_CUBES) ∧
    ∀ c ∈ p.cubes, cubeInRange dim c

/-- A structurally valid solution record for a puzzle with `num_pieces`
pieces in a `dim`-sized grid: exactly `num_pieces` placed pieces, piece
indices in range, pairwise distinct and jointly covering every required
piece, valid cube counts, and all cube coordinates inside `[0, dim)`.
These are exactly the record conditions `parse_solutions` checks. -/
def solutionWF (dim num_pieces : Nat) (sol : List PlacedPiece) : Prop :=
  sol.length = num_pieces ∧
  (sol.map (·.piece_index)).Nodup ∧
  (∀ p ∈ sol, p.piece_index < num_pieces) ∧
  (∀ i, i < num_pieces → ∃ p ∈ sol, p.piece_index = i) ∧
  ∀ p ∈ sol, pieceRecordWF dim p

/-! ## Theorems: order properties of the orientation sort -/

theorem coordLe_iff (a b : Coord) : coordLe a b = true ↔
    a.1 < b.1 ∨ (a.1 = b.1 ∧ (a.2.1 < b.2.1 ∨
      (a.2.1 = b.2.1 ∧ a.2.2 ≤ b.2.2))) := by
  unfold coordLe
  split_ifs with h1 h2 h3 h4 <;> simp [decide_eq_true_iff] <;> omega

theorem coordLe_total (a b : Coord) : coordLe a b = true ∨ coordLe b a = true := by
  rw [coordLe_iff, coordLe_iff]; omega

theorem coordLe_trans {a b c : Coord} (hab : coordLe a b = true)
    (hbc : coordLe b c = true) : coordLe a c = true := by
  rw [coordLe_iff] at *; omega

theorem coordLe_antisymm {a b : Coord} (hab : coordLe a b = true)
    (hba : coordLe b a = true) : a = b := by
  rw [coordLe_iff] at hab hba
  obtain ⟨a1, a2, a3⟩ := a
  obtain ⟨b1, b2, b3⟩ := b
  simp only [Prod.mk.injEq]
  simp only at hab hba
  omega

theorem pieceLe_total (a b : List Coord) : pieceLe a b = true ∨ pieceLe b a = true := by
  induction a generalizing b with
  | nil => left; rfl
  | cons x xs ih =>
    cases b with
    | nil => right; rfl
    | cons y ys =>
      by_cases hxy : x = y
      · subst hxy
        simpa [pieceLe] using ih ys
      · have hyx : ¬ y = x := fun h => hxy h.symm
        simpa [pieceLe, hxy, hyx] using coordLe_total x y

theorem pieceLe_trans {a b c : List Coord} (hab : pieceLe a b = true)
    (hbc : pieceLe b c = true) : pieceLe a c = true := by
  induction a generalizing b c with
  | nil => rfl
  | cons x xs ih =>
    cases b with
    | nil => simp [pieceLe] at hab
    | cons y ys =>
      cases c with
      | nil => simp [pieceLe] at hbc
      | cons z zs =>
        simp only [pieceLe] at hab hbc ⊢
        by_cases hxy : x = y <;> by_cases hyz : y = z
        · rw [if_pos hxy] at hab
          rw [if_pos hyz] at hbc
          rw [if_pos (hxy.trans hyz)]
          exact ih hab hbc
        · rw [if_pos hxy] at hab
          rw [if_neg hyz] at hbc
          rw [if_neg (fun h => hyz (hxy.symm.trans h)), hxy]
          exact hbc
        · rw [if_neg hxy] at hab
          rw [if_pos hyz] at hbc
          rw [if_neg (fun h => hxy (h.trans hyz.symm)), ← hyz]
          exact hab
        · rw [if_neg hxy] at hab
          rw [if_neg hyz] at hbc
          have h3 : coordLe x z = true := coordLe_trans hab hbc
          by_cases hxz : x = z
          · subst hxz
            exact absurd (coordLe_antisymm hab hbc) hxy
          · rw [if_neg hxz]
            exact h3

instance : IsTotal (List Coord) pieceLeR := ⟨pieceLe_total⟩
instance : IsTrans (List Coord) pieceLeR := ⟨fun _ _ _ => pieceLe_trans⟩

/-- A sorted list whose adjacent entries differ has no duplicates. -/
theorem nodup_of_sorted_chain_ne {r : List Coord → List Coord → Prop}
    (hr : ∀ {a b}, r a b → r b a → a = b) :
    ∀ {l : List (List Coord)}, l.Sorted r → l.Chain' (· ≠ ·) → l.Nodup
  | [], _, _ => List.nodup_nil
  | a :: l, hs, hc => by
    refine List.nodup_cons.2 ⟨?_, nodup_of_sorted_chain_ne hr hs.of_cons hc.tail⟩
    intro hmem
    cases l with
    | nil => simp at hmem
    | cons b t =>
      have hab : a ≠ b := (List.chain'_cons.1 hc).1
      rcases List.mem_cons.1 hmem with h | h
      · exact hab h
      · have hrab : r a b := (List.sorted_cons.1 hs).1 b (List.mem_cons_self b t)
        have hrba : r b a :=
          (List.sorted_cons.1 (List.sorted_cons.1 hs).2).1 a h
        exact hab (hr hrab hrba)

theorem pieceLeR_antisymm {a b : List Coord} (h1 : pieceLeR a b) (h2 : pieceLeR b a) :
    a = b := by
  induction a generalizing b with
  | nil =>
    cases b with
    | nil => rfl
    | cons y ys => simp [pieceLeR, pieceLe] at h2
  | cons x xs ih =>
    cases b with
    | nil => simp [pieceLeR, pieceLe] at h1
    | cons y ys =>
      by_cases hxy : x = y
      · subst hxy
        simp only [pieceLeR, pieceLe, if_pos rfl] at h1 h2
        exact congrArg _ (ih h1 h2)
      · have hyx : ¬ y = x := fun h => hxy h.symm
        simp only [pieceLeR, pieceLe, if_neg hxy, if_neg hyx] at h1 h2
        exact absurd (coordLe_antisymm h1 h2) hxy

instance : Std.Antisymm (fun a b : Int => a ≤ b) :=
  ⟨@fun _ _ h1 h2 => le_antisymm h1 h2⟩

/-- `normalize_to_origin` of a non-empty list: same length, and every axis
has minimum exactly `0`. -/
theorem normalize_to_origin_spec (coords : List Coord) (h : coords ≠ []) :
    (normalize_to_origin coords).length = coords.length ∧
    ((normalize_to_origin coords).map (·.1)).min? = some 0 ∧
    ((normalize_to_origin coords).map (·.2.1)).min? = some 0 ∧
    ((normalize_to_origin coords).map (·.2.2)).min? = some 0 := by
  obtain ⟨c, cs, rfl⟩ := List.exists_cons_of_ne_nil h
  unfold normalize_to_origin
  set l := c :: cs with hl
  obtain ⟨mx, hmx⟩ : ∃ mx, (l.map (·.1)).min? = some mx :=
    ⟨_, (Option.some_get (by simp [hl, List.min?])).symm⟩
  obtain ⟨my, hmy⟩ : ∃ my, (l.map (·.2.1)).min? = some my :=
    ⟨_, (Option.some_get (by simp [hl, List.min?])).symm⟩
  obtain ⟨mz, hmz⟩ : ∃ mz, (l.map (·.2.2)).min? = some mz :=
    ⟨_, (Option.some_get (by simp [hl, List.min?])).symm⟩
  rw [hmx, hmy, hmz]
  have min?_iff : ∀ (xs : List Int) (a : Int),
      xs.min? = some a ↔ a ∈ xs ∧ ∀ b ∈ xs, a ≤ b := fun xs a =>
    List.min?_eq_some_iff (fun x : Int => le_refl x)
      (fun x y : Int => min_choice x y) (fun x y z : Int => le_min_iff)
  obtain ⟨hmx1, hmx2⟩ := (min?_iff _ _).1 hmx
  obtain ⟨hmy1, hmy2⟩ := (min?_iff _ _).1 hmy
  obtain ⟨hmz1, hmz2⟩ := (min?_iff _ _).1 hmz
  refine ⟨by simp, ?_, ?_, ?_⟩
  · refine (min?_iff _ _).2 ⟨?_, ?_⟩
    · simp only [List.map_map]
      obtain ⟨p, hp, hpe⟩ := List.mem_map.1 hmx1
      exact List.mem_map.2 ⟨p, hp, by simp [hpe]⟩
    · intro b hb
      simp only [List.map_map] at hb
      obtain ⟨p, hp, hpe⟩ := List.mem_map.1 hb
      have := hmx2 p.1 (List.mem_map.2 ⟨p, hp, rfl⟩)
      simp only [Function.comp] at hpe
      omega
  · refine (min?_iff _ _).2 ⟨?_, ?_⟩
    · simp only [List.map_map]
      obtain ⟨p, hp, hpe⟩ := List.mem_map.1 hmy1
      exact List.mem_map.2 ⟨p, hp, by simp [hpe]⟩
    · intro b hb
      simp only [List.map_map] at hb
      obtain ⟨p, hp, hpe⟩ := List.mem_map.1 hb
      have := hmy2 p.2.1 (List.mem_map.2 ⟨p, hp, rfl⟩)
      simp only [Function.comp] at hpe
      omega
  · refine (min?_iff _ _).2 ⟨?_, ?_⟩
    · simp only [List.map_map]
      obtain ⟨p, hp, hpe⟩ := List.mem_map.1 hmz1
      exact List.mem_map.2 ⟨p, hp, by simp [hpe]⟩
    · intro b hb
      simp only [List.map_map] at hb
      obtain ⟨p, hp, hpe⟩ := List.mem_map.1 hb
      have := hmz2 p.2.2 (List.mem_map.2 ⟨p, hp, rfl⟩)
      simp only [Function.comp] at hpe
      omega

/-- Sorting then dropping adjacent duplicates: the result is no longer than
the input, has no duplicate entries, and only contains input entries. -/
theorem sortDedup_spec (L : List (List Coord)) :
    (List.destutter (· ≠ ·) (L.insertionSort pieceLeR)).length ≤ L.length ∧
    (List.destutter (· ≠ ·) (L.insertionSort pieceLeR)).Nodup ∧
    ∀ o ∈ List.destutter (· ≠ ·) (L.insertionSort pieceLeR), o ∈ L := by
  have hsub : (List.destutter (· ≠ ·) (L.insertionSort pieceLeR)).Sublist
      (L.insertionSort pieceLeR) := List.destutter_sublist _ _
  have hperm : (L.insertionSort pieceLeR).Perm L := List.perm_insertionSort pieceLeR L
  refine ⟨le_trans hsub.length_le (le_of_eq hperm.length_eq), ?_, ?_⟩
  · exact nodup_of_sorted_chain_ne (fun {a b} => pieceLeR_antisymm)
      (List.Pairwise.sublist hsub (List.sorted_insertionSort pieceLeR L))
      (List.destutter_is_chain' _ _)
  · intro o ho
    exact hperm.mem_iff.1 (hsub.subset ho)

/-- C4, amended: for every non-empty piece, `all_orientations` returns at
most 24 entries, each with the same number of coordinates as the input and
with per-axis minimum coordinate zero, and no two entries are equal as
coordinate *lists* (the source sorts and deduplicates exact lists; distinct
entries can still be equal as coordinate sets). -/
theorem all_orientations_spec (piece : List Coord) (h : piece ≠ []) :
    (all_orientations piece).length ≤ 24 ∧
    (all_orientations piece).Nodup ∧
    ∀ o ∈ all_orientations piece, o.length = piece.length ∧
      (o.map (·.1)).min? = some 0 ∧ (o.map (·.2.1)).min? = some 0 ∧
      (o.map (·.2.2)).min? = some 0 := by
  obtain ⟨hlen, hnodup, hmem⟩ :=
    sortDedup_spec (ROTATIONS.map (fun rotate => normalize_to_origin (piece.map rotate)))
  have hrw : all_orientations piece = List.destutter (· ≠ ·)
      ((ROTATIONS.map (fun rotate =>
        normalize_to_origin (piece.map rotate))).insertionSort pieceLeR) := rfl
  rw [hrw]
  have hL24 : (ROTATIONS.map (fun rotate =>
      normalize_to_origin (piece.map rotate))).length = 24 := by
    rw [List.length_map]
    rfl
  refine ⟨hL24 ▸ hlen, hnodup, ?_⟩
  intro o ho
  obtain ⟨rot, _, rfl⟩ := List.mem_map.1 (hmem o ho)
  have hne : piece.map rot ≠ [] := by
    intro hnil
    exact h (List.map_eq_nil_iff.1 hnil)
  obtain ⟨h1, h2, h3, h4⟩ := normalize_to_origin_spec (piece.map rot) hne
  exact ⟨h1.trans (List.length_map _ _), h2, h3, h4⟩

/-- Witness for `all_orientations_spec` at the 1x2 domino piece. -/
theorem all_orientations_spec_witness :
    (([((0:Int), (0:Int), (0:Int)), ((1:Int), (0:Int), (0:Int))] : List Coord) ≠ []) ∧
    ((all_orientations [((0:Int), (0:Int), (0:Int)), ((1:Int), (0:Int), (0:Int))]).length ≤ 24 ∧
     (all_orientations [((0:Int), (0:Int), (0:Int)), ((1:Int), (0:Int), (0:Int))]).Nodup ∧
     ∀ o ∈ all_orientations [((0:Int), (0:Int), (0:Int)), ((1:Int), (0:Int), (0:Int))],
       o.length = ([((0:Int), (0:Int), (0:Int)), ((1:Int), (0:Int), (0:Int))] : List Coord).length ∧
       (o.map (·.1)).min? = some 0 ∧ (o.map (·.2.1)).min? = some 0 ∧
       (o.map (·.2.2)).min? = some 0) :=
  ⟨by decide, all_orientations_spec _ (by decide)⟩

/-- Counterexample to C4 as stated: for the 1x2 domino piece,
`all_orientations` returns two entries that are distinct lists but equal as
coordinate sets (the source deduplicates exact lists, not sets). -/
theorem all_orientations_set_duplicate :
    ([((0:Int), (0:Int), (0:Int)), ((1:Int), (0:Int), (0:Int))] : List Coord) ∈
      all_orientations [((0:Int), (0:Int), (0:Int)), ((1:Int), (0:Int), (0:Int))] ∧
    ([((1:Int), (0:Int), (0:Int)), ((0:Int), (0:Int), (0:Int))] : List Coord) ∈
      all_orientations [((0:Int), (0:Int), (0:Int)), ((1:Int), (0:Int), (0:Int))] ∧
    ([((0:Int), (0:Int), (0:Int)), ((1:Int), (0:Int), (0:Int))] : List Coord) ≠
      [((1:Int), (0:Int), (0:Int)), ((0:Int), (0:Int), (0:Int))] ∧
    ([((0:Int), (0:Int), (0:Int)), ((1:Int), (0:Int), (0:Int))] : List Coord).Perm
      [((1:Int), (0:Int), (0:Int)), ((0:Int), (0:Int), (0:Int))] ∧
    ([((0:Int), (0:Int), (0:Int)), ((1:Int), (0:Int), (0:Int))] : List Coord).toFinset =
      ([((1:Int), (0:Int), (0:Int)), ((0:Int), (0:Int), (0:Int))] : List Coord).toFinset := by
  decide

/-- C5: for dimension 3 (27 cells) and dimension 4 (64 cells), every row of
the rotation permutation table is a permutation of the cell-index range
(hence a bijection on it), and row 0 is the identity permutation. -/
theorem rotation_table_rows_bijective :
    ((build_rotation_table 3 27).length = 24 ∧
     (∀ row ∈ build_rotation_table 3 27, row.Perm (List.range 27)) ∧
     (build_rotation_table 3 27).getD 0 [] = List.range 27) ∧
    ((build_rotation_table 4 64).length = 24 ∧
     (∀ row ∈ build_rotation_table 4 64, row.Perm (List.range 64)) ∧
     (build_rotation_table 4 64).getD 0 [] = List.range 64) := by
  decide!

/-! ## Theorems: persistence parsing rejects malformed records -/

theorem parse_cubes_sound (dim : Nat) (n : Nat) :
    ∀ (bytes : List Nat) (cs : List Coord) (rest : List Nat),
      parse_cubes dim n bytes = some (cs, rest) →
      cs.length = n ∧ ∀ c ∈ cs, cubeInRange dim c := by
  induction n with
  | zero =>
    intro bytes cs rest h
    simp only [parse_cubes, Option.some_inj, Prod.mk.injEq] at h
    obtain ⟨rfl, rfl⟩ := h
    exact ⟨rfl, by simp⟩
  | succ n ih =>
    intro bytes cs rest h
    match bytes with
    | [] => simp [parse_cubes] at h
    | [_] => simp [parse_cubes] at h
    | [_, _] => simp [parse_cubes] at h
    | x :: y :: z :: b3 =>
      simp only [parse_cubes] at h
      split_ifs at h with hb
      push_neg at hb
      obtain ⟨hx, hy, hz⟩ := hb
      obtain ⟨⟨cs', rest'⟩, hrec, heq⟩ := Option.map_eq_some'.1 h
      simp only [Prod.mk.injEq] at heq
      obtain ⟨rfl, rfl⟩ := heq
      obtain ⟨hlen, hall⟩ := ih b3 cs' rest' hrec
      refine ⟨by simp [hlen], ?_⟩
      intro c hc
      rcases List.mem_cons.1 hc with rfl | hc
      · refine ⟨by positivity, ?_, by positivity, ?_, by positivity, ?_⟩ <;>
          simpa using by omega
      · exact hall c hc

theorem parse_pieces_sound (dim np : Nat) (n : Nat) :
    ∀ (seen : Nat) (bytes : List Nat) (seen' : Nat) (ps : List PlacedPiece)
      (rest : List Nat),
      parse_pieces dim np n seen bytes = some (seen', ps, rest) →
      ps.length = n ∧
      (∀ p ∈ ps, p.piece_index < np ∧ seen.testBit p.piece_index = false ∧
        pieceRecordWF dim p) ∧
      (ps.map (·.piece_index)).Nodup ∧
      (∀ i, seen'.testBit i =
        (seen.testBit i || decide (i ∈ ps.map (·.piece_index)))) := by
  induction n with
  | zero =>
    intro seen bytes seen' ps rest h
    simp only [parse_pieces, Option.some_inj, Prod.mk.injEq] at h
    obtain ⟨rfl, rfl, rfl⟩ := h
    simp
  | succ n ih =>
    intro seen bytes seen' ps rest h
    simp only [parse_pieces] at h
    cases hread1 : read_u32 bytes with
    | none => rw [hread1] at h; exact absurd h (by simp)
    | some pb1 =>
    rw [hread1] at h
    obtain ⟨piece_index, b1⟩ := pb1
    try dsimp only at h
    split_ifs at h with hge hdup
    push_neg at hge
    cases hread2 : read_u32 b1 with
    | none => rw [hread2] at h; exact absurd h (by simp)
    | some pb2 =>
    rw [hread2] at h
    obtain ⟨cube_count, b2⟩ := pb2
    try dsimp only at h
    split_ifs at h with hcc
    cases hcubes : parse_cubes dim cube_count b2 with
    | none => rw [hcubes] at h; exact absurd h (by simp)
    | some pc =>
    rw [hcubes] at h
    obtain ⟨cubes, b3⟩ := pc
    try dsimp only at h
    cases hrec : parse_pieces dim np n (seen ||| 1 <<< piece_index) b3 with
    | none => rw [hrec] at h; exact absurd h (by simp)
    | some pr =>
    rw [hrec] at h
    obtain ⟨s', ps', rest'⟩ := pr
    try dsimp only at h
    simp only [Option.some_inj, Prod.mk.injEq] at h
    obtain ⟨rfl, rfl, rfl⟩ := h
    have hbitfalse : seen.testBit piece_index = false := by
      rw [not_not] at hdup
      have h1 : (1 : Nat) <<< piece_index = 2 ^ piece_index := by
        rw [Nat.shiftLeft_eq, one_mul]
      rw [h1, Nat.and_two_pow] at hdup
      rcases hb : seen.testBit piece_index with _ | _
      · rfl
      · rw [hb] at hdup
        simp at hdup
    obtain ⟨hclen, hcrange⟩ := parse_cubes_sound dim cube_count b2 cubes b3 hcubes
    obtain ⟨hlen', hall', hnodup', hbits'⟩ := ih _ _ _ _ _ hrec
    have h2pow : (1 : Nat) <<< piece_index = 2 ^ piece_index := by
      rw [Nat.shiftLeft_eq, one_mul]
    have hcc' : ¬(cube_count = 0 ∨ cube_count > MAX_CUBES) := hcc
    push_neg at hcc'
    refine ⟨by simp [hlen'], ?_, ?_, ?_⟩
    · intro p hp
      rcases List.mem_cons.1 hp with rfl | hp
      · refine ⟨hge, hbitfalse, ⟨?_, ?_⟩, ?_⟩
        · show 1 ≤ cubes.length
          omega
        · show cubes.length ≤ MAX_CUBES
          omega
        · exact hcrange
      · obtain ⟨hplt, hpbit, hpwf⟩ := hall' p hp
        refine ⟨hplt, ?_, hpwf⟩
        rw [h2pow] at hpbit
        rw [Nat.testBit_lor] at hpbit
        exact (Bool.or_eq_false_iff.1 hpbit).1
    · refine List.nodup_cons.2 ⟨?_, hnodup'⟩
      intro hmem
      obtain ⟨p, hp, hpe⟩ := List.mem_map.1 hmem
      obtain ⟨_, hpbit, _⟩ := hall' p hp
      rw [h2pow, Nat.testBit_lor, Nat.testBit_two_pow] at hpbit
      rw [hpe] at hpbit
      simp at hpbit
    · intro i
      rw [hbits' i, h2pow, Nat.testBit_lor, Nat.testBit_two_pow]
      simp only [List.map_cons, List.mem_cons]
      by_cases hip : i = piece_index
      · subst hip
        simp
      · have : ¬ piece_index = i := fun h => hip h.symm
        simp [this, hip]

theorem parse_solutions_sound (dim np : Nat) (n : Nat) :
    ∀ (bytes : List Nat) (sols : List (List PlacedPiece)) (rest : List Nat),
      parse_solutions dim np n bytes = some (sols, rest) →
      sols.length = n ∧ ∀ sol ∈ sols, solutionWF dim np sol := by
  induction n with
  | zero =>
    intro bytes sols rest h
    simp only [parse_solutions, Option.some_inj, Prod.mk.injEq] at h
    obtain ⟨rfl, rfl⟩ := h
    simp
  | succ n ih =>
    intro bytes sols rest h
    simp only [parse_solutions] at h
    cases hread1 : read_u32 bytes with
    | none => rw [hread1] at h; exact absurd h (by simp)
    | some pb1 =>
    rw [hread1] at h
    obtain ⟨piece_count, b1⟩ := pb1
    try dsimp only at h
    split_ifs at h with hpc
    rw [not_not] at hpc
    cases hpieces : parse_pieces dim np piece_count 0 b1 with
    | none => rw [hpieces] at h; exact absurd h (by simp)
    | some pp =>
    rw [hpieces] at h
    obtain ⟨seen', sol, b2⟩ := pp
    try dsimp only at h
    split_ifs at h with hmask
    rw [not_not] at hmask
    cases hrec : parse_solutions dim np n b2 with
    | none => rw [hrec] at h; exact absurd h (by simp)
    | some pr =>
    rw [hrec] at h
    obtain ⟨sols', rest'⟩ := pr
    try dsimp only at h
    simp only [Option.some_inj, Prod.mk.injEq] at h
    obtain ⟨rfl, rfl⟩ := h
    obtain ⟨hlen, hall, hnodup, hbits⟩ := parse_pieces_sound dim np piece_count 0 b1 seen' sol b2 hpieces
    obtain ⟨hlen', hall'⟩ := ih b2 sols' rest' hrec
    have hbits0 : ∀ i, seen'.testBit i = decide (i ∈ sol.map (·.piece_index)) := by
      intro i
      rw [hbits i, Nat.zero_testBit, Bool.false_or]
    have hexpected : expected_piece_mask np = 2 ^ np - 1 := by
      unfold expected_piece_mask
      rw [Nat.shiftLeft_eq, one_mul]
    have hcover : ∀ i, i < np → ∃ p ∈ sol, p.piece_index = i := by
      intro i hi
      have h1 : decide (i < np) = decide (i ∈ sol.map (·.piece_index)) := by
        rw [← Nat.testBit_two_pow_sub_one, ← hexpected, ← hmask]
        exact hbits0 i
      have h2 : i ∈ sol.map (·.piece_index) :=
        of_decide_eq_true (by rw [← h1]; exact decide_eq_true hi)
      obtain ⟨p, hp, hpe⟩ := List.mem_map.1 h2
      exact ⟨p, hp, hpe⟩
    refine ⟨by simp [hlen'], ?_⟩
    intro s hs
    rcases List.mem_cons.1 hs with rfl | hs
    · exact ⟨hlen.trans hpc, hnodup, fun p hp => (hall p hp).1, hcover,
        fun p hp => (hall p hp).2.2⟩
    · exact hall' s hs

/-- C8: parsing is all-or-nothing and structurally sound.  Whenever
`parse_solutions` succeeds it returns exactly the declared number of
records, every one well-formed (declared piece count matching, piece
indices in range, no duplicated or missing piece, all coordinates inside
the grid); and whenever `load_all` returns solutions, every returned
solution is well-formed.  Consequently a stream containing a record with a
mismatched piece count, an out-of-range, duplicated or missing piece index,
or an out-of-range coordinate can only produce `none`, never a partially
built solution list. -/
theorem loading_rejects_malformed_records :
    (∀ (dim np n : Nat) (bytes : List Nat) (sols : List (List PlacedPiece))
      (rest : List Nat),
      parse_solutions dim np n bytes = some (sols, rest) →
      sols.length = n ∧ ∀ sol ∈ sols, solutionWF dim np sol) ∧
    (∀ (DIM GRID_SIZE NUM_PIECES : Nat) (bytes : List Nat)
      (sols : List (List PlacedPiece)),
      load_all DIM GRID_SIZE NUM_PIECES bytes = some sols →
      ∀ sol ∈ sols, solutionWF DIM NUM_PIECES sol) := by
  refine ⟨fun dim np n bytes sols rest h => parse_solutions_sound dim np n bytes sols rest h, ?_⟩
  intro DIM GS NP bytes sols h sol hsol
  match bytes with
  | [] => simp [load_all] at h
  | [_] => simp [load_all] at h
  | [_, _] => simp [load_all] at h
  | [_, _, _] => simp [load_all] at h
  | b0 :: b1 :: b2 :: b3 :: rest =>
    simp only [load_all] at h
    split_ifs at h with hmagic
    · match rest with
      | [] => simp at h
      | [_] => simp at h
      | [_, _] => simp at h
      | [_, _, _] => simp at h
      | v :: d :: g :: p :: rest2 =>
        try dsimp only at h
        split_ifs at h with hmeta
        cases hread : read_u32 rest2 with
        | none => rw [hread] at h; exact absurd h (by simp)
        | some pb =>
          rw [hread] at h
          obtain ⟨cnt, b4⟩ := pb
          try dsimp only at h
          cases hparse : parse_solutions DIM NP cnt b4 with
          | none => rw [hparse] at h; exact absurd h (by simp)
          | some pr =>
            rw [hparse] at h
            obtain ⟨sols', rest'⟩ := pr
            try dsimp only at h
            simp only [Option.some_inj] at h
            obtain rfl := h
            exact (parse_solutions_sound DIM NP cnt b4 sols' rest' hparse).2 sol hsol
    · cases hparse : parse_solutions DIM NP
          (b0 % 256 + 256 * (b1 % 256) + 65536 * (b2 % 256) + 16777216 * (b3 % 256)) rest with
      | none => rw [hparse] at h; exact absurd h (by simp)
      | some pr =>
        rw [hparse] at h
        obtain ⟨sols', rest'⟩ := pr
        try dsimp only at h
        simp only [Option.some_inj] at h
        obtain rfl := h
        exact (parse_solutions_sound DIM NP _ rest sols' rest' hparse).2 sol hsol

/-- Witness for `loading_rejects_malformed_records` at a concrete one-piece,
one-cell stream in the current (magic-headed) format. -/
theorem loading_rejects_malformed_records_witness :
    load_all 1 1 1
      [66, 76, 75, 82, 1, 1, 1, 1, 1, 0, 0, 0, 1, 0, 0, 0, 0, 0, 0, 0, 1, 0, 0, 0, 0, 0, 0] =
      some [[{ piece_index := 0, cubes := [((0 : Int), (0 : Int), (0 : Int))] }]] ∧
    ∀ sol ∈ [[({ piece_index := 0, cubes := [((0 : Int), (0 : Int), (0 : Int))] } : PlacedPiece)]],
      solutionWF 1 1 sol :=
  ⟨by decide, loading_rejects_malformed_records.2 1 1 1
    [66, 76, 75, 82, 1, 1, 1, 1, 1, 0, 0, 0, 1, 0, 0, 0, 0, 0, 0, 0, 1, 0, 0, 0, 0, 0, 0]
    [[{ piece_index := 0, cubes := [((0 : Int), (0 : Int), (0 : Int))] }]] (by decide)⟩

/-! ## Theorems: solver invariants (exact cover and distinct pieces) -/

theorem nat_eq_zero_iff_testBit (x : Nat) :
    x = 0 ↔ ∀ i, x.testBit i = false := by
  constructor
  · rintro rfl i
    exact Nat.zero_testBit i
  · intro h
    exact Nat.eq_of_testBit_eq fun i => by rw [h i, Nat.zero_testBit]

theorem land_or_zero_iff (a b c : Nat) :
    a &&& (b ||| c) = 0 ↔ a &&& b = 0 ∧ a &&& c = 0 := by
  simp only [nat_eq_zero_iff_testBit, Nat.testBit_land, Nat.testBit_lor]
  constructor
  · intro h
    constructor <;> intro i <;> have := h i <;>
      rcases ha : a.testBit i with _ | _ <;>
        rcases hb : b.testBit i with _ | _ <;>
          rcases hc : c.testBit i with _ | _ <;>
            simp_all
  · intro ⟨h1, h2⟩ i
    have := h1 i
    have := h2 i
    rcases ha : a.testBit i with _ | _ <;>
      rcases hb : b.testBit i with _ | _ <;>
        rcases hc : c.testBit i with _ | _ <;>
          simp_all

theorem testBit_foldl_or (i : Nat) :
    ∀ (l : List Nat) (z : Nat),
      (l.foldl (· ||| ·) z).testBit i = (z.testBit i || l.any (·.testBit i))
  | [], z => by simp
  | x :: l, z => by
    rw [List.foldl_cons, testBit_foldl_or i l (z ||| x)]
    simp [Nat.testBit_lor, Bool.or_assoc]

theorem masks_or_append (dim : Nat) (sol : List PlacedPiece) (p : PlacedPiece) :
    masks_or dim (sol ++ [p]) = masks_or dim sol ||| pieceMask dim p := by
  unfold masks_or
  rw [List.map_append, List.foldl_append]
  rfl

theorem land_masks_or_zero (dim : Nat) (sol : List PlacedPiece) (a : Nat)
    (h : a &&& masks_or dim sol = 0) :
    ∀ p ∈ sol, a &&& pieceMask dim p = 0 := by
  intro p hp
  rw [nat_eq_zero_iff_testBit] at h ⊢
  intro i
  have := h i
  rw [Nat.testBit_land] at this ⊢
  unfold masks_or at this
  rw [testBit_foldl_or] at this
  rcases ha : a.testBit i with _ | _
  · rfl
  · rw [ha] at this
    simp only [Bool.true_and] at this ⊢
    have : ((sol.map (pieceMask dim)).any (·.testBit i)) = false := by
      rcases hz : ((sol.map (pieceMask dim)).any (·.testBit i)) with _ | _
      · rfl
      · rw [hz] at this; simp at this
    rw [List.any_eq_false] at this
    have h3 := this _ (List.mem_map.2 ⟨p, hp, rfl⟩)
    simpa using h3

theorem place_fold_none (dim : Nat) (off : Coord) :
    ∀ (l : List Coord),
      (l.foldl (fun acc c =>
        acc.bind fun ms =>
          let ax := c.1 + off.1
          let ay := c.2.1 + off.2.1
          let az := c.2.2 + off.2.2
          if 0 ≤ ax ∧ ax < (dim : Int) ∧ 0 ≤ ay ∧ ay < (dim : Int) ∧
              0 ≤ az ∧ az < (dim : Int) then
            some (ms.1 ||| (1 <<< coord_to_idx dim ax ay az), ms.2 ++ [(ax, ay, az)])
          else none) (none : Option (Nat × List Coord))) = none
  | [] => rfl
  | c :: l => by
    rw [List.foldl_cons]
    exact place_fold_none dim off l

/-- The accumulating fold inside `try_create_placement`, characterized. -/
theorem place_fold_spec (dim : Nat) (off : Coord) :
    ∀ (l : List Coord) (m0 : Nat) (ps0 : List Coord) (m : Nat) (ps : List Coord),
      (l.foldl (fun acc c =>
        acc.bind fun ms =>
          let ax := c.1 + off.1
          let ay := c.2.1 + off.2.1
          let az := c.2.2 + off.2.2
          if 0 ≤ ax ∧ ax < (dim : Int) ∧ 0 ≤ ay ∧ ay < (dim : Int) ∧
              0 ≤ az ∧ az < (dim : Int) then
            some (ms.1 ||| (1 <<< coord_to_idx dim ax ay az), ms.2 ++ [(ax, ay, az)])
          else none) (some (m0, ps0))) = some (m, ps) →
      ∃ suffix, ps = ps0 ++ suffix ∧ suffix.length = l.length ∧
        (∀ c ∈ suffix, cubeInRange dim c) ∧
        m = suffix.foldl
          (fun acc c => acc ||| (1 <<< coord_to_idx dim c.1 c.2.1 c.2.2)) m0
  | [], m0, ps0, m, ps => by
    intro h
    simp only [List.foldl_nil, Option.some_inj, Prod.mk.injEq] at h
    obtain ⟨rfl, rfl⟩ := h
    exact ⟨[], by simp⟩
  | c :: l, m0, ps0, m, ps => by
    intro h
    rw [List.foldl_cons] at h
    dsimp only [Option.bind_some] at h
    split_ifs at h with hcond
    · obtain ⟨suffix, hps, hlen, hrange, hm⟩ :=
        place_fold_spec dim off l (m0 ||| (1 <<< coord_to_idx dim
          (c.1 + off.1) (c.2.1 + off.2.1) (c.2.2 + off.2.2)))
          (ps0 ++ [(c.1 + off.1, c.2.1 + off.2.1, c.2.2 + off.2.2)]) m ps h
      refine ⟨(c.1 + off.1, c.2.1 + off.2.1, c.2.2 + off.2.2) :: suffix, ?_, ?_, ?_, ?_⟩
      · rw [hps, List.append_assoc]
        rfl
      · simp [hlen]
      · intro x hx
        rcases List.mem_cons.1 hx with rfl | hx
        · exact ⟨hcond.1, hcond.2.1, hcond.2.2.1, hcond.2.2.2.1,
            hcond.2.2.2.2.1, hcond.2.2.2.2.2⟩
        · exact hrange x hx
      · rw [List.foldl_cons]
        exact hm
    · exact absurd ((place_fold_none dim off l).symm.trans h) (by simp)

theorem try_create_placement_spec (DIM : Nat) (orientation : List Coord)
    (target anchor : Coord) (pl : Placement)
    (h : try_create_placement DIM orientation target anchor = some pl) :
    pl.cube_positions.length = orientation.length ∧
    (∀ c ∈ pl.cube_positions, cubeInRange DIM c) ∧
    pl.occupied_mask = pl.cube_positions.foldl
      (fun m c => m ||| (1 <<< coord_to_idx DIM c.1 c.2.1 c.2.2)) 0 := by
  unfold try_create_placement at h
  obtain ⟨⟨m, ps⟩, hfold, rfl⟩ := Option.map_eq_some'.1 h
  obtain ⟨suffix, hps, hlen, hrange, hm⟩ :=
    place_fold_spec DIM
      (target.1 - anchor.1, target.2.1 - anchor.2.1, target.2.2 - anchor.2.2)
      orientation 0 [] m ps hfold
  rw [List.nil_append] at hps
  subst hps
  exact ⟨hlen, hrange, hm⟩

theorem mem_foldl_append {α β : Type} (h : α → List β) :
    ∀ (L : List α) (init : List β) (x : β),
      x ∈ L.foldl (fun acc o => acc ++ h o) init ↔ x ∈ init ∨ ∃ o ∈ L, x ∈ h o
  | [], init, x => by simp
  | o :: L, init, x => by
    rw [List.foldl_cons, mem_foldl_append h L (init ++ h o) x]
    simp only [List.mem_append, List.mem_cons]
    constructor
    · rintro ((hx | hx) | ⟨o', ho', hx⟩)
      · exact Or.inl hx
      · exact Or.inr ⟨o, Or.inl rfl, hx⟩
      · exact Or.inr ⟨o', Or.inr ho', hx⟩
    · rintro (hx | ⟨o', (rfl | ho'), hx⟩)
      · exact Or.inl (Or.inl hx)
      · exact Or.inl (Or.inr hx)
      · exact Or.inr ⟨o', ho', hx⟩

theorem mem_placement_table (DIM GRID_SIZE : Nat) (pieces : List (List Coord))
    (pi t : Nat) (pl : Placement)
    (h : pl ∈ (((build_placement_table DIM GRID_SIZE pieces).getD pi []).getD t [])) :
    ∃ orientation anchor, orientation ∈ all_orientations (pieces.getD pi []) ∧
      anchor ∈ orientation ∧
      try_create_placement DIM orientation (idx_to_coord DIM t) anchor = some pl := by
  unfold build_placement_table at h
  simp only [List.getD_eq_getElem?_getD] at h
  rw [List.getElem?_map] at h
  rcases hpi : pieces[pi]? with _ | piece
  · rw [hpi] at h
    simp at h
  · rw [hpi] at h
    simp only [Option.map_some', Option.getD_some] at h
    try dsimp only at h
    rw [List.getElem?_map] at h
    rcases ht : (List.range GRID_SIZE)[t]? with _ | tv
    · rw [ht] at h
      simp at h
    · rw [ht] at h
      simp only [Option.map_some', Option.getD_some] at h
      try dsimp only at h
      have htv : tv = t := by
        have hlt : t < GRID_SIZE := by
          by_contra hge
          have hge2 : (List.range GRID_SIZE).length ≤ t := by
            simpa [List.length_range] using Nat.le_of_not_lt hge
          rw [List.getElem?_eq_none hge2] at ht
          exact Option.noConfusion ht
        have := List.getElem?_range hlt
        rw [ht] at this
        exact Option.some_inj.1 this
      subst htv
      rw [mem_foldl_append] at h
      rcases h with h | ⟨o, ho, hx⟩
      · simp at h
      · obtain ⟨anchor, ha, hsome⟩ := List.mem_filterMap.1 hx
        have hpiece : pieces.getD pi [] = piece := by
          rw [List.getD_eq_getElem?_getD, hpi]
          rfl
        exact ⟨o, anchor, hpiece ▸ ho, ha, hsome⟩

theorem built_table_ok (ctx : SolveCtx) (pieces : List (List Coord))
    (hpt : ctx.placement_table = build_placement_table ctx.dim ctx.grid_size pieces) :
    TableOK ctx := by
  intro pi t pl hmem
  rw [hpt] at hmem
  obtain ⟨o, anchor, _, _, hsome⟩ :=
    mem_placement_table ctx.dim ctx.grid_size pieces pi t pl hmem
  obtain ⟨_, hrange, hmask⟩ := try_create_placement_spec ctx.dim o _ anchor pl hsome
  exact ⟨hmask, hrange⟩

theorem built_table_ne (ctx : SolveCtx) (pieces : List (List Coord))
    (hpt : ctx.placement_table = build_placement_table ctx.dim ctx.grid_size pieces) :
    TableNE ctx := by
  intro pi t pl hmem
  rw [hpt] at hmem
  obtain ⟨o, anchor, ho, hanchor, hsome⟩ :=
    mem_placement_table ctx.dim ctx.grid_size pieces pi t pl hmem
  obtain ⟨hlen, _, _⟩ := try_create_placement_spec ctx.dim o _ anchor pl hsome
  intro hnil
  rw [hnil] at hlen
  have : o = [] := List.length_eq_zero.1 hlen.symm
  rw [this] at hanchor
  exact absurd hanchor (List.not_mem_nil anchor)

theorem scan_placements_spec (ctx : SolveCtx) (occupied : Nat)
    (placed : List PlacedPiece) (seen : Batteries.RBSet Nat compare)
    (piece_index : Nat) :
    ∀ (l : List Placement) (oi oi' : Nat) (placement : Placement) (key : Nat),
      scan_placements ctx occupied placed seen piece_index l oi =
        some (oi', placement, key) →
      placement ∈ l ∧ occupied &&& placement.occupied_mask = 0 ∧
      oi < oi' ∧ oi' ≤ oi + l.length
  | [], oi, oi', placement, key => by
    intro h
    simp [scan_placements] at h
  | p :: l, oi, oi', placement, key => by
    intro h
    rw [scan_placements] at h
    split_ifs at h with hoverlap
    · obtain ⟨hmem, hdisj, hlt, hle⟩ :=
        scan_placements_spec ctx occupied placed seen piece_index l (oi + 1)
          oi' placement key h
      refine ⟨List.mem_cons_of_mem p hmem, hdisj, by omega, ?_⟩
      simp only [List.length_cons]
      omega
    · try dsimp only at h
      split_ifs at h with hseen
      · obtain ⟨hmem, hdisj, hlt, hle⟩ :=
          scan_placements_spec ctx occupied placed seen piece_index l (oi + 1)
            oi' placement key h
        refine ⟨List.mem_cons_of_mem p hmem, hdisj, by omega, ?_⟩
        simp only [List.length_cons]
        omega
      · simp only [Option.some_inj, Prod.mk.injEq] at h
        obtain ⟨rfl, rfl, rfl⟩ := h
        rw [not_not] at hoverlap
        refine ⟨List.mem_cons_self p l, hoverlap, by omega, ?_⟩
        simp only [List.length_cons]
        omega

theorem scan_pieces_spec (ctx : SolveCtx) (remaining occupied : Nat)
    (placed : List PlacedPiece) (seen : Batteries.RBSet Nat compare)
    (target_cell : Nat) :
    ∀ (pis : List Nat) (oi : Nat) (pi oi' : Nat) (placement : Placement) (key : Nat),
      pis.Nodup →
      scan_pieces ctx remaining occupied placed seen target_cell pis oi =
        some (pi, oi', placement, key) →
      pi ∈ pis ∧ remaining.testBit pi = true ∧
      placement ∈ ((ctx.placement_table.getD pi []).getD target_cell []) ∧
      occupied &&& placement.occupied_mask = 0 ∧
      1 ≤ oi' ∧ oi' ≤ ((ctx.placement_table.getD pi []).getD target_cell []).length ∧
      (∀ first rest', pis = first :: rest' → pi = first → oi < oi')
  | [], oi, pi, oi', placement, key => by
    intro _ h
    simp [scan_pieces] at h
  | p :: pis, oi, pi, oi', placement, key => by
    intro hnodup h
    rw [scan_pieces] at h
    have hbit_of : remaining &&& (1 <<< p) ≠ 0 → remaining.testBit p = true := by
      intro hne
      rw [Nat.shiftLeft_eq, one_mul, Nat.and_two_pow] at hne
      rcases hb : remaining.testBit p with _ | _
      · rw [hb] at hne
        simp at hne
      · rfl
    split_ifs at h with hskip
    · obtain ⟨hmem, hbit, hplm, hdisj, h1, hle, _⟩ :=
        scan_pieces_spec ctx remaining occupied placed seen target_cell pis oi
          pi oi' placement key (List.nodup_cons.1 hnodup).2 h
      refine ⟨List.mem_cons_of_mem p hmem, hbit, hplm, hdisj, h1, hle, ?_⟩
      intro first rest' heq hpf
      simp only [List.cons.injEq] at heq
      subst hpf
      rw [← heq.1] at hbit
      rw [Nat.shiftLeft_eq, one_mul, Nat.and_two_pow, hbit] at hskip
      simp at hskip
    · try dsimp only at h
      rcases hscan : scan_placements ctx occupied placed seen p
          (((ctx.placement_table.getD p []).getD target_cell []).drop oi) oi
          with _ | res
      · rw [hscan] at h
        try dsimp only at h
        obtain ⟨hmem, hbit, hplm, hdisj, h1, hle, _⟩ :=
          scan_pieces_spec ctx remaining occupied placed seen target_cell pis 0
            pi oi' placement key (List.nodup_cons.1 hnodup).2 h
        refine ⟨List.mem_cons_of_mem p hmem, hbit, hplm, hdisj, h1, hle, ?_⟩
        intro first rest' heq hpf
        simp only [List.cons.injEq] at heq
        subst hpf
        rw [← heq.1] at hmem
        exact absurd hmem (List.nodup_cons.1 hnodup).1
      · rw [hscan] at h
        obtain ⟨oi2, placement2, key2⟩ := res
        try dsimp only at h
        simp only [Option.some_inj, Prod.mk.injEq] at h
        obtain ⟨rfl, rfl, rfl, rfl⟩ := h
        obtain ⟨hmem, hdisj, hlt, hle⟩ :=
          scan_placements_spec ctx occupied placed seen p _ oi oi2 placement2 key2 hscan
        have hlendrop :=
          List.length_drop oi ((ctx.placement_table.getD p []).getD target_cell [])
        refine ⟨List.mem_cons_self p pis, hbit_of hskip,
          List.mem_of_mem_drop hmem, hdisj, by omega, by omega, ?_⟩
        intro first rest' _ _
        omega

theorem find_first_empty_cell_none (grid_size occupied : Nat)
    (h : find_first_empty_cell grid_size occupied = none) :
    occupied = all_filled grid_size := by
  unfold find_first_empty_cell at h
  split_ifs at h with hc
  exact hc

theorem clear_bit_other (remaining M i : Nat) (h : remaining.testBit i = false) :
    (remaining &&& M).testBit i = false := by
  rw [Nat.testBit_land, h]
  rfl

theorem clear_bit_self (remaining pi : Nat) (hpi : pi < 32) :
    (remaining &&& (4294967295 ^^^ (1 <<< pi))).testBit pi = false := by
  have h32 : (4294967295 : Nat) = 2 ^ 32 - 1 := by norm_num
  rw [Nat.testBit_land, Nat.testBit_xor, Nat.shiftLeft_eq, one_mul, h32,
    Nat.testBit_two_pow_sub_one, Nat.testBit_two_pow]
  simp [hpi]

theorem nodup_lt_length_le (l : List Nat) (n : Nat) (hn : l.Nodup)
    (hlt : ∀ x ∈ l, x < n) : l.length ≤ n := by
  have hsub : l.toFinset ⊆ Finset.range n := by
    intro x hx
    rw [Finset.mem_range]
    exact hlt x (List.mem_toFinset.1 hx)
  calc l.length = l.toFinset.card := (List.toFinset_card_of_nodup hn).symm
  _ ≤ (Finset.range n).card := Finset.card_le_card hsub
  _ = n := Finset.card_range n

/-- One search step preserves the frame invariant and only records solutions
with the `SolOK` guarantees. -/
theorem solve_loop_sound (ctx : SolveCtx) (cap : Option Nat)
    (hnp : ctx.num_pieces ≤ 32) (htab : TableOK ctx) :
    ∀ (fuel : Nat) (stack : List PartialSolution)
      (sols : List (List PlacedPiece)) (seen : Batteries.RBSet Nat compare)
      (res : List (List PlacedPiece)),
      (∀ f ∈ stack, FrameInv ctx f) →
      (∀ sol ∈ sols, SolOK ctx sol) →
      solve_loop ctx cap fuel stack sols seen = some res →
      ∀ sol ∈ res, SolOK ctx sol := by
  intro fuel
  induction fuel with
  | zero =>
    intro stack sols seen res _ _ h
    exact absurd h (by simp [solve_loop])
  | succ fuel ih =>
    intro stack sols seen res hstack hsols h
    match stack with
    | [] =>
      rw [solve_loop] at h
      simp only [Option.some_inj] at h
      subst h
      exact hsols
    | part :: rest =>
      rw [solve_loop] at h
      have hinv := hstack part (List.mem_cons_self part rest)
      obtain ⟨hocc, hpw, hnodup, hidx⟩ := hinv
      cases hfe : find_first_empty_cell ctx.grid_size part.occupied_cells with
      | none =>
        rw [hfe] at h
        try dsimp only at h
        have hfull := find_first_empty_cell_none _ _ hfe
        have hnew : SolOK ctx part.placed_pieces :=
          ⟨hocc.symm.trans hfull, hpw, hnodup, fun p hp => (hidx p hp).1⟩
        have hsols' : ∀ sol ∈ sols ++ [part.placed_pieces], SolOK ctx sol := by
          intro sol hsol
          rcases List.mem_append.1 hsol with hsol | hsol
          · exact hsols sol hsol
          · rw [List.mem_singleton.1 hsol]
            exact hnew
        split_ifs at h with hcap
        · simp only [Option.some_inj] at h
          subst h
          exact hsols'
        · exact ih rest (sols ++ [part.placed_pieces]) seen res
            (fun f hf => hstack f (List.mem_cons_of_mem part hf)) hsols' h
      | some target_cell =>
        rw [hfe] at h
        try dsimp only at h
        cases hscan : scan_pieces ctx part.remaining_pieces part.occupied_cells
            part.placed_pieces seen target_cell
            (List.range' part.current_piece_index
              (ctx.num_pieces - part.current_piece_index))
            part.current_orientation_index with
        | none =>
          rw [hscan] at h
          try dsimp only at h
          exact ih rest sols seen res
            (fun f hf => hstack f (List.mem_cons_of_mem part hf)) hsols h
        | some r =>
          rw [hscan] at h
          obtain ⟨pi, oi', placement, key⟩ := r
          try dsimp only at h
          obtain ⟨hmem, hbit, hplm, hdisj, _, _, _⟩ :=
            scan_pieces_spec ctx part.remaining_pieces part.occupied_cells
              part.placed_pieces seen target_cell _
              part.current_orientation_index pi oi' placement key
              (List.nodup_range' _ _) hscan
          have hpilt : pi < ctx.num_pieces := by
            have := List.mem_range'_1.1 hmem
            omega
          obtain ⟨hmask, _⟩ := htab pi target_cell placement hplm
      -- the new piece's rebuilt mask is the placement's mask
          have hpm : pieceMask ctx.dim
              { piece_index := pi, cubes := placement.cube_positions } =
              placement.occupied_mask := by
            rw [hmask]
            rfl
          have hdisj' : placement.occupied_mask &&&
              masks_or ctx.dim part.placed_pieces = 0 := by
            rw [Nat.land_comm, ← hocc]
            exact hdisj
          have hinvchild : FrameInv ctx
              { placed_pieces := part.placed_pieces ++
                  [{ piece_index := pi, cubes := placement.cube_positions }]
              , remaining_pieces :=
                  part.remaining_pieces &&& (4294967295 ^^^ (1 <<< pi))
              , occupied_cells := part.occupied_cells ||| placement.occupied_mask
              , current_piece_index := 0
              , current_orientation_index := 0 } := by
            refine ⟨?_, ?_, ?_, ?_⟩
            · show part.occupied_cells ||| placement.occupied_mask =
                masks_or ctx.dim (part.placed_pieces ++ [_])
              rw [masks_or_append, hocc, hpm]
            · show List.Pairwise _ (part.placed_pieces ++ [_])
              refine List.pairwise_append.2 ⟨hpw, List.pairwise_singleton _ _, ?_⟩
              intro a ha b hb
              rw [List.mem_singleton.1 hb, hpm]
              have := land_masks_or_zero ctx.dim part.placed_pieces
                placement.occupied_mask hdisj' a ha
              rw [Nat.land_comm] at this
              exact this
            · show (List.map _ (part.placed_pieces ++ [_])).Nodup
              rw [List.map_append]
              refine ((List.perm_append_singleton _ _).nodup_iff).2 ?_
              refine List.nodup_cons.2 ⟨?_, hnodup⟩
              intro hmem2
              obtain ⟨p, hp, hpe⟩ := List.mem_map.1 hmem2
              have := (hidx p hp).2
              rw [hpe, hbit] at this
              exact Bool.noConfusion this
            · intro p hp
              rcases List.mem_append.1 hp with hp | hp
              · obtain ⟨hlt, hb⟩ := hidx p hp
                exact ⟨hlt, clear_bit_other _ _ _ hb⟩
              · rw [List.mem_singleton.1 hp]
                exact ⟨hpilt, clear_bit_self _ _ (by omega)⟩
          refine ih _ sols _ res ?_ hsols h
          intro f hf
          rcases List.mem_cons.1 hf with rfl | hf
          · exact hinvchild
          · rcases List.mem_cons.1 hf with rfl | hf
            · exact ⟨hocc, hpw, hnodup, hidx⟩
            · exact hstack f (List.mem_cons_of_mem part hf)

/-- C3: every solution returned by `solve` covers the grid exactly: the OR
of its placed pieces' occupancy masks is the full-grid mask, and the masks
of any two distinct placed pieces are bitwise disjoint.  (A returned piece's
mask is rebuilt from its absolute positions by `pieceMask`, exactly the way
`try_create_placement` built it.) -/
theorem solve_exact_cover (DIM GRID_SIZE : Nat) (puzzle : Puzzle)
    (max_solutions : Option Nat) (sols : List (List PlacedPiece))
    (hnp : puzzle.pieces.length ≤ 32)
    (h : solve DIM GRID_SIZE puzzle max_solutions = some sols) :
    ∀ sol ∈ sols, masks_or DIM sol = all_filled GRID_SIZE ∧
      sol.Pairwise (fun p q => pieceMask DIM p &&& pieceMask DIM q = 0) := by
  unfold solve at h
  try dsimp only at h
  intro sol hsol
  have hall := solve_loop_sound
    { dim := DIM, grid_size := GRID_SIZE, num_pieces := puzzle.pieces.length
    , rot_table := build_rotation_table DIM GRID_SIZE
    , chiral_pair := puzzle.chiral_pair
    , placement_table := build_placement_table DIM GRID_SIZE puzzle.pieces }
    max_solutions hnp (built_table_ok _ puzzle.pieces rfl) _ _ [] ∅ sols
    (by
      intro f hf
      rw [List.mem_singleton.1 hf]
      exact ⟨rfl, List.Pairwise.nil, List.nodup_nil,
        fun p hp => absurd hp (List.not_mem_nil p)⟩)
    (fun s hs => absurd hs (List.not_mem_nil s)) h sol hsol
  exact ⟨hall.1, hall.2.1⟩

/-- Witness for `solve_exact_cover` at the one-cell, one-piece puzzle. -/
theorem solve_exact_cover_witness :
    (({ pieces := [[((0 : Int), (0 : Int), (0 : Int))]], chiral_pair := none } : Puzzle).pieces.length ≤ 32) ∧
    (solve 1 1 { pieces := [[((0 : Int), (0 : Int), (0 : Int))]], chiral_pair := none } none =
      some [[{ piece_index := 0, cubes := [((0 : Int), (0 : Int), (0 : Int))] }]]) ∧
    ∀ sol ∈ [[({ piece_index := 0, cubes := [((0 : Int), (0 : Int), (0 : Int))] } : PlacedPiece)]],
      masks_or 1 sol = all_filled 1 ∧
      sol.Pairwise (fun p q => pieceMask 1 p &&& pieceMask 1 q = 0) :=
  ⟨by decide, by decide!,
    solve_exact_cover 1 1
      { pieces := [[((0 : Int), (0 : Int), (0 : Int))]], chiral_pair := none } none
      [[{ piece_index := 0, cubes := [((0 : Int), (0 : Int), (0 : Int))] }]]
      (by decide) (by decide!)⟩

/-- C10: in every solution returned by `solve`, the placed pieces' indices
are pairwise distinct, and the number of placed pieces never exceeds the
puzzle's piece count. -/
theorem solve_distinct_pieces (DIM GRID_SIZE : Nat) (puzzle : Puzzle)
    (max_solutions : Option Nat) (sols : List (List PlacedPiece))
    (hnp : puzzle.pieces.length ≤ 32)
    (h : solve DIM GRID_SIZE puzzle max_solutions = some sols) :
    ∀ sol ∈ sols, (sol.map (·.piece_index)).Nodup ∧
      sol.length ≤ puzzle.pieces.length := by
  unfold solve at h
  try dsimp only at h
  intro sol hsol
  have hall := solve_loop_sound
    { dim := DIM, grid_size := GRID_SIZE, num_pieces := puzzle.pieces.length
    , rot_table := build_rotation_table DIM GRID_SIZE
    , chiral_pair := puzzle.chiral_pair
    , placement_table := build_placement_table DIM GRID_SIZE puzzle.pieces }
    max_solutions hnp (built_table_ok _ puzzle.pieces rfl) _ _ [] ∅ sols
    (by
      intro f hf
      rw [List.mem_singleton.1 hf]
      exact ⟨rfl, List.Pairwise.nil, List.nodup_nil,
        fun p hp => absurd hp (List.not_mem_nil p)⟩)
    (fun s hs => absurd hs (List.not_mem_nil s)) h sol hsol
  refine ⟨hall.2.2.1, ?_⟩
  have hlen := nodup_lt_length_le (sol.map (·.piece_index)) puzzle.pieces.length
    hall.2.2.1 ?_
  · rw [List.length_map] at hlen
    exact hlen
  · intro x hx
    obtain ⟨p, hp, rfl⟩ := List.mem_map.1 hx
    exact hall.2.2.2 p hp

/-- Witness for `solve_distinct_pieces` at the one-cell, one-piece puzzle. -/
theorem solve_distinct_pieces_witness :
    (({ pieces := [[((0 : Int), (0 : Int), (0 : Int))]], chiral_pair := none } : Puzzle).pieces.length ≤ 32) ∧
    (solve 1 1 { pieces := [[((0 : Int), (0 : Int), (0 : Int))]], chiral_pair := none } none =
      some [[{ piece_index := 0, cubes := [((0 : Int), (0 : Int), (0 : Int))] }]]) ∧
    ∀ sol ∈ [[({ piece_index := 0, cubes := [((0 : Int), (0 : Int), (0 : Int))] } : PlacedPiece)]],
      (sol.map (·.piece_index)).Nodup ∧
      sol.length ≤ ({ pieces := [[((0 : Int), (0 : Int), (0 : Int))]], chiral_pair := none } : Puzzle).pieces.length :=
  ⟨by decide, by decide!,
    solve_distinct_pieces 1 1
      { pieces := [[((0 : Int), (0 : Int), (0 : Int))]], chiral_pair := none } none
      [[{ piece_index := 0, cubes := [((0 : Int), (0 : Int), (0 : Int))] }]]
      (by decide) (by decide!)⟩

theorem testBit_place_fold (dim i : Nat) :
    ∀ (l : List Coord) (m : Nat), m.testBit i = true →
      (l.foldl (fun m c => m ||| (1 <<< coord_to_idx dim c.1 c.2.1 c.2.2)) m).testBit i
        = true
  | [], m => by
    intro h
    simpa using h
  | c :: l, m => by
    intro h
    rw [List.foldl_cons]
    refine testBit_place_fold dim i l _ ?_
    rw [Nat.testBit_lor, h]
    rfl

/-- Every placement in the table occupies at least one cell: its anchor cube
is in the orientation, so the accumulated mask has at least one set bit. -/
theorem placement_mask_bit (ctx : SolveCtx) (htab : TableOK ctx) (htne : TableNE ctx)
    (pi t : Nat) (pl : Placement)
    (hmem : pl ∈ ((ctx.placement_table.getD pi []).getD t [])) :
    ∃ i, pl.occupied_mask.testBit i = true := by
  obtain ⟨hmask, _⟩ := htab pi t pl hmem
  have hne2 := htne pi t pl hmem
  cases hpos : pl.cube_positions with
  | nil => exact absurd hpos hne2
  | cons c cs =>
    refine ⟨coord_to_idx ctx.dim c.1 c.2.1 c.2.2, ?_⟩
    rw [hmask, hpos, List.foldl_cons]
    refine testBit_place_fold ctx.dim _ cs _ ?_
    rw [Nat.testBit_lor, Nat.shiftLeft_eq, one_mul, Nat.testBit_two_pow_self]
    simp

theorem le_inner_fold :
    ∀ (l : List (List Placement)) (m : Nat),
      m ≤ l.foldl (fun m pl => max m pl.length) m
  | [], m => Nat.le_refl m
  | p :: l, m => by
    rw [List.foldl_cons]
    exact le_trans (Nat.le_max_left m p.length) (le_inner_fold l _)

theorem mem_inner_fold :
    ∀ (l : List (List Placement)) (m : Nat) (pl : List Placement), pl ∈ l →
      pl.length ≤ l.foldl (fun m pl => max m pl.length) m
  | [], _, pl => by
    intro h
    exact absurd h (List.not_mem_nil pl)
  | p :: l, m, pl => by
    intro h
    rw [List.foldl_cons]
    rcases List.mem_cons.1 h with rfl | h
    · exact le_trans (Nat.le_max_right m pl.length) (le_inner_fold l _)
    · exact mem_inner_fold l _ pl h

theorem le_outer_fold :
    ∀ (t : List (List (List Placement))) (m : Nat),
      m ≤ t.foldl (fun m per => per.foldl (fun m pl => max m pl.length) m) m
  | [], m => Nat.le_refl m
  | per :: t, m => by
    rw [List.foldl_cons]
    exact le_trans (le_inner_fold per m) (le_outer_fold t _)

theorem mem_outer_fold :
    ∀ (t : List (List (List Placement))) (m : Nat) (per : List (List Placement))
      (pls : List Placement), per ∈ t → pls ∈ per →
      pls.length ≤ t.foldl (fun m per => per.foldl (fun m pl => max m pl.length) m) m
  | [], _, per, _ => by
    intro h _
    exact absurd h (List.not_mem_nil per)
  | q :: t, m, per, pls => by
    intro hper hpls
    rw [List.foldl_cons]
    rcases List.mem_cons.1 hper with rfl | hper
    · exact le_trans (mem_inner_fold per m pls hpls) (le_outer_fold t _)
    · exact mem_outer_fold t _ per pls hper hpls

/-- Every placement list in the table is no longer than `max_placements`. -/
theorem getD_length_le_max_placements (ctx : SolveCtx) (pi t : Nat) :
    ((ctx.placement_table.getD pi []).getD t []).length ≤ max_placements ctx := by
  unfold max_placements
  by_cases hpi : pi < ctx.placement_table.length
  · by_cases ht : t < (ctx.placement_table.getD pi []).length
    · refine mem_outer_fold ctx.placement_table 0 (ctx.placement_table.getD pi []) _
        ?_ ?_
      · rw [List.getD_eq_getElem _ _ hpi]
        exact List.getElem_mem hpi
      · rw [List.getD_eq_getElem _ _ ht]
        exact List.getElem_mem ht
    · rw [List.getD_eq_default _ _ (Nat.le_of_not_lt ht)]
      exact Nat.zero_le _
  · rw [List.getD_eq_default _ _ (Nat.le_of_not_lt hpi),
      List.getD_eq_default _ _ (by simp)]
    exact Nat.zero_le _

/-- The cursor measure strictly drops when the cursor `(cpi, coi)` advances
to `(pi, oi')`: either the same piece with a strictly later orientation, or
a strictly later piece. -/
theorem cursor_step_lt (np P cpi coi pi oi' : Nat) (h1 : cpi ≤ pi) (h2 : pi < np)
    (h3 : oi' ≤ P) (h4 : pi = cpi → coi < oi') :
    (np - pi) * (P + 1) + (P - oi') < (np - cpi) * (P + 1) + (P - coi) := by
  rcases Nat.eq_or_lt_of_le h1 with rfl | hlt
  · have hco : coi < oi' := h4 rfl
    exact Nat.add_lt_add_left (by omega) _
  · have hsub : (np - pi) + 1 ≤ np - cpi := by omega
    calc (np - pi) * (P + 1) + (P - oi')
        ≤ (np - pi) * (P + 1) + P := Nat.add_le_add_left (Nat.sub_le P oi') _
      _ < (np - pi) * (P + 1) + (P + 1) := Nat.add_lt_add_left (Nat.lt_succ_self P) _
      _ = ((np - pi) + 1) * (P + 1) := by ring
      _ ≤ (np - cpi) * (P + 1) := Nat.mul_le_mul hsub (Nat.le_refl _)
      _ ≤ (np - cpi) * (P + 1) + (P - coi) := Nat.le_add_right _ _

theorem frame_potential_pos (ctx : SolveCtx) (f : PartialSolution) :
    1 ≤ frame_potential ctx f := by
  unfold frame_potential
  exact Nat.mul_pos (pow_pos (by omega) _) (by omega)

theorem stack_potential_cons (ctx : SolveCtx) (f : PartialSolution)
    (s : List PartialSolution) :
    stack_potential ctx (f :: s) = frame_potential ctx f + stack_potential ctx s := by
  simp [stack_potential]

/-- When a frame `f` with one more free piece slot spawns a child (one more
placed piece, fresh cursor) and is re-pushed with a strictly advanced
cursor, the two new frames together weigh strictly less than `f` did. -/
theorem potential_decrease (ctx : SolveCtx) (f parent child : PartialSolution)
    (hpp : parent.placed_pieces = f.placed_pieces)
    (hcp : child.placed_pieces.length = f.placed_pieces.length + 1)
    (hk : f.placed_pieces.length < ctx.num_pieces)
    (hcm : cursor_measure ctx parent < cursor_measure ctx f)
    (hcc : cursor_measure ctx child ≤ cursor_bound ctx) :
    frame_potential ctx child + frame_potential ctx parent < frame_potential ctx f := by
  unfold frame_potential
  rw [hpp, hcp]
  have he1 : 1 ≤ ctx.num_pieces - f.placed_pieces.length := by omega
  have hexp : ctx.num_pieces - (f.placed_pieces.length + 1) =
      ctx.num_pieces - f.placed_pieces.length - 1 := by omega
  rw [hexp]
  set B := cursor_bound ctx + 2 with hB
  set e := ctx.num_pieces - f.placed_pieces.length with he
  have hBpos : 0 < B ^ (e - 1) := pow_pos (by omega) _
  have hpow : B ^ (e - 1) * B = B ^ e := by
    rw [← pow_succ]
    congr 1
    omega
  have hchild : B ^ (e - 1) * (cursor_measure ctx child + 1) ≤ B ^ (e - 1) * (B - 1) :=
    Nat.mul_le_mul (Nat.le_refl _) (by omega)
  have hparent : B ^ e * (cursor_measure ctx parent + 1) ≤
      B ^ e * cursor_measure ctx f :=
    Nat.mul_le_mul (Nat.le_refl _) (by omega)
  have hstep : B ^ (e - 1) * (B - 1) < B ^ e := by
    rw [← hpow]
    exact mul_lt_mul_of_pos_left (by omega) hBpos
  calc B ^ (e - 1) * (cursor_measure ctx child + 1) +
        B ^ e * (cursor_measure ctx parent + 1)
      ≤ B ^ (e - 1) * (B - 1) + B ^ e * cursor_measure ctx f :=
        Nat.add_le_add hchild hparent
    _ < B ^ e + B ^ e * cursor_measure ctx f := Nat.add_lt_add_right hstep _
    _ = B ^ e * (cursor_measure ctx f + 1) := by ring

/-- With fuel exceeding the stack potential, the search loop never runs out
of fuel: every iteration strictly decreases the stack potential. -/
theorem solve_loop_terminates (ctx : SolveCtx) (cap : Option Nat)
    (hnp : ctx.num_pieces ≤ 32) :
    ∀ (fuel : Nat) (stack : List PartialSolution)
      (sols : List (List PlacedPiece)) (seen : Batteries.RBSet Nat compare),
      (∀ f ∈ stack, DepthInv ctx f) →
      stack_potential ctx stack < fuel →
      solve_loop ctx cap fuel stack sols seen ≠ none := by
  intro fuel
  induction fuel with
  | zero =>
    intro stack sols seen _ hfuel
    exact absurd hfuel (Nat.not_lt_zero _)
  | succ fuel ih =>
    intro stack sols seen hstack hfuel
    match stack with
    | [] =>
      rw [solve_loop]
      simp
    | part :: rest =>
      rw [solve_loop]
      obtain ⟨hnodup, hidx⟩ := hstack part (List.mem_cons_self part rest)
      have hrest : ∀ f ∈ rest, DepthInv ctx f :=
        fun f hf => hstack f (List.mem_cons_of_mem part hf)
      have hpot : stack_potential ctx (part :: rest) =
          frame_potential ctx part + stack_potential ctx rest :=
        stack_potential_cons ctx part rest
      have hfp := frame_potential_pos ctx part
      cases hfe : find_first_empty_cell ctx.grid_size part.occupied_cells with
      | none =>
        try dsimp only
        split_ifs with hcap
        · simp
        · exact ih rest (sols ++ [part.placed_pieces]) seen hrest (by omega)
      | some target_cell =>
        try dsimp only
        cases hscan : scan_pieces ctx part.remaining_pieces part.occupied_cells
            part.placed_pieces seen target_cell
            (List.range' part.current_piece_index
              (ctx.num_pieces - part.current_piece_index))
            part.current_orientation_index with
        | none =>
          try dsimp only
          exact ih rest sols seen hrest (by omega)
        | some r =>
          obtain ⟨pi, oi', placement, key⟩ := r
          try dsimp only
          obtain ⟨hmem, hbit, hplm, hdisj, h1le, hlelen, hhead⟩ :=
            scan_pieces_spec ctx part.remaining_pieces part.occupied_cells
              part.placed_pieces seen target_cell _
              part.current_orientation_index pi oi' placement key
              (List.nodup_range' _ _) hscan
          have hrange := List.mem_range'_1.1 hmem
          have hpilt : pi < ctx.num_pieces := by omega
          have hcpi : part.current_piece_index ≤ pi := hrange.1
          have hP : oi' ≤ max_placements ctx :=
            le_trans hlelen (getD_length_le_max_placements ctx pi target_cell)
          have hheadapp : pi = part.current_piece_index →
              part.current_orientation_index < oi' := by
            intro hpieq
            obtain ⟨k, hk⟩ :
                ∃ k, ctx.num_pieces - part.current_piece_index = k + 1 :=
              ⟨ctx.num_pieces - part.current_piece_index - 1, by omega⟩
            refine hhead part.current_piece_index
              (List.range' (part.current_piece_index + 1) k) ?_ hpieq
            rw [hk, List.range'_succ]
          have hpin : pi ∉ part.placed_pieces.map (·.piece_index) := by
            intro hmem2
            obtain ⟨p, hp, hpe⟩ := List.mem_map.1 hmem2
            have hbp := (hidx p hp).2
            rw [hpe, hbit] at hbp
            exact Bool.noConfusion hbp
          have hnodup2 : ((part.placed_pieces.map (·.piece_index)) ++ [pi]).Nodup :=
            ((List.perm_append_singleton _ _).nodup_iff).2
              (List.nodup_cons.2 ⟨hpin, hnodup⟩)
          have hlt_all : ∀ x ∈ (part.placed_pieces.map (·.piece_index)) ++ [pi],
              x < ctx.num_pieces := by
            intro x hx
            rcases List.mem_append.1 hx with hx | hx
            · obtain ⟨p, hp, hpe⟩ := List.mem_map.1 hx
              rw [← hpe]
              exact (hidx p hp).1
            · rw [List.mem_singleton.1 hx]
              exact hpilt
          have hklt : part.placed_pieces.length < ctx.num_pieces := by
            have hle2 := nodup_lt_length_le _ ctx.num_pieces hnodup2 hlt_all
            have hlen_eq : ((part.placed_pieces.map (·.piece_index)) ++ [pi]).length
                = part.placed_pieces.length + 1 := by
              rw [List.length_append, List.length_map]
              rfl
            rw [hlen_eq] at hle2
            omega
          have hcm : cursor_measure ctx
              { part with
                  current_piece_index := pi,
                  current_orientation_index := oi' } < cursor_measure ctx part := by
            show (ctx.num_pieces - pi) * (max_placements ctx + 1) +
                (max_placements ctx - oi') <
              (ctx.num_pieces - part.current_piece_index) *
                  (max_placements ctx + 1) +
                (max_placements ctx - part.current_orientation_index)
            exact cursor_step_lt ctx.num_pieces (max_placements ctx)
              part.current_piece_index part.current_orientation_index pi oi'
              hcpi hpilt hP hheadapp
          have hdec := potential_decrease ctx part
            { part with
                current_piece_index := pi,
                current_orientation_index := oi' }
            { placed_pieces := part.placed_pieces ++
                [{ piece_index := pi, cubes := placement.cube_positions }]
            , remaining_pieces :=
                part.remaining_pieces &&& (4294967295 ^^^ (1 <<< pi))
            , occupied_cells := part.occupied_cells ||| placement.occupied_mask
            , current_piece_index := 0
            , current_orientation_index := 0 }
            rfl (by simp) hklt hcm (by simp [cursor_measure, cursor_bound])
          refine ih _ _ _ ?_ ?_
          · intro f hf
            rcases List.mem_cons.1 hf with rfl | hf
            · refine ⟨?_, ?_⟩
              · show (List.map _ (part.placed_pieces ++ [_])).Nodup
                rw [List.map_append]
                exact hnodup2
              · intro p hp
                rcases List.mem_append.1 hp with hp | hp
                · obtain ⟨hlt2, hb2⟩ := hidx p hp
                  exact ⟨hlt2, clear_bit_other _ _ _ hb2⟩
                · rw [List.mem_singleton.1 hp]
                  exact ⟨hpilt, clear_bit_self _ _ (by omega)⟩
            · rcases List.mem_cons.1 hf with rfl | hf
              · exact ⟨hnodup, hidx⟩
              · exact hrest f hf
          · rw [stack_potential_cons, stack_potential_cons]
            omega

/-- C9: for every puzzle with at most 32 pieces and every solution cap,
`solve` terminates: the fuel provided to the search loop (one more than the
initial stack potential, which strictly decreases every iteration) is never
exhausted, so the explicit stack empties (or the cap is reached) after
finitely many iterations and `solve` never returns `none`.  Moreover, for
every frame satisfying the depth invariant, a successful piece scan — the
exact situation in which `solve_loop` pushes a child frame — produces a
child whose occupied-cell set strictly grows (every occupied cell stays
occupied and at least one new cell is occupied), and whose number of placed
pieces, the new search depth, still does not exceed the piece count. -/
theorem solve_terminates (DIM GRID_SIZE : Nat) (puzzle : Puzzle)
    (max_solutions : Option Nat) (hnp : puzzle.pieces.length ≤ 32) :
    solve DIM GRID_SIZE puzzle max_solutions ≠ none ∧
    ∀ (f : PartialSolution) (seen : Batteries.RBSet Nat compare)
      (target_cell pi oi' : Nat) (placement : Placement) (key : Nat),
      DepthInv (solve_ctx DIM GRID_SIZE puzzle) f →
      scan_pieces (solve_ctx DIM GRID_SIZE puzzle) f.remaining_pieces
          f.occupied_cells f.placed_pieces seen target_cell
          (List.range' f.current_piece_index
            (puzzle.pieces.length - f.current_piece_index))
          f.current_orientation_index = some (pi, oi', placement, key) →
      (∀ i, f.occupied_cells.testBit i = true →
          (f.occupied_cells ||| placement.occupied_mask).testBit i = true) ∧
      f.occupied_cells ||| placement.occupied_mask ≠ f.occupied_cells ∧
      f.placed_pieces.length + 1 ≤ puzzle.pieces.length := by
  constructor
  · unfold solve
    try dsimp only
    refine solve_loop_terminates _ max_solutions hnp _ _ _ _ ?_ ?_
    · intro f hf
      rw [List.mem_singleton.1 hf]
      exact ⟨List.nodup_nil, fun p hp => absurd hp (List.not_mem_nil p)⟩
    · exact Nat.lt_succ_self _
  · intro f seen target_cell pi oi' placement key hinv hscan
    obtain ⟨hnodup, hidx⟩ := hinv
    obtain ⟨hmem, hbit, hplm, hdisj, h1le, hlelen, hhead⟩ :=
      scan_pieces_spec (solve_ctx DIM GRID_SIZE puzzle) f.remaining_pieces
        f.occupied_cells f.placed_pieces seen target_cell _
        f.current_orientation_index pi oi' placement key
        (List.nodup_range' _ _) hscan
    have hrange := List.mem_range'_1.1 hmem
    have hpilt : pi < puzzle.pieces.length := by omega
    have htab : TableOK (solve_ctx DIM GRID_SIZE puzzle) :=
      built_table_ok _ puzzle.pieces rfl
    have htne : TableNE (solve_ctx DIM GRID_SIZE puzzle) :=
      built_table_ne _ puzzle.pieces rfl
    obtain ⟨j, hj⟩ := placement_mask_bit _ htab htne pi target_cell placement hplm
    have hoccj : f.occupied_cells.testBit j = false := by
      rw [nat_eq_zero_iff_testBit] at hdisj
      have hdj := hdisj j
      rw [Nat.testBit_land, hj, Bool.and_true] at hdj
      exact hdj
    refine ⟨?_, ?_, ?_⟩
    · intro i hi
      rw [Nat.testBit_lor, hi]
      rfl
    · intro heq
      have h1 : (f.occupied_cells ||| placement.occupied_mask).testBit j = true := by
        rw [Nat.testBit_lor, hj, Bool.or_true]
      rw [heq, hoccj] at h1
      exact Bool.noConfusion h1
    · have hpin : pi ∉ f.placed_pieces.map (·.piece_index) := by
        intro hmem2
        obtain ⟨p, hp, hpe⟩ := List.mem_map.1 hmem2
        have hbp := (hidx p hp).2
        rw [hpe, hbit] at hbp
        exact Bool.noConfusion hbp
      have hnodup2 : ((f.placed_pieces.map (·.piece_index)) ++ [pi]).Nodup :=
        ((List.perm_append_singleton _ _).nodup_iff).2
          (List.nodup_cons.2 ⟨hpin, hnodup⟩)
      have hlt_all : ∀ x ∈ (f.placed_pieces.map (·.piece_index)) ++ [pi],
          x < puzzle.pieces.length := by
        intro x hx
        rcases List.mem_append.1 hx with hx | hx
        · obtain ⟨p, hp, hpe⟩ := List.mem_map.1 hx
          rw [← hpe]
          exact (hidx p hp).1
        · rw [List.mem_singleton.1 hx]
          exact hpilt
      have hle2 := nodup_lt_length_le _ puzzle.pieces.length hnodup2 hlt_all
      have hlen_eq : ((f.placed_pieces.map (·.piece_index)) ++ [pi]).length =
          f.placed_pieces.length + 1 := by
        rw [List.length_append, List.length_map]
        rfl
      rw [hlen_eq] at hle2
      exact hle2

/-- Witness for `solve_terminates` at the one-cell, one-piece puzzle. -/
theorem solve_terminates_witness :
    solve 1 1 { pieces := [[((0 : Int), (0 : Int), (0 : Int))]], chiral_pair := none }
      none ≠ none :=
  (solve_terminates 1 1
    { pieces := [[((0 : Int), (0 : Int), (0 : Int))]], chiral_pair := none } none
    (by decide)).1


/-- `keyGet` in division form. -/
theorem keyGet_eq_dig (gs key i : Nat) :
    keyGet gs key i = key / 256 ^ (gs - 1 - i) % 256 := by
  unfold keyGet
  rw [Nat.shiftRight_eq_div_pow]
  have hpw : (2 : Nat) ^ (8 * (gs - 1 - i)) = 256 ^ (gs - 1 - i) := by
    rw [Nat.pow_mul]
  have h255 : (255 : Nat) = 2 ^ 8 - 1 := by norm_num
  rw [h255, Nat.and_pow_two_sub_one_eq_mod, hpw]

theorem keyGet_lt (gs key i : Nat) : keyGet gs key i < 256 := by
  rw [keyGet_eq_dig]
  exact Nat.mod_lt _ (by norm_num)

/-- Split a number around digit `e`. -/
theorem dig_split (key e : Nat) :
    key = key / 256 ^ (e + 1) * 256 ^ (e + 1) +
      key / 256 ^ e % 256 * 256 ^ e + key % 256 ^ e := by
  have h1 : key / 256 ^ e * 256 ^ e + key % 256 ^ e = key :=
    Nat.div_add_mod' key (256 ^ e)
  have h2 : key / 256 ^ (e + 1) * 256 + key / 256 ^ e % 256 = key / 256 ^ e := by
    have h3 : key / 256 ^ (e + 1) = key / 256 ^ e / 256 := by
      rw [Nat.div_div_eq_div_mul, ← pow_succ]
    rw [h3]
    exact Nat.div_add_mod' (key / 256 ^ e) 256
  calc key = key / 256 ^ e * 256 ^ e + key % 256 ^ e := h1.symm
    _ = (key / 256 ^ (e + 1) * 256 + key / 256 ^ e % 256) * 256 ^ e +
        key % 256 ^ e := by rw [h2]
    _ = key / 256 ^ (e + 1) * 256 ^ (e + 1) +
        key / 256 ^ e % 256 * 256 ^ e + key % 256 ^ e := by
          rw [pow_succ]; ring

/-- `keySet` in decomposed form. -/
theorem keySet_eq_dig (gs key i v : Nat) :
    keySet gs key i v = key / 256 ^ (gs - 1 - i + 1) * 256 ^ (gs - 1 - i + 1) +
      v % 256 * 256 ^ (gs - 1 - i) + key % 256 ^ (gs - 1 - i) := by
  unfold keySet keyW
  rw [keyGet_eq_dig]
  have hsplit := dig_split key (gs - 1 - i)
  omega

/-- Lower digits ignore multiples of higher powers. -/
theorem dig_lower (M B e' : Nat) (hdvd : 256 ^ (e' + 1) ∣ M) :
    (M + B) / 256 ^ e' % 256 = B / 256 ^ e' % 256 := by
  obtain ⟨m, rfl⟩ := hdvd
  have hp : (256 : Nat) ^ (e' + 1) * m = 256 ^ e' * (256 * m) := by
    rw [pow_succ]; ring
  rw [hp, Nat.add_comm, Nat.add_mul_div_left _ _ (pow_pos (by norm_num) e')]
  omega

/-- Digits above a bounded low part only see the high part. -/
theorem dig_upper (a low e1 e' : Nat) (hlow : low < 256 ^ e1) (he : e1 ≤ e') :
    (a * 256 ^ e1 + low) / 256 ^ e' % 256 = a / 256 ^ (e' - e1) % 256 := by
  have hp : (256 : Nat) ^ e' = 256 ^ e1 * 256 ^ (e' - e1) := by
    rw [← pow_add]
    congr 1
    omega
  rw [hp, ← Nat.div_div_eq_div_mul, Nat.add_comm,
    Nat.add_mul_div_right _ _ (pow_pos (by norm_num) e1),
    Nat.div_eq_of_lt hlow, Nat.zero_add]

/-- Reading back the written digit. -/
theorem keyGet_keySet_same (gs key i v : Nat) :
    keyGet gs (keySet gs key i v) i = v % 256 := by
  rw [keyGet_eq_dig, keySet_eq_dig]
  set e := gs - 1 - i with he
  have h1 : key / 256 ^ (e + 1) * 256 ^ (e + 1) + v % 256 * 256 ^ e + key % 256 ^ e
      = key % 256 ^ e + (key / 256 ^ (e + 1) * 256 + v % 256) * 256 ^ e := by
    rw [pow_succ]; ring
  rw [h1, Nat.add_mul_div_right _ _ (pow_pos (by norm_num) e),
    Nat.div_eq_of_lt (Nat.mod_lt _ (pow_pos (by norm_num) e)), Nat.zero_add]
  omega

/-- Other digits are untouched by a write. -/
theorem keyGet_keySet_other (gs key i v j : Nat) (hi : i < gs) (hj : j < gs)
    (hij : j ≠ i) :
    keyGet gs (keySet gs key i v) j = keyGet gs key j := by
  rw [keyGet_eq_dig, keyGet_eq_dig, keySet_eq_dig]
  set ei := gs - 1 - i with hei
  set ej := gs - 1 - j with hej
  have hne : ej ≠ ei := by omega
  rcases Nat.lt_or_ge ej ei with hlt | hge
  · have hdvd : (256 : Nat) ^ (ej + 1) ∣
        key / 256 ^ (ei + 1) * 256 ^ (ei + 1) + v % 256 * 256 ^ ei := by
      refine dvd_add (Dvd.dvd.mul_left ?_ _) (Dvd.dvd.mul_left ?_ _)
      · exact pow_dvd_pow 256 (by omega)
      · exact pow_dvd_pow 256 (by omega)
    rw [dig_lower _ _ _ hdvd]
    have hwin : (256 : Nat) ^ ei = 256 ^ ej * 256 ^ (ei - ej) := by
      rw [← pow_add]
      congr 1
      omega
    rw [hwin, Nat.mod_mul_right_div_self,
      Nat.mod_mod_of_dvd _ (dvd_pow_self 256 (by omega))]
  · have hgt : ei < ej := by omega
    have hW : (0 : Nat) < 256 ^ ei := pow_pos (by norm_num) ei
    have hv : v % 256 ≤ 255 := by omega
    have hmul : v % 256 * 256 ^ ei ≤ 255 * 256 ^ ei :=
      Nat.mul_le_mul_right _ hv
    have hmod : key % 256 ^ ei < 256 ^ ei := Nat.mod_lt _ hW
    have hp : (256 : Nat) ^ (ei + 1) = 256 * 256 ^ ei := by
      rw [pow_succ]; ring
    have hlow : v % 256 * 256 ^ ei + key % 256 ^ ei < 256 ^ (ei + 1) := by
      rw [hp]
      omega
    have hd : key / 256 ^ ei % 256 ≤ 255 := by omega
    have hmul' : key / 256 ^ ei % 256 * 256 ^ ei ≤ 255 * 256 ^ ei :=
      Nat.mul_le_mul_right _ hd
    have hlow' : key / 256 ^ ei % 256 * 256 ^ ei + key % 256 ^ ei <
        256 ^ (ei + 1) := by
      rw [hp]
      omega
    have hassoc : key / 256 ^ (ei + 1) * 256 ^ (ei + 1) + v % 256 * 256 ^ ei +
        key % 256 ^ ei = key / 256 ^ (ei + 1) * 256 ^ (ei + 1) +
        (v % 256 * 256 ^ ei + key % 256 ^ ei) := by omega
    rw [hassoc, dig_upper _ _ _ _ hlow (by omega)]
    have hkey : key = key / 256 ^ (ei + 1) * 256 ^ (ei + 1) +
        (key / 256 ^ ei % 256 * 256 ^ ei + key % 256 ^ ei) := by
      have := dig_split key ei
      omega
    conv_rhs => rw [hkey]
    rw [dig_upper _ _ _ _ hlow' (by omega)]

/-- A write keeps the key inside its `GRID_SIZE`-byte range. -/
theorem keySet_lt (gs key i v : Nat) (hgs : 0 < gs) (hkey : key < 256 ^ gs) :
    keySet gs key i v < 256 ^ gs := by
  rw [keySet_eq_dig]
  set e := gs - 1 - i with he
  have hegs : e + 1 ≤ gs := by omega
  have hW : (0 : Nat) < 256 ^ e := pow_pos (by norm_num) e
  have hW1 : (0 : Nat) < 256 ^ (e + 1) := pow_pos (by norm_num) (e + 1)
  have hsplitpow : (256 : Nat) ^ gs = 256 ^ (gs - e - 1) * 256 ^ (e + 1) := by
    rw [← pow_add]
    congr 1
    omega
  have ha : key / 256 ^ (e + 1) < 256 ^ (gs - e - 1) := by
    rw [Nat.div_lt_iff_lt_mul hW1, ← hsplitpow]
    exact hkey
  have ha1 : key / 256 ^ (e + 1) + 1 ≤ 256 ^ (gs - e - 1) := ha
  have hp : (256 : Nat) ^ (e + 1) = 256 * 256 ^ e := by
    rw [pow_succ]; ring
  have hv : v % 256 ≤ 255 := by omega
  have hmul : v % 256 * 256 ^ e ≤ 255 * 256 ^ e := Nat.mul_le_mul_right _ hv
  have hmod : key % 256 ^ e < 256 ^ e := Nat.mod_lt _ hW
  have hlow : v % 256 * 256 ^ e + key % 256 ^ e < 256 ^ (e + 1) := by
    rw [hp]
    omega
  calc key / 256 ^ (e + 1) * 256 ^ (e + 1) + v % 256 * 256 ^ e + key % 256 ^ e
      < key / 256 ^ (e + 1) * 256 ^ (e + 1) + 256 ^ (e + 1) := by omega
    _ = (key / 256 ^ (e + 1) + 1) * 256 ^ (e + 1) := by ring
    _ ≤ 256 ^ (gs - e - 1) * 256 ^ (e + 1) := Nat.mul_le_mul_right _ ha1
    _ = 256 ^ gs := hsplitpow.symm

/-- Two in-range keys with equal digits are equal. -/
theorem dig_ext : ∀ (gs k1 k2 : Nat), k1 < 256 ^ gs → k2 < 256 ^ gs →
    (∀ e, e < gs → k1 / 256 ^ e % 256 = k2 / 256 ^ e % 256) → k1 = k2
  | 0, k1, k2 => by
    intro h1 h2 _
    simp at h1 h2
    omega
  | gs + 1, k1, k2 => by
    intro h1 h2 hdig
    have hpos : (0 : Nat) < 256 ^ gs := pow_pos (by norm_num) gs
    have hps : (256 : Nat) ^ (gs + 1) = 256 * 256 ^ gs := by
      rw [pow_succ]; ring
    have htop := hdig gs (Nat.lt_succ_self gs)
    have ht1 : k1 / 256 ^ gs < 256 := by
      rw [Nat.div_lt_iff_lt_mul hpos, ← hps]
      exact h1
    have ht2 : k2 / 256 ^ gs < 256 := by
      rw [Nat.div_lt_iff_lt_mul hpos, ← hps]
      exact h2
    have htop' : k1 / 256 ^ gs = k2 / 256 ^ gs := by
      rw [← Nat.mod_eq_of_lt ht1, ← Nat.mod_eq_of_lt ht2]
      exact htop
    have hwin : ∀ (k e : Nat), e < gs →
        k % 256 ^ gs / 256 ^ e % 256 = k / 256 ^ e % 256 := by
      intro k e he
      have hsp : (256 : Nat) ^ gs = 256 ^ e * 256 ^ (gs - e) := by
        rw [← pow_add]
        congr 1
        omega
      rw [hsp, Nat.mod_mul_right_div_self,
        Nat.mod_mod_of_dvd _ (dvd_pow_self 256 (by omega))]
    have ih := dig_ext gs (k1 % 256 ^ gs) (k2 % 256 ^ gs)
      (Nat.mod_lt _ hpos) (Nat.mod_lt _ hpos)
      (fun e he => by
        rw [hwin k1 e he, hwin k2 e he]
        exact hdig e (Nat.lt_succ_of_lt he))
    calc k1 = k1 / 256 ^ gs * 256 ^ gs + k1 % 256 ^ gs :=
          (Nat.div_add_mod' k1 (256 ^ gs)).symm
      _ = k2 / 256 ^ gs * 256 ^ gs + k2 % 256 ^ gs := by rw [htop', ih]
      _ = k2 := Nat.div_add_mod' k2 (256 ^ gs)

/-- Two in-range keys with equal bytes at every cell are equal. -/
theorem key_ext (gs k1 k2 : Nat) (h1 : k1 < 256 ^ gs) (h2 : k2 < 256 ^ gs)
    (h : ∀ i, i < gs → keyGet gs k1 i = keyGet gs k2 i) : k1 = k2 := by
  refine dig_ext gs k1 k2 h1 h2 ?_
  intro e he
  have hh := h (gs - 1 - e) (by omega)
  rw [keyGet_eq_dig, keyGet_eq_dig] at hh
  have hee : gs - 1 - (gs - 1 - e) = e := by omega
  rw [hee] at hh
  exact hh

/-- The generic write fold: distinct destination cells each receive the
source byte named by their entry; other cells are untouched. -/
theorem write_fold_spec (gs k : Nat) (hgs : 0 < gs) :
    ∀ (l : List (Nat × Nat)) (acc : Nat), acc < 256 ^ gs →
      (∀ p ∈ l, p.2 < gs) → (l.map (·.2)).Nodup →
      (l.foldl (fun rotated sd => keySet gs rotated sd.2 (keyGet gs k sd.1)) acc
          < 256 ^ gs) ∧
      (∀ s d, (s, d) ∈ l →
        keyGet gs (l.foldl (fun rotated sd =>
          keySet gs rotated sd.2 (keyGet gs k sd.1)) acc) d = keyGet gs k s) ∧
      (∀ j, j < gs → j ∉ l.map (·.2) →
        keyGet gs (l.foldl (fun rotated sd =>
          keySet gs rotated sd.2 (keyGet gs k sd.1)) acc) j = keyGet gs acc j)
  | [], acc => by
    intro hacc _ _
    refine ⟨hacc, ?_, ?_⟩
    · intro s d h
      exact absurd h (List.not_mem_nil _)
    · intro j _ _
      rfl
  | (s0, d0) :: l, acc => by
    intro hacc hlt hnd
    have hd0 : d0 < gs := hlt (s0, d0) (List.mem_cons_self _ _)
    have hacc' : keySet gs acc d0 (keyGet gs k s0) < 256 ^ gs :=
      keySet_lt gs acc d0 _ hgs hacc
    have hmap : ((s0, d0) :: l).map (·.2) = d0 :: l.map (·.2) := rfl
    rw [hmap] at hnd
    have hnd' : (l.map (·.2)).Nodup := (List.nodup_cons.1 hnd).2
    have hd0nin : d0 ∉ l.map (·.2) := (List.nodup_cons.1 hnd).1
    obtain ⟨hb, hw, hu⟩ := write_fold_spec gs k hgs l
      (keySet gs acc d0 (keyGet gs k s0)) hacc'
      (fun p hp => hlt p (List.mem_cons_of_mem _ hp)) hnd'
    rw [List.foldl_cons]
    refine ⟨hb, ?_, ?_⟩
    · intro s d hmem
      rcases List.mem_cons.1 hmem with heq | hmem2
      · rw [Prod.mk.injEq] at heq
        obtain ⟨hse, hde⟩ := heq
        rw [hse, hde, hu d0 hd0 hd0nin, keyGet_keySet_same]
        exact Nat.mod_eq_of_lt (keyGet_lt gs k s0)
      · exact hw s d hmem2
    · intro j hj hjn
      rw [hmap] at hjn
      have hjn2 : j ∉ l.map (·.2) := fun hc => hjn (List.mem_cons_of_mem _ hc)
      have hjd0 : j ≠ d0 := by
        intro hc
        exact hjn (by rw [hc]; exact List.mem_cons_self _ _)
      rw [hu j hj hjn2, keyGet_keySet_other gs acc d0 _ j hd0 hj hjd0]

theorem apply_rotation_lt (gs : Nat) (row : List Nat) (orig : Nat) (hgs : 0 < gs)
    (hent : ∀ d ∈ row, d < gs) (hnd : row.Nodup) :
    apply_rotation gs row orig < 256 ^ gs := by
  have hent' : ∀ p ∈ row.enum, p.2 < gs := by
    intro p hp
    refine hent p.2 ?_
    have : p.2 ∈ row.enum.map (·.2) := List.mem_map.2 ⟨p, hp, rfl⟩
    rw [List.enum_map_snd] at this
    exact this
  have hnd' : (row.enum.map (·.2)).Nodup := by
    have he : row.enum.map (·.2) = row := List.enum_map_snd row
    rw [he]
    exact hnd
  exact (write_fold_spec gs orig hgs row.enum 0 (pow_pos (by norm_num) gs)
    hent' hnd').1

theorem apply_rotation_get (gs : Nat) (row : List Nat) (orig : Nat) (hgs : 0 < gs)
    (hent : ∀ d ∈ row, d < gs) (hnd : row.Nodup) (s : Nat) (hs : s < row.length) :
    keyGet gs (apply_rotation gs row orig) (row.getD s 0) = keyGet gs orig s := by
  have hent' : ∀ p ∈ row.enum, p.2 < gs := by
    intro p hp
    refine hent p.2 ?_
    have : p.2 ∈ row.enum.map (·.2) := List.mem_map.2 ⟨p, hp, rfl⟩
    rw [List.enum_map_snd] at this
    exact this
  have hnd' : (row.enum.map (·.2)).Nodup := by
    have he : row.enum.map (·.2) = row := List.enum_map_snd row
    rw [he]
    exact hnd
  have hmem : (s, row.getD s 0) ∈ row.enum := by
    rw [List.mem_enum_iff_getElem?]
    show row[s]? = some (row.getD s 0)
    rw [List.getElem?_eq_getElem hs, List.getD_eq_getElem row 0 hs]
  exact (write_fold_spec gs orig hgs row.enum 0 (pow_pos (by norm_num) gs)
    hent' hnd').2.1 s (row.getD s 0) hmem

/-- The chiral-swap fold substitutes bytes cell by cell: each visited cell
gets the swapped byte of the original, unvisited cells are untouched. -/
theorem swap_fold_spec (gs orig first second : Nat) (hgs0 : 0 < gs)
    (hf : first < 256) (hs : second < 256) :
    ∀ (l : List Nat) (acc : Nat), acc < 256 ^ gs → l.Nodup → (∀ i ∈ l, i < gs) →
      (∀ i ∈ l, keyGet gs acc i = keyGet gs orig i) →
      (l.foldl (fun swapped i =>
          if keyGet gs orig i = first then keySet gs swapped i second
          else if keyGet gs orig i = second then keySet gs swapped i first
          else swapped) acc < 256 ^ gs) ∧
      (∀ j ∈ l, keyGet gs (l.foldl (fun swapped i =>
          if keyGet gs orig i = first then keySet gs swapped i second
          else if keyGet gs orig i = second then keySet gs swapped i first
          else swapped) acc) j =
        (if keyGet gs orig j = first then second
         else if keyGet gs orig j = second then first else keyGet gs orig j)) ∧
      (∀ j, j < gs → j ∉ l → keyGet gs (l.foldl (fun swapped i =>
          if keyGet gs orig i = first then keySet gs swapped i second
          else if keyGet gs orig i = second then keySet gs swapped i first
          else swapped) acc) j = keyGet gs acc j)
  | [], acc => by
    intro hacc _ _ _
    refine ⟨hacc, ?_, ?_⟩
    · intro j hj
      exact absurd hj (List.not_mem_nil _)
    · intro j _ _
      rfl
  | i0 :: l, acc => by
    intro hacc hnd hrange hpres0
    have hi0 : i0 < gs := hrange i0 (List.mem_cons_self _ _)
    have hi0nin : i0 ∉ l := (List.nodup_cons.1 hnd).1
    have hacc' : (if keyGet gs orig i0 = first then keySet gs acc i0 second
        else if keyGet gs orig i0 = second then keySet gs acc i0 first
        else acc) < 256 ^ gs := by
      split_ifs
      · exact keySet_lt gs acc i0 _ hgs0 hacc
      · exact keySet_lt gs acc i0 _ hgs0 hacc
      · exact hacc
    have hpres' : ∀ i ∈ l,
        keyGet gs (if keyGet gs orig i0 = first then keySet gs acc i0 second
          else if keyGet gs orig i0 = second then keySet gs acc i0 first
          else acc) i = keyGet gs orig i := by
      intro i hi
      have hne : i ≠ i0 := by
        intro hc
        rw [hc] at hi
        exact hi0nin hi
      have higs : i < gs := hrange i (List.mem_cons_of_mem _ hi)
      split_ifs
      · rw [keyGet_keySet_other gs acc i0 _ i hi0 higs hne]
        exact hpres0 i (List.mem_cons_of_mem _ hi)
      · rw [keyGet_keySet_other gs acc i0 _ i hi0 higs hne]
        exact hpres0 i (List.mem_cons_of_mem _ hi)
      · exact hpres0 i (List.mem_cons_of_mem _ hi)
    obtain ⟨hb, hw, hu⟩ := swap_fold_spec gs orig first second hgs0 hf hs l _
      hacc' (List.nodup_cons.1 hnd).2 (fun i hi => hrange i (List.mem_cons_of_mem _ hi))
      hpres'
    rw [List.foldl_cons]
    refine ⟨hb, ?_, ?_⟩
    · intro j hj
      rcases List.mem_cons.1 hj with rfl | hjl
      · rw [hu j hi0 hi0nin]
        split_ifs with h1 h2
        · rw [keyGet_keySet_same]
          exact Nat.mod_eq_of_lt hs
        · rw [keyGet_keySet_same]
          exact Nat.mod_eq_of_lt hf
        · exact hpres0 j (List.mem_cons_self _ _)
      · exact hw j hjl
    · intro j hjgs hjn
      have hjl : j ∉ l := fun hc => hjn (List.mem_cons_of_mem _ hc)
      have hji0 : j ≠ i0 := by
        intro hc
        rw [hc] at hjn
        exact hjn (List.mem_cons_self _ _)
      rw [hu j hjgs hjl]
      split_ifs
      · exact keyGet_keySet_other gs acc i0 _ j hi0 hjgs hji0
      · exact keyGet_keySet_other gs acc i0 _ j hi0 hjgs hji0
      · rfl

theorem swap_lt (gs orig : Nat) (pair : Nat × Nat) (hgs : 0 < gs)
    (horig : orig < 256 ^ gs) :
    swap_chiral_in_key gs orig pair < 256 ^ gs := by
  unfold swap_chiral_in_key
  exact (swap_fold_spec gs orig ((pair.1 + 1) % 256) ((pair.2 + 1) % 256) hgs
    (Nat.mod_lt _ (by norm_num)) (Nat.mod_lt _ (by norm_num)) (List.range gs)
    orig horig (List.nodup_range gs) (fun i hi => List.mem_range.1 hi)
    (fun i _ => rfl)).1

theorem swap_get (gs orig : Nat) (pair : Nat × Nat) (hgs : 0 < gs)
    (horig : orig < 256 ^ gs) (j : Nat) (hj : j < gs) :
    keyGet gs (swap_chiral_in_key gs orig pair) j =
      (if keyGet gs orig j = (pair.1 + 1) % 256 then (pair.2 + 1) % 256
       else if keyGet gs orig j = (pair.2 + 1) % 256 then (pair.1 + 1) % 256
       else keyGet gs orig j) := by
  unfold swap_chiral_in_key
  exact (swap_fold_spec gs orig ((pair.1 + 1) % 256) ((pair.2 + 1) % 256) hgs
    (Nat.mod_lt _ (by norm_num)) (Nat.mod_lt _ (by norm_num)) (List.range gs)
    orig horig (List.nodup_range gs) (fun i hi => List.mem_range.1 hi)
    (fun i _ => rfl)).2.1 j (List.mem_range.2 hj)

/-- `reflect_key_x` as a flat write fold over all cells. -/
theorem reflect_key_x_eq_fold (D gs orig : Nat) :
    reflect_key_x D gs orig =
      ((List.range D).flatMap (fun x => (List.range D).flatMap (fun y =>
        (List.range D).map (fun z =>
          (x * D * D + y * D + z, (D - 1 - x) * D * D + y * D + z))))).foldl
        (fun acc sd => keySet gs acc sd.2 (keyGet gs orig sd.1)) 0 := by
  have hfm : ∀ (l : List Nat) (f : Nat → List (Nat × Nat)),
      l.flatMap f = (l.map f).flatten := fun _ _ => rfl
  simp only [hfm, List.foldl_flatten, List.foldl_map]
  rfl

theorem getD_map_fn (row : List Nat) (f : Nat → Nat) (s : Nat)
    (hs : s < row.length) :
    (row.map f).getD s 0 = f (row.getD s 0) := by
  rw [List.getD_eq_getElem _ _ (by rw [List.length_map]; exact hs),
    List.getD_eq_getElem _ _ hs, List.getElem_map]

theorem getD_mem_of_lt (row : List Nat) (t : Nat) (ht : t < row.length) :
    row.getD t 0 ∈ row := by
  rw [List.getD_eq_getElem _ _ ht]
  exact List.getElem_mem ht

/-- The running-minimum fold is a lower bound of its inputs and attained. -/
theorem min_fold_spec : ∀ (l : List Nat) (b : Nat),
    ((l.foldl (fun m a => if a < m then a else m) b ≤ b) ∧
      ∀ a ∈ l, l.foldl (fun m a => if a < m then a else m) b ≤ a) ∧
    (l.foldl (fun m a => if a < m then a else m) b = b ∨
      l.foldl (fun m a => if a < m then a else m) b ∈ l)
  | [], b =>
    ⟨⟨Nat.le_refl _, fun a ha => absurd ha (List.not_mem_nil _)⟩, Or.inl rfl⟩
  | a0 :: l, b => by
    obtain ⟨⟨hle, hall⟩, hmem⟩ := min_fold_spec l (if a0 < b then a0 else b)
    rw [List.foldl_cons]
    refine ⟨⟨?_, ?_⟩, ?_⟩
    · exact le_trans hle (by split_ifs <;> omega)
    · intro a ha
      rcases List.mem_cons.1 ha with rfl | ha
      · exact le_trans hle (by split_ifs <;> omega)
      · exact hall a ha
    · rcases hmem with heq | hm
      · rw [heq]
        split_ifs
        · exact Or.inr (List.mem_cons_self _ _)
        · exact Or.inl rfl
      · exact Or.inr (List.mem_cons_of_mem _ hm)

theorem fsr_eq_min_fold (gs : Nat) (table : List (List Nat)) (k : Nat) :
    find_smallest_rotation gs table k =
      ((table.drop 1).map (fun row => apply_rotation gs row k)).foldl
        (fun m a => if a < m then a else m) k := by
  unfold find_smallest_rotation
  rw [List.foldl_map]

theorem fsr_le (gs : Nat) (table : List (List Nat)) (k m : Nat)
    (hm : m ∈ k :: (table.drop 1).map (fun row => apply_rotation gs row k)) :
    find_smallest_rotation gs table k ≤ m := by
  rw [fsr_eq_min_fold]
  rcases List.mem_cons.1 hm with rfl | hm
  · exact (min_fold_spec _ _).1.1
  · exact (min_fold_spec _ _).1.2 m hm

theorem fsr_mem (gs : Nat) (table : List (List Nat)) (k : Nat) :
    find_smallest_rotation gs table k ∈
      k :: (table.drop 1).map (fun row => apply_rotation gs row k) := by
  rw [fsr_eq_min_fold]
  rcases (min_fold_spec ((table.drop 1).map
      (fun row => apply_rotation gs row k)) k).2 with heq | hm
  · rw [heq]
    exact List.mem_cons_self _ _
  · exact List.mem_cons_of_mem _ hm

/-- The candidate list of `find_smallest_rotation` is exactly the 24 rotated
keys, provided row 0 acts as the identity on `k`. -/
theorem rot_list_mem_iff (gs : Nat) (table : List (List Nat)) (k m : Nat)
    (htlen : table.length = 24)
    (hid : apply_rotation gs (table.getD 0 []) k = k) :
    (m ∈ k :: (table.drop 1).map (fun row => apply_rotation gs row k)) ↔
      ∃ r, r < 24 ∧ m = apply_rotation gs (table.getD r []) k := by
  constructor
  · intro hm
    rcases List.mem_cons.1 hm with rfl | hm
    · exact ⟨0, by omega, hid.symm⟩
    · obtain ⟨row, hrow, rfl⟩ := List.mem_map.1 hm
      obtain ⟨i, hi, hrowi⟩ := List.mem_iff_getElem.1 hrow
      have hlen : (table.drop 1).length = 23 := by
        rw [List.length_drop, htlen]
      refine ⟨1 + i, by omega, ?_⟩
      have hrow2 : row = table.getD (1 + i) [] := by
        rw [List.getD_eq_getElem _ _ (by omega : 1 + i < table.length), ← hrowi,
          List.getElem_drop]
      rw [hrow2]
  · rintro ⟨r, hr, rfl⟩
    rcases Nat.eq_zero_or_pos r with rfl | hrpos
    · rw [hid]
      exact List.mem_cons_self _ _
    · refine List.mem_cons_of_mem _ (List.mem_map.2 ⟨table.getD r [], ?_, rfl⟩)
      have hlen : (table.drop 1).length = 23 := by
        rw [List.length_drop, htlen]
      have hget : table.getD r [] = (table.drop 1).getD (r - 1) [] := by
        rw [List.getD_eq_getElem _ _ (by omega : r < table.length),
          List.getD_eq_getElem _ _ (by omega : r - 1 < (table.drop 1).length),
          List.getElem_drop]
        congr 1
        omega
      rw [hget, List.getD_eq_getElem _ _
        (by omega : r - 1 < (table.drop 1).length)]
      exact List.getElem_mem _

/-- Composing two grid-cell permutation actions on a key. -/
theorem apply_rotation_comp (gs : Nat) (row1 row2 : List Nat) (k : Nat)
    (hgs : 0 < gs)
    (h1len : row1.length = gs) (h1nd : row1.Nodup) (h1ent : ∀ d ∈ row1, d < gs)
    (h1surj : ∀ j, j < gs → ∃ s, s < gs ∧ row1.getD s 0 = j)
    (h2len : row2.length = gs) (h2nd : row2.Nodup) (h2ent : ∀ d ∈ row2, d < gs)
    (h2surj : ∀ j, j < gs → ∃ s, s < gs ∧ row2.getD s 0 = j) :
    apply_rotation gs row2 (apply_rotation gs row1 k) =
      apply_rotation gs (row1.map (fun t => row2.getD t 0)) k := by
  have hcent : ∀ d ∈ row1.map (fun t => row2.getD t 0), d < gs := by
    intro d hd
    obtain ⟨t, ht, rfl⟩ := List.mem_map.1 hd
    have htgs : t < gs := h1ent t ht
    exact h2ent _ (getD_mem_of_lt row2 t (by omega))
  have hcnd : (row1.map (fun t => row2.getD t 0)).Nodup := by
    refine List.Nodup.map_on ?_ h1nd
    intro x hx y hy hxy
    have hxgs : x < row2.length := by rw [h2len]; exact h1ent x hx
    have hygs : y < row2.length := by rw [h2len]; exact h1ent y hy
    rw [List.getD_eq_getElem _ _ hxgs, List.getD_eq_getElem _ _ hygs] at hxy
    exact h2nd.getElem_inj_iff.mp hxy
  refine key_ext gs _ _
    (apply_rotation_lt gs row2 _ hgs h2ent h2nd)
    (apply_rotation_lt gs _ k hgs hcent hcnd) ?_
  intro j hj
  obtain ⟨u, hu, huj⟩ := h2surj j hj
  obtain ⟨s, hs, hsu⟩ := h1surj u hu
  have hcget : (row1.map (fun t => row2.getD t 0)).getD s 0 = j := by
    rw [getD_map_fn row1 _ s (by omega), hsu, huj]
  rw [← hcget]
  rw [apply_rotation_get gs _ k hgs hcent hcnd s
    (by rw [List.length_map]; omega)]
  rw [hcget, ← huj]
  rw [apply_rotation_get gs row2 _ hgs h2ent h2nd u (by omega)]
  rw [← hsu]
  rw [apply_rotation_get gs row1 k hgs h1ent h1nd s (by omega)]

/-- Decomposing a cell index into its three coordinates. -/
theorem cell_decomp (D j : Nat) (hj : j < D * D * D) :
    j / (D * D) * D * D + j / D % D * D + j % D = j ∧
    j / (D * D) < D ∧ j / D % D < D ∧ j % D < D := by
  have hD : 0 < D := by
    by_contra h
    have : D = 0 := by omega
    rw [this] at hj
    omega
  have hDD : 0 < D * D := Nat.mul_pos hD hD
  have hx : j / (D * D) < D := by
    rw [Nat.div_lt_iff_lt_mul hDD]
    have : D * (D * D) = D * D * D := by ring
    omega
  have hy : j / D % D < D := Nat.mod_lt _ hD
  have hz : j % D < D := Nat.mod_lt _ hD
  have h2 : j / (D * D) * (D * D) + j % (D * D) = j := Nat.div_add_mod' j (D * D)
  have h3 : j % (D * D) / D = j / D % D := Nat.mod_mul_right_div_self j D D
  have h4 : j % (D * D) % D = j % D :=
    Nat.mod_mod_of_dvd j (Dvd.intro D rfl)
  have h5 : j % (D * D) / D * D + j % (D * D) % D = j % (D * D) :=
    Nat.div_add_mod' (j % (D * D)) D
  rw [h3, h4] at h5
  have hassoc : j / (D * D) * D * D = j / (D * D) * (D * D) := by ring
  refine ⟨?_, hx, hy, hz⟩
  rw [hassoc]
  omega

/-- Extracting the coordinates back out of an assembled cell index. -/
theorem comp_extract (D a y z : Nat) (hy : y < D) (hz : z < D) :
    (a * D * D + y * D + z) / (D * D) = a ∧
    (a * D * D + y * D + z) / D % D = y ∧
    (a * D * D + y * D + z) % D = z := by
  have hD : 0 < D := by omega
  have hDD : 0 < D * D := Nat.mul_pos hD hD
  have hlow : y * D + z < D * D := by
    have h1 : y + 1 ≤ D := hy
    have h2 : (y + 1) * D ≤ D * D := Nat.mul_le_mul_right _ h1
    have h3 : y * D + D ≤ D * D := by
      calc y * D + D = (y + 1) * D := by ring
        _ ≤ D * D := h2
    omega
  have hdiv : (a * D * D + y * D + z) / (D * D) = a := by
    have he : a * D * D + y * D + z = y * D + z + a * (D * D) := by ring
    rw [he, Nat.add_mul_div_right _ _ hDD, Nat.div_eq_of_lt hlow, Nat.zero_add]
  have hmod : (a * D * D + y * D + z) % D = z := by
    have he : a * D * D + y * D + z = z + (a * D + y) * D := by ring
    rw [he, Nat.add_mul_mod_self_right]
    exact Nat.mod_eq_of_lt hz
  have hmid : (a * D * D + y * D + z) / D % D = y := by
    have he : a * D * D + y * D + z = z + (a * D + y) * D := by ring
    rw [he, Nat.add_mul_div_right _ _ hD, Nat.div_eq_of_lt hz, Nat.zero_add]
    rw [Nat.add_comm (a * D) y, Nat.add_mul_mod_self_right]
    exact Nat.mod_eq_of_lt hy
  exact ⟨hdiv, hmid, hmod⟩

/-- The x-mirror cell map stays in range and is an involution. -/
theorem mirror_idx_facts (D j : Nat) (hj : j < D * D * D) :
    mirror_idx D j < D * D * D ∧ mirror_idx D (mirror_idx D j) = j := by
  obtain ⟨hre, hx, hy, hz⟩ := cell_decomp D j hj
  have hD : 0 < D := by omega
  have hx' : D - 1 - j / (D * D) < D :=
    lt_of_le_of_lt (Nat.sub_le (D - 1) (j / (D * D))) (by omega)
  obtain ⟨d, rfl⟩ : ∃ d, D = d + 1 := ⟨D - 1, by omega⟩
  have hbound : mirror_idx (d + 1) j < (d + 1) * (d + 1) * (d + 1) := by
    unfold mirror_idx
    have h1 : (d + 1 - 1 - j / ((d + 1) * (d + 1))) * (d + 1) * (d + 1) ≤
        d * (d + 1) * (d + 1) := by
      refine Nat.mul_le_mul_right _ (Nat.mul_le_mul_right _ ?_)
      omega
    have h2 : j / (d + 1) % (d + 1) * (d + 1) ≤ d * (d + 1) :=
      Nat.mul_le_mul_right _ (by omega)
    have h3 : j % (d + 1) ≤ d := by omega
    have h4 : d * (d + 1) * (d + 1) + d * (d + 1) + d + 1 =
        (d + 1) * (d + 1) * (d + 1) := by ring
    omega
  refine ⟨hbound, ?_⟩
  show mirror_idx (d + 1)
    ((d + 1 - 1 - j / ((d + 1) * (d + 1))) * (d + 1) * (d + 1) +
      j / (d + 1) % (d + 1) * (d + 1) + j % (d + 1)) = j
  obtain ⟨he1, he2, he3⟩ := comp_extract (d + 1)
    (d + 1 - 1 - j / ((d + 1) * (d + 1))) (j / (d + 1) % (d + 1)) (j % (d + 1))
    hy hz
  unfold mirror_idx
  rw [he1, he2, he3]
  have hxx : d + 1 - 1 - (d + 1 - 1 - j / ((d + 1) * (d + 1))) =
      j / ((d + 1) * (d + 1)) := by omega
  rw [hxx]
  exact hre

/-- An identity row acts as the identity on in-range keys. -/
theorem apply_rotation_id (gs : Nat) (row : List Nat) (k : Nat) (hgs : 0 < gs)
    (hk : k < 256 ^ gs) (hrow : RowOK gs row)
    (hid : ∀ s, s < gs → row.getD s 0 = s) :
    apply_rotation gs row k = k := by
  obtain ⟨hlen, hnd, hent, _⟩ := hrow
  refine key_ext gs _ _ (apply_rotation_lt gs row k hgs hent hnd) hk ?_
  intro j hj
  have h := apply_rotation_get gs row k hgs hent hnd j (by omega)
  rw [hid j hj] at h
  exact h

theorem reflect_lt (D gs orig : Nat) (hgs : 0 < gs)
    (hdest : ∀ p ∈ (List.range D).flatMap (fun x => (List.range D).flatMap (fun y =>
        (List.range D).map (fun z =>
          (x * D * D + y * D + z, (D - 1 - x) * D * D + y * D + z)))), p.2 < gs)
    (hnd : (((List.range D).flatMap (fun x => (List.range D).flatMap (fun y =>
        (List.range D).map (fun z =>
          (x * D * D + y * D + z, (D - 1 - x) * D * D + y * D + z))))).map
        (·.2)).Nodup) :
    reflect_key_x D gs orig < 256 ^ gs := by
  rw [reflect_key_x_eq_fold D gs orig]
  exact (write_fold_spec gs orig hgs _ 0 (pow_pos (by norm_num) gs) hdest hnd).1

theorem reflect_get_xyz (D gs orig : Nat) (hgs : 0 < gs)
    (hdest : ∀ p ∈ (List.range D).flatMap (fun x => (List.range D).flatMap (fun y =>
        (List.range D).map (fun z =>
          (x * D * D + y * D + z, (D - 1 - x) * D * D + y * D + z)))), p.2 < gs)
    (hnd : (((List.range D).flatMap (fun x => (List.range D).flatMap (fun y =>
        (List.range D).map (fun z =>
          (x * D * D + y * D + z, (D - 1 - x) * D * D + y * D + z))))).map
        (·.2)).Nodup)
    (x y z : Nat) (hx : x < D) (hy : y < D) (hz : z < D) :
    keyGet gs (reflect_key_x D gs orig) ((D - 1 - x) * D * D + y * D + z) =
      keyGet gs orig (x * D * D + y * D + z) := by
  rw [reflect_key_x_eq_fold D gs orig]
  refine (write_fold_spec gs orig hgs _ 0 (pow_pos (by norm_num) gs)
    hdest hnd).2.1 _ _ ?_
  simp only [List.mem_flatMap, List.mem_map, List.mem_range]
  exact ⟨x, hx, y, hy, z, hz, rfl⟩

/-- Byte of the reflected key at any cell: the byte of the mirrored cell. -/
theorem reflect_get (D gs orig : Nat) (hgs3 : gs = D * D * D) (hgs : 0 < gs)
    (hdest : ∀ p ∈ (List.range D).flatMap (fun x => (List.range D).flatMap (fun y =>
        (List.range D).map (fun z =>
          (x * D * D + y * D + z, (D - 1 - x) * D * D + y * D + z)))), p.2 < gs)
    (hnd : (((List.range D).flatMap (fun x => (List.range D).flatMap (fun y =>
        (List.range D).map (fun z =>
          (x * D * D + y * D + z, (D - 1 - x) * D * D + y * D + z))))).map
        (·.2)).Nodup)
    (j : Nat) (hj : j < gs) :
    keyGet gs (reflect_key_x D gs orig) j = keyGet gs orig (mirror_idx D j) := by
  have hj3 : j < D * D * D := by omega
  obtain ⟨hre, hx, hy, hz⟩ := cell_decomp D j hj3
  have hD : 0 < D := by omega
  have hx' : D - 1 - j / (D * D) < D :=
    lt_of_le_of_lt (Nat.sub_le (D - 1) (j / (D * D))) (by omega)
  have h := reflect_get_xyz D gs orig hgs hdest hnd (D - 1 - j / (D * D))
    (j / D % D) (j % D) hx' hy hz
  have hxm : D - 1 - (D - 1 - j / (D * D)) = j / (D * D) := by omega
  rw [hxm, hre] at h
  exact h

/-- Reflecting twice restores the key. -/
theorem reflect_reflect (D gs orig : Nat) (hgs3 : gs = D * D * D) (hgs : 0 < gs)
    (horig : orig < 256 ^ gs)
    (hdest : ∀ p ∈ (List.range D).flatMap (fun x => (List.range D).flatMap (fun y =>
        (List.range D).map (fun z =>
          (x * D * D + y * D + z, (D - 1 - x) * D * D + y * D + z)))), p.2 < gs)
    (hnd : (((List.range D).flatMap (fun x => (List.range D).flatMap (fun y =>
        (List.range D).map (fun z =>
          (x * D * D + y * D + z, (D - 1 - x) * D * D + y * D + z))))).map
        (·.2)).Nodup) :
    reflect_key_x D gs (reflect_key_x D gs orig) = orig := by
  refine key_ext gs _ _ (reflect_lt D gs _ hgs hdest hnd) horig ?_
  intro j hj
  obtain ⟨hmb, hmm⟩ := mirror_idx_facts D j (by omega)
  rw [reflect_get D gs _ hgs3 hgs hdest hnd j hj,
    reflect_get D gs orig hgs3 hgs hdest hnd (mirror_idx D j) (by omega), hmm]

/-- Swapping the chiral pair twice restores the key. -/
theorem swap_swap (gs : Nat) (pair : Nat × Nat) (k : Nat) (hgs : 0 < gs)
    (hk : k < 256 ^ gs) :
    swap_chiral_in_key gs (swap_chiral_in_key gs k pair) pair = k := by
  refine key_ext gs _ _ (swap_lt gs _ pair hgs (swap_lt gs k pair hgs hk)) hk ?_
  intro j hj
  rw [swap_get gs _ pair hgs (swap_lt gs k pair hgs hk) j hj,
    swap_get gs k pair hgs hk j hj]
  split_ifs <;> omega

/-- Chiral swapping (a byte substitution) commutes with a cell permutation. -/
theorem swap_apply_comm (gs : Nat) (row : List Nat) (pair : Nat × Nat) (k : Nat)
    (hgs : 0 < gs) (hk : k < 256 ^ gs) (hrow : RowOK gs row) :
    swap_chiral_in_key gs (apply_rotation gs row k) pair =
      apply_rotation gs row (swap_chiral_in_key gs k pair) := by
  obtain ⟨hlen, hnd, hent, hsurj⟩ := hrow
  refine key_ext gs _ _
    (swap_lt gs _ pair hgs (apply_rotation_lt gs row k hgs hent hnd))
    (apply_rotation_lt gs row _ hgs hent hnd) ?_
  intro j hj
  obtain ⟨s, hsgs, hsj⟩ := hsurj j hj
  rw [swap_get gs _ pair hgs (apply_rotation_lt gs row k hgs hent hnd) j hj,
    ← hsj, apply_rotation_get gs row k hgs hent hnd s (by omega),
    apply_rotation_get gs row _ hgs hent hnd s (by omega),
    swap_get gs k pair hgs hk s (by omega)]

/-- Chiral swapping commutes with the x-reflection. -/
theorem swap_reflect_comm (D gs : Nat) (pair : Nat × Nat) (k : Nat)
    (hgs3 : gs = D * D * D) (hgs : 0 < gs) (hk : k < 256 ^ gs)
    (hdest : ∀ p ∈ (List.range D).flatMap (fun x => (List.range D).flatMap (fun y =>
        (List.range D).map (fun z =>
          (x * D * D + y * D + z, (D - 1 - x) * D * D + y * D + z)))), p.2 < gs)
    (hnd : (((List.range D).flatMap (fun x => (List.range D).flatMap (fun y =>
        (List.range D).map (fun z =>
          (x * D * D + y * D + z, (D - 1 - x) * D * D + y * D + z))))).map
        (·.2)).Nodup) :
    swap_chiral_in_key gs (reflect_key_x D gs k) pair =
      reflect_key_x D gs (swap_chiral_in_key gs k pair) := by
  refine key_ext gs _ _
    (swap_lt gs _ pair hgs (reflect_lt D gs k hgs hdest hnd))
    (reflect_lt D gs _ hgs hdest hnd) ?_
  intro j hj
  obtain ⟨hmb, _⟩ := mirror_idx_facts D j (by omega)
  rw [swap_get gs _ pair hgs (reflect_lt D gs k hgs hdest hnd) j hj,
    reflect_get D gs k hgs3 hgs hdest hnd j hj,
    reflect_get D gs _ hgs3 hgs hdest hnd j hj,
    swap_get gs k pair hgs hk (mirror_idx D j) (by omega)]

/-- The smallest rotated key is invariant under pre-rotating the key,
given the group closure facts about the rotation table. -/
theorem fsr_rot_inv (gs : Nat) (table : List (List Nat)) (k : Nat) (r0 : Nat)
    (hgs : 0 < gs) (hk : k < 256 ^ gs) (htlen : table.length = 24) (hr0 : r0 < 24)
    (hrows : ∀ r, r < 24 → RowOK gs (table.getD r []))
    (hid0 : ∀ s, s < gs → (table.getD 0 []).getD s 0 = s)
    (hcomp : ∀ a, a < 24 → ∀ b, b < 24 → ∃ c, c < 24 ∧
      (table.getD b []).map (fun t => (table.getD a []).getD t 0) =
        table.getD c [])
    (hdiv : ∀ b, b < 24 → ∀ m, m < 24 → ∃ a, a < 24 ∧
      (table.getD b []).map (fun t => (table.getD a []).getD t 0) =
        table.getD m []) :
    find_smallest_rotation gs table (apply_rotation gs (table.getD r0 []) k) =
      find_smallest_rotation gs table k := by
  have hk0 : apply_rotation gs (table.getD r0 []) k < 256 ^ gs :=
    apply_rotation_lt gs _ k hgs (hrows r0 hr0).2.2.1 (hrows r0 hr0).2.1
  have hidk : ∀ m, m < 256 ^ gs → apply_rotation gs (table.getD 0 []) m = m :=
    fun m hm => apply_rotation_id gs _ m hgs hm (hrows 0 (by omega)) hid0
  have hAcomp : ∀ a, a < 24 →
      apply_rotation gs (table.getD a [])
        (apply_rotation gs (table.getD r0 []) k) =
      apply_rotation gs
        ((table.getD r0 []).map (fun t => (table.getD a []).getD t 0)) k := by
    intro a ha
    obtain ⟨h0l, h0n, h0e, h0s⟩ := hrows r0 hr0
    obtain ⟨hal, han, hae, has⟩ := hrows a ha
    exact apply_rotation_comp gs _ _ k hgs h0l h0n h0e h0s hal han hae has
  refine Nat.le_antisymm ?_ ?_
  · obtain ⟨rm, hrm, heq⟩ := (rot_list_mem_iff gs table k _ htlen (hidk k hk)).1
      (fsr_mem gs table k)
    obtain ⟨a, ha, hae⟩ := hdiv r0 hr0 rm hrm
    have hle := fsr_le gs table (apply_rotation gs (table.getD r0 []) k)
      (apply_rotation gs (table.getD a [])
        (apply_rotation gs (table.getD r0 []) k))
      ((rot_list_mem_iff gs table _ _ htlen (hidk _ hk0)).2 ⟨a, ha, rfl⟩)
    rw [hAcomp a ha, hae, ← heq] at hle
    exact hle
  · obtain ⟨a, ha, heq⟩ := (rot_list_mem_iff gs table _ _ htlen (hidk _ hk0)).1
      (fsr_mem gs table (apply_rotation gs (table.getD r0 []) k))
    obtain ⟨c, hc, hce⟩ := hcomp a ha r0 hr0
    rw [hAcomp a ha, hce] at heq
    have hle := fsr_le gs table k (apply_rotation gs (table.getD c []) k)
      ((rot_list_mem_iff gs table k _ htlen (hidk k hk)).2 ⟨c, hc, rfl⟩)
    rw [← heq] at hle
    exact hle

/-- The x-reflection conjugates a rotation action into another rotation
action, per the index-level conjugation identity. -/
theorem reflect_apply_conj (D gs : Nat) (table : List (List Nat)) (r0 r0' k : Nat)
    (hgs3 : gs = D * D * D) (hgs : 0 < gs)
    (hrow0 : RowOK gs (table.getD r0 [])) (hrow0' : RowOK gs (table.getD r0' []))
    (hconj_idx : ∀ s, s < gs → mirror_idx D ((table.getD r0 []).getD s 0) =
      (table.getD r0' []).getD (mirror_idx D s) 0)
    (hdest : ∀ p ∈ (List.range D).flatMap (fun x => (List.range D).flatMap (fun y =>
        (List.range D).map (fun z =>
          (x * D * D + y * D + z, (D - 1 - x) * D * D + y * D + z)))), p.2 < gs)
    (hnd : (((List.range D).flatMap (fun x => (List.range D).flatMap (fun y =>
        (List.range D).map (fun z =>
          (x * D * D + y * D + z, (D - 1 - x) * D * D + y * D + z))))).map
        (·.2)).Nodup) :
    reflect_key_x D gs (apply_rotation gs (table.getD r0 []) k) =
      apply_rotation gs (table.getD r0' []) (reflect_key_x D gs k) := by
  obtain ⟨h0l, h0n, h0e, h0s⟩ := hrow0
  obtain ⟨h1l, h1n, h1e, h1s⟩ := hrow0'
  refine key_ext gs _ _
    (reflect_lt D gs _ hgs hdest hnd)
    (apply_rotation_lt gs _ _ hgs h1e h1n) ?_
  intro j hj
  obtain ⟨hmbj, hmmj⟩ := mirror_idx_facts D j (by omega)
  obtain ⟨s, hsgs, hs⟩ := h0s (mirror_idx D j) (by omega)
  obtain ⟨hmbs, hmms⟩ := mirror_idx_facts D s (by omega)
  have hj' : (table.getD r0' []).getD (mirror_idx D s) 0 = j := by
    rw [← hconj_idx s hsgs, hs, hmmj]
  calc keyGet gs (reflect_key_x D gs (apply_rotation gs (table.getD r0 []) k)) j
      = keyGet gs (apply_rotation gs (table.getD r0 []) k) (mirror_idx D j) :=
        reflect_get D gs _ hgs3 hgs hdest hnd j hj
    _ = keyGet gs k s := by
        rw [← hs]
        exact apply_rotation_get gs _ k hgs h0e h0n s (by omega)
    _ = keyGet gs (reflect_key_x D gs k) (mirror_idx D s) := by
        rw [reflect_get D gs k hgs3 hgs hdest hnd (mirror_idx D s) (by omega), hmms]
    _ = keyGet gs (apply_rotation gs (table.getD r0' [])
          (reflect_key_x D gs k)) j := by
        rw [← hj']
        exact (apply_rotation_get gs _ _ hgs h1e h1n (mirror_idx D s)
          (by omega)).symm

/-- C6 at the key level: the canonical form is invariant under pre-rotating
the grid key by any table rotation. -/
theorem fswr_rot_inv (D gs : Nat) (table : List (List Nat))
    (cp : Option (Nat × Nat)) (k r0 : Nat)
    (hgs3 : gs = D * D * D) (hgs : 0 < gs) (hk : k < 256 ^ gs)
    (htlen : table.length = 24) (hr0 : r0 < 24)
    (hrows : ∀ r, r < 24 → RowOK gs (table.getD r []))
    (hid0 : ∀ s, s < gs → (table.getD 0 []).getD s 0 = s)
    (hcomp : ∀ a, a < 24 → ∀ b, b < 24 → ∃ c, c < 24 ∧
      (table.getD b []).map (fun t => (table.getD a []).getD t 0) =
        table.getD c [])
    (hdiv : ∀ b, b < 24 → ∀ m, m < 24 → ∃ a, a < 24 ∧
      (table.getD b []).map (fun t => (table.getD a []).getD t 0) =
        table.getD m [])
    (hconj : ∀ a, a < 24 → ∃ a', a' < 24 ∧ ∀ s, s < gs →
      mirror_idx D ((table.getD a []).getD s 0) =
        (table.getD a' []).getD (mirror_idx D s) 0)
    (hdest : ∀ p ∈ (List.range D).flatMap (fun x => (List.range D).flatMap (fun y =>
        (List.range D).map (fun z =>
          (x * D * D + y * D + z, (D - 1 - x) * D * D + y * D + z)))), p.2 < gs)
    (hnd : (((List.range D).flatMap (fun x => (List.range D).flatMap (fun y =>
        (List.range D).map (fun z =>
          (x * D * D + y * D + z, (D - 1 - x) * D * D + y * D + z))))).map
        (·.2)).Nodup) :
    find_smallest_rotation_with_reflection D gs table
        (apply_rotation gs (table.getD r0 []) k) cp =
      find_smallest_rotation_with_reflection D gs table k cp := by
  obtain ⟨r0', hr0', hconj_idx⟩ := hconj r0 hr0
  have h1 : find_smallest_rotation gs table
      (apply_rotation gs (table.getD r0 []) k) =
      find_smallest_rotation gs table k :=
    fsr_rot_inv gs table k r0 hgs hk htlen hr0 hrows hid0 hcomp hdiv
  have hrefl : reflect_key_x D gs (apply_rotation gs (table.getD r0 []) k) =
      apply_rotation gs (table.getD r0' [])
        (reflect_key_x D gs k) :=
    reflect_apply_conj D gs table r0 r0' k hgs3 hgs (hrows r0 hr0)
      (hrows r0' hr0') hconj_idx hdest hnd
  have hreflk : reflect_key_x D gs k < 256 ^ gs :=
    reflect_lt D gs k hgs hdest hnd
  unfold find_smallest_rotation_with_reflection
  cases cp with
  | none =>
    try dsimp only
    rw [h1, hrefl,
      fsr_rot_inv gs table (reflect_key_x D gs k) r0' hgs hreflk htlen hr0'
        hrows hid0 hcomp hdiv]
  | some pair =>
    try dsimp only
    rw [h1, hrefl,
      swap_apply_comm gs _ pair (reflect_key_x D gs k) hgs hreflk
        (hrows r0' hr0'),
      fsr_rot_inv gs table
        (swap_chiral_in_key gs (reflect_key_x D gs k) pair) r0' hgs
        (swap_lt gs _ pair hgs hreflk) htlen hr0' hrows hid0 hcomp hdiv]

/-- C7 at the key level: the canonical form (with a chiral pair) is
invariant under reflecting the key and swapping the pair bytes. -/
theorem fswr_reflect_swap_inv (D gs : Nat) (table : List (List Nat))
    (pair : Nat × Nat) (k : Nat)
    (hgs3 : gs = D * D * D) (hgs : 0 < gs) (hk : k < 256 ^ gs)
    (hdest : ∀ p ∈ (List.range D).flatMap (fun x => (List.range D).flatMap (fun y =>
        (List.range D).map (fun z =>
          (x * D * D + y * D + z, (D - 1 - x) * D * D + y * D + z)))), p.2 < gs)
    (hnd : (((List.range D).flatMap (fun x => (List.range D).flatMap (fun y =>
        (List.range D).map (fun z =>
          (x * D * D + y * D + z, (D - 1 - x) * D * D + y * D + z))))).map
        (·.2)).Nodup) :
    find_smallest_rotation_with_reflection D gs table
        (swap_chiral_in_key gs (reflect_key_x D gs k) pair) (some pair) =
      find_smallest_rotation_with_reflection D gs table k (some pair) := by
  have hreflk : reflect_key_x D gs k < 256 ^ gs :=
    reflect_lt D gs k hgs hdest hnd
  have hswapk : swap_chiral_in_key gs (reflect_key_x D gs k) pair < 256 ^ gs :=
    swap_lt gs _ pair hgs hreflk
  have hback : swap_chiral_in_key gs (reflect_key_x D gs
      (swap_chiral_in_key gs (reflect_key_x D gs k) pair)) pair = k := by
    rw [← swap_reflect_comm D gs pair (reflect_key_x D gs k) hgs3 hgs hreflk
      hdest hnd]
    rw [reflect_reflect D gs k hgs3 hgs hk hdest hnd]
    exact swap_swap gs pair k hgs hk
  unfold find_smallest_rotation_with_reflection
  try dsimp only
  rw [hback]
  split_ifs <;> omega

theorem keyGet_zero (gs i : Nat) : keyGet gs 0 i = 0 := by
  unfold keyGet
  rw [Nat.zero_shiftRight, Nat.zero_and]

theorem apply_rotation_zero (gs : Nat) (row : List Nat) (hgs : 0 < gs)
    (hrow : RowOK gs row) : apply_rotation gs row 0 = 0 := by
  obtain ⟨hlen, hnd, hent, hsurj⟩ := hrow
  refine key_ext gs _ _ (apply_rotation_lt gs row 0 hgs hent hnd)
    (pow_pos (by norm_num) gs) ?_
  intro j hj
  obtain ⟨s, hsgs, hsj⟩ := hsurj j hj
  rw [← hsj, apply_rotation_get gs row 0 hgs hent hnd s (by omega),
    keyGet_zero, keyGet_zero]

theorem getD_inj (row : List Nat) (hnd : row.Nodup) (s i : Nat)
    (hs : s < row.length) (hi : i < row.length)
    (h : row.getD s 0 = row.getD i 0) : s = i := by
  rw [List.getD_eq_getElem _ _ hs, List.getD_eq_getElem _ _ hi] at h
  exact hnd.getElem_inj_iff.mp h

theorem cell_lt (D a b c : Nat) (ha : a < D) (hb : b < D) (hc : c < D) :
    a * D * D + b * D + c < D * D * D := by
  obtain ⟨d, rfl⟩ : ∃ d, D = d + 1 := ⟨D - 1, by omega⟩
  have h1 : a * (d + 1) * (d + 1) ≤ d * (d + 1) * (d + 1) :=
    Nat.mul_le_mul_right _ (Nat.mul_le_mul_right _ (by omega))
  have h2 : b * (d + 1) ≤ d * (d + 1) := Nat.mul_le_mul_right _ (by omega)
  have h4 : d * (d + 1) * (d + 1) + d * (d + 1) + d + 1 =
      (d + 1) * (d + 1) * (d + 1) := by ring
  omega

theorem coord_to_idx_lt (D : Nat) (c : Coord) (hc : cubeInRange D c) :
    coord_to_idx D c.1 c.2.1 c.2.2 < D * D * D := by
  obtain ⟨h1, h2, h3, h4, h5, h6⟩ := hc
  unfold coord_to_idx
  exact cell_lt D _ _ _ (by omega) (by omega) (by omega)

theorem idx_coord_roundtrip (D m : Nat) (hm : m < D * D * D) :
    coord_to_idx D (idx_to_coord D m).1 (idx_to_coord D m).2.1
      (idx_to_coord D m).2.2 = m := by
  obtain ⟨hre, hx, hy, hz⟩ := cell_decomp D m hm
  show ((m / (D * D) : Nat) : Int).toNat * D * D +
    ((m / D % D : Nat) : Int).toNat * D + ((m % D : Nat) : Int).toNat = m
  rw [Int.toNat_natCast, Int.toNat_natCast, Int.toNat_natCast]
  exact hre

theorem mirror_coord_idx (D : Nat) (c : Coord) (hc : cubeInRange D c) :
    coord_to_idx D ((D : Int) - 1 - c.1) c.2.1 c.2.2 =
      mirror_idx D (coord_to_idx D c.1 c.2.1 c.2.2) := by
  obtain ⟨h1, h2, h3, h4, h5, h6⟩ := hc
  have hD : 0 < D := by omega
  have hx : c.1.toNat < D := by omega
  have hy : c.2.1.toNat < D := by omega
  have hz : c.2.2.toNat < D := by omega
  have hxm : ((D : Int) - 1 - c.1).toNat = D - 1 - c.1.toNat := by omega
  show ((D : Int) - 1 - c.1).toNat * D * D + c.2.1.toNat * D + c.2.2.toNat =
    mirror_idx D (c.1.toNat * D * D + c.2.1.toNat * D + c.2.2.toNat)
  obtain ⟨he1, he2, he3⟩ := comp_extract D c.1.toNat c.2.1.toNat c.2.2.toNat hy hz
  unfold mirror_idx
  rw [he1, he2, he3, hxm]

/-- A rotation action commutes with a single cell write. -/
theorem apply_keySet_comm (gs : Nat) (row : List Nat) (key i v : Nat)
    (hgs : 0 < gs) (hi : i < gs) (hrow : RowOK gs row) :
    apply_rotation gs row (keySet gs key i v) =
      keySet gs (apply_rotation gs row key) (row.getD i 0) v := by
  obtain ⟨hlen, hnd, hent, hsurj⟩ := hrow
  have hrowi : row.getD i 0 < gs := hent _ (getD_mem_of_lt row i (by omega))
  refine key_ext gs _ _
    (apply_rotation_lt gs row _ hgs hent hnd)
    (keySet_lt gs _ _ v hgs (apply_rotation_lt gs row key hgs hent hnd)) ?_
  intro j hj
  obtain ⟨s, hsgs, hsj⟩ := hsurj j hj
  rw [← hsj, apply_rotation_get gs row _ hgs hent hnd s (by omega)]
  by_cases hsi : s = i
  · subst hsi
    rw [keyGet_keySet_same, keyGet_keySet_same]
  · have hne : row.getD s 0 ≠ row.getD i 0 := by
      intro hcon
      exact hsi (getD_inj row hnd s i (by omega) (by omega) hcon)
    rw [keyGet_keySet_other gs key i v s hi hsgs hsi,
      keyGet_keySet_other gs _ (row.getD i 0) v (row.getD s 0) hrowi
        (by rw [hsj]; exact hj) hne,
      apply_rotation_get gs row key hgs hent hnd s (by omega)]

theorem cube_fold_lt (gs : Nat) (hgs : 0 < gs) (D v : Nat) :
    ∀ (cubes : List Coord) (g : Nat), g < 256 ^ gs →
      cubes.foldl (fun g c =>
        keySet gs g (coord_to_idx D c.1 c.2.1 c.2.2) v) g < 256 ^ gs
  | [], g => fun hg => hg
  | c :: cubes, g => fun hg => by
    rw [List.foldl_cons]
    exact cube_fold_lt gs hgs D v cubes _ (keySet_lt gs g _ v hgs hg)

theorem solution_fold_lt (gs : Nat) (hgs : 0 < gs) (D : Nat) :
    ∀ (sol : List PlacedPiece) (g : Nat), g < 256 ^ gs →
      sol.foldl (fun grid placed =>
        placed.cubes.foldl (fun grid c =>
          keySet gs grid (coord_to_idx D c.1 c.2.1 c.2.2)
            ((placed.piece_index + 1) % 256)) grid) g < 256 ^ gs
  | [], g => fun hg => hg
  | p :: sol, g => fun hg => by
    rw [List.foldl_cons]
    exact solution_fold_lt gs hgs D sol _ (cube_fold_lt gs hgs D _ p.cubes g hg)

theorem solution_to_grid_lt (D gs : Nat) (hgs : 0 < gs) (sol : List PlacedPiece) :
    solution_to_grid D gs sol < 256 ^ gs := by
  unfold solution_to_grid
  exact solution_fold_lt gs hgs D sol 0 (pow_pos (by norm_num) gs)

/-- A rotation action commutes with writing one piece's cubes. -/
theorem cube_fold_comm (D gs : Nat) (row : List Nat) (v : Nat)
    (hgs3 : gs = D * D * D) (hgs : 0 < gs) (hrow : RowOK gs row) :
    ∀ (cubes : List Coord) (g : Nat), g < 256 ^ gs →
      (∀ c ∈ cubes, cubeInRange D c) →
      apply_rotation gs row (cubes.foldl (fun g c =>
          keySet gs g (coord_to_idx D c.1 c.2.1 c.2.2) v) g) =
        (cubes.map (fun c => idx_to_coord D
            (row.getD (coord_to_idx D c.1 c.2.1 c.2.2) 0))).foldl
          (fun g c => keySet gs g (coord_to_idx D c.1 c.2.1 c.2.2) v)
          (apply_rotation gs row g)
  | [], g => by
    intro _ _
    rfl
  | c :: cubes, g => by
    intro hgb hrange
    have hcr := hrange c (List.mem_cons_self _ _)
    have hidx : coord_to_idx D c.1 c.2.1 c.2.2 < gs := by
      rw [hgs3]
      exact coord_to_idx_lt D c hcr
    have hrowi : row.getD (coord_to_idx D c.1 c.2.1 c.2.2) 0 < gs :=
      hrow.2.2.1 _ (getD_mem_of_lt row _ (by rw [hrow.1]; omega))
    rw [List.map_cons, List.foldl_cons, List.foldl_cons]
    rw [cube_fold_comm D gs row v hgs3 hgs hrow cubes _
      (keySet_lt gs g _ v hgs hgb)
      (fun c' hc' => hrange c' (List.mem_cons_of_mem _ hc'))]
    rw [idx_coord_roundtrip D _ (by omega)]
    rw [apply_keySet_comm gs row g _ v hgs hidx hrow]

/-- A rotation action commutes with building the whole grid key. -/
theorem solution_fold_comm (D gs : Nat) (row : List Nat)
    (hgs3 : gs = D * D * D) (hgs : 0 < gs) (hrow : RowOK gs row) :
    ∀ (sol : List PlacedPiece) (g : Nat), g < 256 ^ gs →
      (∀ p ∈ sol, ∀ c ∈ p.cubes, cubeInRange D c) →
      apply_rotation gs row (sol.foldl (fun grid placed =>
          placed.cubes.foldl (fun grid c =>
            keySet gs grid (coord_to_idx D c.1 c.2.1 c.2.2)
              ((placed.piece_index + 1) % 256)) grid) g) =
        (sol.map (fun p =>
          ({ p with cubes := p.cubes.map (fun c => idx_to_coord D
              (row.getD (coord_to_idx D c.1 c.2.1 c.2.2) 0)) } : PlacedPiece))).foldl
          (fun grid placed =>
            placed.cubes.foldl (fun grid c =>
              keySet gs grid (coord_to_idx D c.1 c.2.1 c.2.2)
                ((placed.piece_index + 1) % 256)) grid)
          (apply_rotation gs row g)
  | [], g => by
    intro _ _
    rfl
  | p :: sol, g => by
    intro hgb hrange
    rw [List.map_cons, List.foldl_cons, List.foldl_cons]
    rw [solution_fold_comm D gs row hgs3 hgs hrow sol _
      (cube_fold_lt gs hgs D _ p.cubes g hgb)
      (fun p' hp' => hrange p' (List.mem_cons_of_mem _ hp'))]
    rw [cube_fold_comm D gs row _ hgs3 hgs hrow p.cubes g hgb
      (hrange p (List.mem_cons_self _ _))]

/-- Rotating every cube of a solution rotates its grid key. -/
theorem grid_rotate (D gs : Nat) (table : List (List Nat)) (r : Nat)
    (sol : List PlacedPiece)
    (hgs3 : gs = D * D * D) (hgs : 0 < gs) (hrow : RowOK gs (table.getD r []))
    (hrange : ∀ p ∈ sol, ∀ c ∈ p.cubes, cubeInRange D c) :
    solution_to_grid D gs (rotate_solution D table r sol) =
      apply_rotation gs (table.getD r [])
        (solution_to_grid D gs sol) := by
  unfold solution_to_grid rotate_solution
  rw [solution_fold_comm D gs (table.getD r []) hgs3 hgs hrow sol 0
    (pow_pos (by norm_num) gs) hrange]
  rw [apply_rotation_zero gs _ hgs hrow]

/-- The x-reflection commutes with a single cell write (the cell mirrored). -/
theorem reflect_keySet_comm (D gs key i v : Nat)
    (hgs3 : gs = D * D * D) (hgs : 0 < gs) (hi : i < gs)
    (hdest : ∀ p ∈ (List.range D).flatMap (fun x => (List.range D).flatMap (fun y =>
        (List.range D).map (fun z =>
          (x * D * D + y * D + z, (D - 1 - x) * D * D + y * D + z)))), p.2 < gs)
    (hnd : (((List.range D).flatMap (fun x => (List.range D).flatMap (fun y =>
        (List.range D).map (fun z =>
          (x * D * D + y * D + z, (D - 1 - x) * D * D + y * D + z))))).map
        (·.2)).Nodup) :
    reflect_key_x D gs (keySet gs key i v) =
      keySet gs (reflect_key_x D gs key) (mirror_idx D i) v := by
  have hmi : mirror_idx D i < gs := by
    have := (mirror_idx_facts D i (by omega)).1
    omega
  refine key_ext gs _ _
    (reflect_lt D gs _ hgs hdest hnd)
    (keySet_lt gs _ _ v hgs (reflect_lt D gs key hgs hdest hnd)) ?_
  intro j hj
  have hmj : mirror_idx D j < gs := by
    have := (mirror_idx_facts D j (by omega)).1
    omega
  rw [reflect_get D gs _ hgs3 hgs hdest hnd j hj]
  by_cases hc : mirror_idx D j = i
  · have hc2 : j = mirror_idx D i := by
      rw [← hc, (mirror_idx_facts D j (by omega)).2]
    rw [hc, keyGet_keySet_same, hc2, keyGet_keySet_same]
  · have hc2 : j ≠ mirror_idx D i := by
      intro hjc
      apply hc
      rw [hjc, (mirror_idx_facts D i (by omega)).2]
    rw [keyGet_keySet_other gs key i v (mirror_idx D j) hi hmj hc,
      keyGet_keySet_other gs _ (mirror_idx D i) v j hmi hj hc2,
      reflect_get D gs key hgs3 hgs hdest hnd j hj]

/-- The chiral swap commutes with a single cell write (the byte substituted). -/
theorem swap_keySet_comm (gs : Nat) (pair : Nat × Nat) (key i v : Nat)
    (hgs : 0 < gs) (hkey : key < 256 ^ gs) (hi : i < gs) (hv : v < 256) :
    swap_chiral_in_key gs (keySet gs key i v) pair =
      keySet gs (swap_chiral_in_key gs key pair) i
        (if v = (pair.1 + 1) % 256 then (pair.2 + 1) % 256
         else if v = (pair.2 + 1) % 256 then (pair.1 + 1) % 256 else v) := by
  have hsubv : (if v = (pair.1 + 1) % 256 then (pair.2 + 1) % 256
      else if v = (pair.2 + 1) % 256 then (pair.1 + 1) % 256 else v) < 256 := by
    split_ifs
    · exact Nat.mod_lt _ (by norm_num)
    · exact Nat.mod_lt _ (by norm_num)
    · exact hv
  refine key_ext gs _ _
    (swap_lt gs _ pair hgs (keySet_lt gs key i v hgs hkey))
    (keySet_lt gs _ i _ hgs (swap_lt gs key pair hgs hkey)) ?_
  intro j hj
  rw [swap_get gs _ pair hgs (keySet_lt gs key i v hgs hkey) j hj]
  by_cases hc : j = i
  · subst hc
    rw [keyGet_keySet_same, keyGet_keySet_same, Nat.mod_eq_of_lt hv,
      Nat.mod_eq_of_lt hsubv]
  · rw [keyGet_keySet_other gs key i v j hi hj hc,
      keyGet_keySet_other gs _ i _ j hi hj hc,
      swap_get gs key pair hgs hkey j hj]

/-- Reflect-then-swap commutes with writing one piece's cubes, mirroring
cells and substituting the written byte. -/
theorem cube_fold_comm_rs (D gs : Nat) (pair : Nat × Nat) (v : Nat)
    (hgs3 : gs = D * D * D) (hgs : 0 < gs) (hv : v < 256)
    (hdest : ∀ p ∈ (List.range D).flatMap (fun x => (List.range D).flatMap (fun y =>
        (List.range D).map (fun z =>
          (x * D * D + y * D + z, (D - 1 - x) * D * D + y * D + z)))), p.2 < gs)
    (hnd : (((List.range D).flatMap (fun x => (List.range D).flatMap (fun y =>
        (List.range D).map (fun z =>
          (x * D * D + y * D + z, (D - 1 - x) * D * D + y * D + z))))).map
        (·.2)).Nodup) :
    ∀ (cubes : List Coord) (g : Nat), g < 256 ^ gs →
      (∀ c ∈ cubes, cubeInRange D c) →
      swap_chiral_in_key gs (reflect_key_x D gs (cubes.foldl (fun g c =>
          keySet gs g (coord_to_idx D c.1 c.2.1 c.2.2) v) g)) pair =
        (cubes.map (fun c => (((D : Int) - 1 - c.1, c.2.1, c.2.2) : Coord))).foldl
          (fun g c => keySet gs g (coord_to_idx D c.1 c.2.1 c.2.2)
            (if v = (pair.1 + 1) % 256 then (pair.2 + 1) % 256
             else if v = (pair.2 + 1) % 256 then (pair.1 + 1) % 256 else v))
          (swap_chiral_in_key gs (reflect_key_x D gs g) pair)
  | [], g => by
    intro _ _
    rfl
  | c :: cubes, g => by
    intro hgb hrange
    have hcr := hrange c (List.mem_cons_self _ _)
    have hidx : coord_to_idx D c.1 c.2.1 c.2.2 < gs := by
      rw [hgs3]
      exact coord_to_idx_lt D c hcr
    rw [List.map_cons, List.foldl_cons, List.foldl_cons]
    rw [cube_fold_comm_rs D gs pair v hgs3 hgs hv hdest hnd cubes _
      (keySet_lt gs g _ v hgs hgb)
      (fun c' hc' => hrange c' (List.mem_cons_of_mem _ hc'))]
    have hmidx : mirror_idx D (coord_to_idx D c.1 c.2.1 c.2.2) < gs := by
      have := (mirror_idx_facts D (coord_to_idx D c.1 c.2.1 c.2.2) (by omega)).1
      omega
    rw [mirror_coord_idx D c hcr]
    rw [reflect_keySet_comm D gs g _ v hgs3 hgs hidx hdest hnd]
    rw [swap_keySet_comm gs pair (reflect_key_x D gs g)
      (mirror_idx D (coord_to_idx D c.1 c.2.1 c.2.2)) v hgs
      (reflect_lt D gs g hgs hdest hnd) hmidx hv]

theorem value_subst_match (pair : Nat × Nat) (p : Nat) (hp : p + 1 < 256)
    (h1 : pair.1 + 1 < 256) (h2 : pair.2 + 1 < 256) :
    ((if p = pair.1 then pair.2 else if p = pair.2 then pair.1 else p) + 1) % 256 =
      (if (p + 1) % 256 = (pair.1 + 1) % 256 then (pair.2 + 1) % 256
       else if (p + 1) % 256 = (pair.2 + 1) % 256 then (pair.1 + 1) % 256
       else (p + 1) % 256) := by
  split_ifs <;> omega

theorem reflect_zero (D gs : Nat) (hgs3 : gs = D * D * D) (hgs : 0 < gs)
    (hdest : ∀ p ∈ (List.range D).flatMap (fun x => (List.range D).flatMap (fun y =>
        (List.range D).map (fun z =>
          (x * D * D + y * D + z, (D - 1 - x) * D * D + y * D + z)))), p.2 < gs)
    (hnd : (((List.range D).flatMap (fun x => (List.range D).flatMap (fun y =>
        (List.range D).map (fun z =>
          (x * D * D + y * D + z, (D - 1 - x) * D * D + y * D + z))))).map
        (·.2)).Nodup) :
    reflect_key_x D gs 0 = 0 := by
  refine key_ext gs _ _ (reflect_lt D gs 0 hgs hdest hnd)
    (pow_pos (by norm_num) gs) ?_
  intro j hj
  rw [reflect_get D gs 0 hgs3 hgs hdest hnd j hj, keyGet_zero, keyGet_zero]

theorem swap_zero (gs : Nat) (pair : Nat × Nat) (hgs : 0 < gs)
    (h1 : pair.1 + 1 < 256) (h2 : pair.2 + 1 < 256) :
    swap_chiral_in_key gs 0 pair = 0 := by
  refine key_ext gs _ _ (swap_lt gs 0 pair hgs (pow_pos (by norm_num) gs))
    (pow_pos (by norm_num) gs) ?_
  intro j hj
  rw [swap_get gs 0 pair hgs (pow_pos (by norm_num) gs) j hj, keyGet_zero]
  split_ifs <;> omega

/-- Reflect-then-swap commutes with building the whole grid key, mirroring
the cubes and swapping the chiral piece indices. -/
theorem solution_fold_comm_rs (D gs : Nat) (pair : Nat × Nat)
    (hgs3 : gs = D * D * D) (hgs : 0 < gs)
    (h1 : pair.1 + 1 < 256) (h2 : pair.2 + 1 < 256)
    (hdest : ∀ p ∈ (List.range D).flatMap (fun x => (List.range D).flatMap (fun y =>
        (List.range D).map (fun z =>
          (x * D * D + y * D + z, (D - 1 - x) * D * D + y * D + z)))), p.2 < gs)
    (hnd : (((List.range D).flatMap (fun x => (List.range D).flatMap (fun y =>
        (List.range D).map (fun z =>
          (x * D * D + y * D + z, (D - 1 - x) * D * D + y * D + z))))).map
        (·.2)).Nodup) :
    ∀ (sol : List PlacedPiece) (g : Nat), g < 256 ^ gs →
      (∀ p ∈ sol, ∀ c ∈ p.cubes, cubeInRange D c) →
      (∀ p ∈ sol, p.piece_index + 1 < 256) →
      swap_chiral_in_key gs (reflect_key_x D gs (sol.foldl (fun grid placed =>
          placed.cubes.foldl (fun grid c =>
            keySet gs grid (coord_to_idx D c.1 c.2.1 c.2.2)
              ((placed.piece_index + 1) % 256)) grid) g)) pair =
        (sol.map (fun p =>
          ({ piece_index :=
              if p.piece_index = pair.1 then pair.2
              else if p.piece_index = pair.2 then pair.1 else p.piece_index
           , cubes := p.cubes.map (fun c =>
              (((D : Int) - 1 - c.1, c.2.1, c.2.2) : Coord)) } : PlacedPiece))).foldl
          (fun grid placed =>
            placed.cubes.foldl (fun grid c =>
              keySet gs grid (coord_to_idx D c.1 c.2.1 c.2.2)
                ((placed.piece_index + 1) % 256)) grid)
          (swap_chiral_in_key gs (reflect_key_x D gs g) pair)
  | [], g => by
    intro _ _ _
    rfl
  | p :: sol, g => by
    intro hgb hrange hidxb
    rw [List.map_cons, List.foldl_cons, List.foldl_cons]
    rw [solution_fold_comm_rs D gs pair hgs3 hgs h1 h2 hdest hnd sol _
      (cube_fold_lt gs hgs D _ p.cubes g hgb)
      (fun p' hp' => hrange p' (List.mem_cons_of_mem _ hp'))
      (fun p' hp' => hidxb p' (List.mem_cons_of_mem _ hp'))]
    rw [cube_fold_comm_rs D gs pair _ hgs3 hgs (Nat.mod_lt _ (by norm_num))
      hdest hnd p.cubes g hgb (hrange p (List.mem_cons_self _ _))]
    rw [value_subst_match pair p.piece_index
      (hidxb p (List.mem_cons_self _ _)) h1 h2]

/-- C7 on grid keys: mirroring all cubes and swapping the chiral indices
turns the grid key into the swapped reflection of the original key. -/
theorem grid_reflect_swap (D gs : Nat) (pair : Nat × Nat) (sol : List PlacedPiece)
    (hgs3 : gs = D * D * D) (hgs : 0 < gs)
    (h1 : pair.1 + 1 < 256) (h2 : pair.2 + 1 < 256)
    (hrange : ∀ p ∈ sol, ∀ c ∈ p.cubes, cubeInRange D c)
    (hidxb : ∀ p ∈ sol, p.piece_index + 1 < 256)
    (hdest : ∀ p ∈ (List.range D).flatMap (fun x => (List.range D).flatMap (fun y =>
        (List.range D).map (fun z =>
          (x * D * D + y * D + z, (D - 1 - x) * D * D + y * D + z)))), p.2 < gs)
    (hnd : (((List.range D).flatMap (fun x => (List.range D).flatMap (fun y =>
        (List.range D).map (fun z =>
          (x * D * D + y * D + z, (D - 1 - x) * D * D + y * D + z))))).map
        (·.2)).Nodup) :
    solution_to_grid D gs (reflect_swap_solution D pair sol) =
      swap_chiral_in_key gs
        (reflect_key_x D gs (solution_to_grid D gs sol)) pair := by
  unfold solution_to_grid reflect_swap_solution
  rw [solution_fold_comm_rs D gs pair hgs3 hgs h1 h2 hdest hnd sol 0
    (pow_pos (by norm_num) gs) hrange hidxb]
  rw [reflect_zero D gs hgs3 hgs hdest hnd, swap_zero gs pair hgs h1 h2]

theorem rot_table_3_eq : build_rotation_table 3 27 = ROT_TABLE_3 := by decide!

theorem rot_table_4_eq : build_rotation_table 4 64 = ROT_TABLE_4 := by decide!

theorem rows3 : ∀ r, r < 24 → RowOK 27 (ROT_TABLE_3.getD r []) := by decide!

theorem id03 : ∀ s, s < 27 → (ROT_TABLE_3.getD 0 []).getD s 0 = s := by decide!

theorem comp3 : ∀ a, a < 24 → ∀ b, b < 24 → ∃ c, c < 24 ∧
    (ROT_TABLE_3.getD b []).map (fun t => (ROT_TABLE_3.getD a []).getD t 0) =
      ROT_TABLE_3.getD c [] := by decide!

theorem div3 : ∀ b, b < 24 → ∀ m, m < 24 → ∃ a, a < 24 ∧
    (ROT_TABLE_3.getD b []).map (fun t => (ROT_TABLE_3.getD a []).getD t 0) =
      ROT_TABLE_3.getD m [] := by decide!

theorem conj3 : ∀ a, a < 24 → ∃ a', a' < 24 ∧ ∀ s, s < 27 →
    mirror_idx 3 ((ROT_TABLE_3.getD a []).getD s 0) =
      (ROT_TABLE_3.getD a' []).getD (mirror_idx 3 s) 0 := by decide!

theorem dest3 : ∀ p ∈ (List.range 3).flatMap (fun x => (List.range 3).flatMap (fun y =>
    (List.range 3).map (fun z =>
      (x * 3 * 3 + y * 3 + z, (3 - 1 - x) * 3 * 3 + y * 3 + z)))), p.2 < 27 := by
  decide!

theorem nd3 : (((List.range 3).flatMap (fun x => (List.range 3).flatMap (fun y =>
    (List.range 3).map (fun z =>
      (x * 3 * 3 + y * 3 + z, (3 - 1 - x) * 3 * 3 + y * 3 + z))))).map
    (·.2)).Nodup := by decide!

theorem rows4 : ∀ r, r < 24 → RowOK 64 (ROT_TABLE_4.getD r []) := by decide!

theorem id04 : ∀ s, s < 64 → (ROT_TABLE_4.getD 0 []).getD s 0 = s := by decide!

theorem comp4 : ∀ a, a < 24 → ∀ b, b < 24 → ∃ c, c < 24 ∧
    (ROT_TABLE_4.getD b []).map (fun t => (ROT_TABLE_4.getD a []).getD t 0) =
      ROT_TABLE_4.getD c [] := by decide!

theorem div4 : ∀ b, b < 24 → ∀ m, m < 24 → ∃ a, a < 24 ∧
    (ROT_TABLE_4.getD b []).map (fun t => (ROT_TABLE_4.getD a []).getD t 0) =
      ROT_TABLE_4.getD m [] := by decide!

theorem conj4 : ∀ a, a < 24 → ∃ a', a' < 24 ∧ ∀ s, s < 64 →
    mirror_idx 4 ((ROT_TABLE_4.getD a []).getD s 0) =
      (ROT_TABLE_4.getD a' []).getD (mirror_idx 4 s) 0 := by decide!

theorem dest4 : ∀ p ∈ (List.range 4).flatMap (fun x => (List.range 4).flatMap (fun y =>
    (List.range 4).map (fun z =>
      (x * 4 * 4 + y * 4 + z, (4 - 1 - x) * 4 * 4 + y * 4 + z)))), p.2 < 64 := by
  decide!

theorem nd4 : (((List.range 4).flatMap (fun x => (List.range 4).flatMap (fun y =>
    (List.range 4).map (fun z =>
      (x * 4 * 4 + y * 4 + z, (4 - 1 - x) * 4 * 4 + y * 4 + z))))).map
    (·.2)).Nodup := by decide!

/-- Canonical-key invariance under a table rotation, from the table facts. -/
theorem canonical_key_rot_inv_generic (D gs : Nat) (table : List (List Nat))
    (r : Nat) (sol : List PlacedPiece) (cp : Option (Nat × Nat))
    (hgs3 : gs = D * D * D) (hgs : 0 < gs) (htlen : table.length = 24)
    (hr : r < 24)
    (hrows : ∀ a, a < 24 → RowOK gs (table.getD a []))
    (hid0 : ∀ s, s < gs → (table.getD 0 []).getD s 0 = s)
    (hcomp : ∀ a, a < 24 → ∀ b, b < 24 → ∃ c, c < 24 ∧
      (table.getD b []).map (fun t => (table.getD a []).getD t 0) =
        table.getD c [])
    (hdiv : ∀ b, b < 24 → ∀ m, m < 24 → ∃ a, a < 24 ∧
      (table.getD b []).map (fun t => (table.getD a []).getD t 0) =
        table.getD m [])
    (hconj : ∀ a, a < 24 → ∃ a', a' < 24 ∧ ∀ s, s < gs →
      mirror_idx D ((table.getD a []).getD s 0) =
        (table.getD a' []).getD (mirror_idx D s) 0)
    (hdest : ∀ p ∈ (List.range D).flatMap (fun x => (List.range D).flatMap (fun y =>
        (List.range D).map (fun z =>
          (x * D * D + y * D + z, (D - 1 - x) * D * D + y * D + z)))), p.2 < gs)
    (hnd : (((List.range D).flatMap (fun x => (List.range D).flatMap (fun y =>
        (List.range D).map (fun z =>
          (x * D * D + y * D + z, (D - 1 - x) * D * D + y * D + z))))).map
        (·.2)).Nodup)
    (hcubes : ∀ p ∈ sol, ∀ c ∈ p.cubes, cubeInRange D c) :
    canonical_key D gs table (rotate_solution D table r sol) cp =
      canonical_key D gs table sol cp := by
  unfold canonical_key
  rw [grid_rotate D gs table r sol hgs3 hgs (hrows r hr) hcubes]
  exact fswr_rot_inv D gs table cp (solution_to_grid D gs sol) r hgs3 hgs
    (solution_to_grid_lt D gs hgs sol) htlen hr hrows hid0 hcomp hdiv hconj
    hdest hnd

/-- Canonical-key invariance under reflection plus chiral swap, from the
reflection-list facts. -/
theorem canonical_key_rs_inv_generic (D gs : Nat) (table : List (List Nat))
    (pair : Nat × Nat) (sol : List PlacedPiece)
    (hgs3 : gs = D * D * D) (hgs : 0 < gs)
    (h1 : pair.1 + 1 < 256) (h2 : pair.2 + 1 < 256)
    (hdest : ∀ p ∈ (List.range D).flatMap (fun x => (List.range D).flatMap (fun y =>
        (List.range D).map (fun z =>
          (x * D * D + y * D + z, (D - 1 - x) * D * D + y * D + z)))), p.2 < gs)
    (hnd : (((List.range D).flatMap (fun x => (List.range D).flatMap (fun y =>
        (List.range D).map (fun z =>
          (x * D * D + y * D + z, (D - 1 - x) * D * D + y * D + z))))).map
        (·.2)).Nodup)
    (hcubes : ∀ p ∈ sol, ∀ c ∈ p.cubes, cubeInRange D c)
    (hidxb : ∀ p ∈ sol, p.piece_index + 1 < 256) :
    canonical_key D gs table (reflect_swap_solution D pair sol) (some pair) =
      canonical_key D gs table sol (some pair) := by
  unfold canonical_key
  rw [grid_reflect_swap D gs pair sol hgs3 hgs h1 h2 hcubes hidxb hdest hnd]
  exact fswr_reflect_swap_inv D gs table pair (solution_to_grid D gs sol)
    hgs3 hgs (solution_to_grid_lt D gs hgs sol) hdest hnd

/-- C6: for the program's two grids (Soma 3/27 and Bedlam 4/64), applying
any of the 24 table rotations' grid-cell permutations to all cube positions
of a solution, keeping each cube's piece index, leaves `canonical_key`
unchanged. -/
theorem canonical_key_rotation_invariant (DIM GRID_SIZE r : Nat)
    (sol : List PlacedPiece) (cp : Option (Nat × Nat))
    (hdim : DIM = 3 ∧ GRID_SIZE = 27 ∨ DIM = 4 ∧ GRID_SIZE = 64)
    (hr : r < 24)
    (hcubes : ∀ p ∈ sol, ∀ c ∈ p.cubes, cubeInRange DIM c) :
    canonical_key DIM GRID_SIZE (build_rotation_table DIM GRID_SIZE)
        (rotate_solution DIM (build_rotation_table DIM GRID_SIZE) r sol) cp =
      canonical_key DIM GRID_SIZE (build_rotation_table DIM GRID_SIZE) sol cp := by
  rcases hdim with ⟨rfl, rfl⟩ | ⟨rfl, rfl⟩
  · rw [rot_table_3_eq]
    exact canonical_key_rot_inv_generic 3 27 ROT_TABLE_3 r sol cp rfl
      (by norm_num) rfl hr rows3 id03 comp3 div3 conj3 dest3 nd3 hcubes
  · rw [rot_table_4_eq]
    exact canonical_key_rot_inv_generic 4 64 ROT_TABLE_4 r sol cp rfl
      (by norm_num) rfl hr rows4 id04 comp4 div4 conj4 dest4 nd4 hcubes

/-- C7: for the program's two grids, reflecting all cube positions of a
solution across the x center plane and swapping the two chiral-pair piece
indices yields a solution with the same `canonical_key` (computed with that
chiral pair declared). -/
theorem canonical_key_chiral_invariant (DIM GRID_SIZE : Nat) (pair : Nat × Nat)
    (sol : List PlacedPiece)
    (hdim : DIM = 3 ∧ GRID_SIZE = 27 ∨ DIM = 4 ∧ GRID_SIZE = 64)
    (h1 : pair.1 + 1 < 256) (h2 : pair.2 + 1 < 256)
    (hcubes : ∀ p ∈ sol, ∀ c ∈ p.cubes, cubeInRange DIM c)
    (hidxb : ∀ p ∈ sol, p.piece_index + 1 < 256) :
    canonical_key DIM GRID_SIZE (build_rotation_table DIM GRID_SIZE)
        (reflect_swap_solution DIM pair sol) (some pair) =
      canonical_key DIM GRID_SIZE (build_rotation_table DIM GRID_SIZE) sol
        (some pair) := by
  rcases hdim with ⟨rfl, rfl⟩ | ⟨rfl, rfl⟩
  · rw [rot_table_3_eq]
    exact canonical_key_rs_inv_generic 3 27 ROT_TABLE_3 pair sol rfl
      (by norm_num) h1 h2 dest3 nd3 hcubes hidxb
  · rw [rot_table_4_eq]
    exact canonical_key_rs_inv_generic 4 64 ROT_TABLE_4 pair sol rfl
      (by norm_num) h1 h2 dest4 nd4 hcubes hidxb

/-- Witness for `canonical_key_rotation_invariant` on the Soma grid. -/
theorem canonical_key_rotation_invariant_witness :
    canonical_key 3 27 (build_rotation_table 3 27)
        (rotate_solution 3 (build_rotation_table 3 27) 5
          [{ piece_index := 0, cubes := [((0 : Int), (0 : Int), (0 : Int))] }])
        (some (4, 6)) =
      canonical_key 3 27 (build_rotation_table 3 27)
        [{ piece_index := 0, cubes := [((0 : Int), (0 : Int), (0 : Int))] }]
        (some (4, 6)) :=
  canonical_key_rotation_invariant 3 27 5
    [{ piece_index := 0, cubes := [((0 : Int), (0 : Int), (0 : Int))] }]
    (some (4, 6)) (Or.inl ⟨rfl, rfl⟩) (by decide) (by decide)

/-- Witness for `canonical_key_chiral_invariant` on the Soma grid. -/
theorem canonical_key_chiral_invariant_witness :
    canonical_key 3 27 (build_rotation_table 3 27)
        (reflect_swap_solution 3 (4, 6)
          [{ piece_index := 4, cubes := [((0 : Int), (0 : Int), (0 : Int))] }])
        (some (4, 6)) =
      canonical_key 3 27 (build_rotation_table 3 27)
        [{ piece_index := 4, cubes := [((0 : Int), (0 : Int), (0 : Int))] }]
        (some (4, 6)) :=
  canonical_key_chiral_invariant 3 27 (4, 6)
    [{ piece_index := 4, cubes := [((0 : Int), (0 : Int), (0 : Int))] }]
    (Or.inl ⟨rfl, rfl⟩) (by decide) (by decide) (by decide) (by decide)


end Blocker
